import Mathlib

set_option maxRecDepth 40000

/-!
# Verification of the bibliography reconciliation scripts

Shallow embedding of the core routines of `clean_publications_v5.py`,
`audit_publications.py` and `merge_pdfs_v3.py`, together with theorems
settling the specification claims about them.

Strings are modelled as `List Char`; Python regular-expression scans are
embedded as explicit character scanners with the same leftmost-match
semantics.  All inputs in scope are ASCII, so Python's `\w`, `\s`,
`str.lower`, `str.isdigit` coincide with the ASCII classifiers used here.
-/

/-- Python `\s` on ASCII text: space, tab, newline, carriage return,
vertical tab, form feed. -/
def isSpaceChar (c : Char) : Bool :=
  c = ' ' || c = '\t' || c = '\n' || c = '\r' || c = '\x0b' || c = '\x0c'

/-- Python `\w` on ASCII text: letters, digits, underscore. -/
def isWordChar (c : Char) : Bool :=
  c.isAlphanum || c = '_'

theorem dropWhile_length_le (p : Char → Bool) :
    ∀ l : List Char, (l.dropWhile p).length ≤ l.length := by
  intro l
  induction l with
  | nil => simp
  | cons c rest ih =>
    by_cases h : p c
    · rw [List.dropWhile_cons_of_pos h]
      exact Nat.le_succ_of_le ih
    · rw [List.dropWhile_cons_of_neg (by simpa using h)]

/-- `extract_braced_content` (clean_publications_v5.py): scan after the
opening brace with current nesting depth `d`, returning the content up to
the brace that brings the depth back to zero together with the remainder
after that brace, or `none` if the group is unterminated. -/
def bracedAux : List Char → Nat → Option (List Char × List Char)
  | [], _ => none
  | c :: rest, d =>
    if c = '}' then
      if d = 1 then some ([], rest)
      else
        match bracedAux rest (d - 1) with
        | some (v, r) => some (c :: v, r)
        | none => none
    else
      match bracedAux rest (if c = '{' then d + 1 else d) with
      | some (v, r) => some (c :: v, r)
      | none => none

/-- `extract_braced_content` at a caller-checked `'{'` position. -/
def extractBraced : List Char → Option (List Char × List Char)
  | [] => none
  | c :: rest => if c = '{' then bracedAux rest 1 else none

theorem bracedAux_length {s : List Char} {d : Nat} {v r : List Char}
    (h : bracedAux s d = some (v, r)) : r.length < s.length := by
  induction s generalizing d v r with
  | nil => simp [bracedAux] at h
  | cons c rest ih =>
    rw [bracedAux] at h
    split at h
    · split at h
      · obtain ⟨-, h2⟩ : [] = v ∧ rest = r := by simpa using h
        subst h2
        simp
      · cases h2 : bracedAux rest (d - 1) with
        | none => rw [h2] at h; exact absurd h (by simp)
        | some p =>
          obtain ⟨v', r'⟩ := p
          rw [h2] at h
          obtain ⟨-, h3⟩ : c :: v' = v ∧ r' = r := by simpa using h
          subst h3
          exact Nat.lt_succ_of_lt (ih h2)
    · cases h2 : bracedAux rest (if c = '{' then d + 1 else d) with
      | none => rw [h2] at h; exact absurd h (by simp)
      | some p =>
        obtain ⟨v', r'⟩ := p
        rw [h2] at h
        obtain ⟨-, h3⟩ : c :: v' = v ∧ r' = r := by simpa using h
        subst h3
        exact Nat.lt_succ_of_lt (ih h2)

theorem extractBraced_length {s : List Char} {v r : List Char}
    (h : extractBraced s = some (v, r)) : r.length < s.length := by
  cases s with
  | nil => simp [extractBraced] at h
  | cons c rest =>
    rw [extractBraced] at h
    split at h
    · exact Nat.lt_succ_of_lt (bracedAux_length h)
    · exact absurd h (by simp)

/-- The leftmost match of `(\w+)\s*=\s*` (the generic field scanner of
`parse_fields`): returns the matched name and the remainder after the
`=` and its trailing whitespace.  A position strictly inside a
maximal word run sees the same run end, so its `=`-check agrees with the
run start's; recursing character by character is therefore equivalent to
`re.search` resuming after a failed run, and is structural. -/
def findFieldMatch : List Char → Option (List Char × List Char)
  | [] => none
  | c :: rest =>
    if isWordChar c then
      match (rest.dropWhile isWordChar).dropWhile isSpaceChar with
      | '=' :: r3 => some (c :: rest.takeWhile isWordChar, r3.dropWhile isSpaceChar)
      | _ => findFieldMatch rest
    else
      findFieldMatch rest

theorem findFieldMatch_length {s : List Char} {w r : List Char}
    (h : findFieldMatch s = some (w, r)) : r.length < s.length := by
  induction s generalizing w r with
  | nil => simp [findFieldMatch] at h
  | cons c rest ih =>
    rw [findFieldMatch] at h
    split at h
    · split at h
      · next r3 heq =>
        obtain ⟨-, h2⟩ : _ ∧ r3.dropWhile isSpaceChar = r := by simpa using h
        subst h2
        have h1 : r3.length < ((rest.dropWhile isWordChar).dropWhile isSpaceChar).length := by
          rw [heq]; simp
        have h2 := dropWhile_length_le isSpaceChar r3
        have h3 := dropWhile_length_le isSpaceChar (rest.dropWhile isWordChar)
        have h4 := dropWhile_length_le isWordChar rest
        simp only [List.length_cons]
        omega
      · have := ih h
        simp only [List.length_cons]
        omega
    · have := ih h
      simp only [List.length_cons]
      omega

/-- Split at the first `'"'`, as Python `str.find('"', i)`:
the part before the quote and the remainder after it. -/
def findQuote : List Char → Option (List Char × List Char)
  | [] => none
  | c :: rest =>
    if c = '"' then some ([], rest)
    else
      match findQuote rest with
      | some (v, r) => some (c :: v, r)
      | none => none

theorem findQuote_length {s : List Char} {v r : List Char}
    (h : findQuote s = some (v, r)) : r.length < s.length := by
  induction s generalizing v r with
  | nil => simp [findQuote] at h
  | cons c rest ih =>
    rw [findQuote] at h
    split at h
    · obtain ⟨-, h2⟩ : [] = v ∧ rest = r := by simpa using h
      subst h2
      simp
    · cases h2 : findQuote rest with
      | none => rw [h2] at h; exact absurd h (by simp)
      | some p =>
        obtain ⟨v', r'⟩ := p
        rw [h2] at h
        obtain ⟨-, h3⟩ : c :: v' = v ∧ r' = r := by simpa using h
        subst h3
        exact Nat.lt_succ_of_lt (ih h2)

/-- Case-insensitive literal match: strip the (lowercase) pattern from
the front of the input, lowercasing the input characters. -/
def stripCI : List Char → List Char → Option (List Char)
  | [], s => some s
  | _, [] => none
  | p :: ps, c :: cs => if c.toLower = p then stripCI ps cs else none

/-- The leftmost match of `author\s*=\s*` with `re.IGNORECASE`
(`parse_author_field`): the remainder after the `=` and its trailing
whitespace.  On failure the scan resumes at the next character. -/
def findAuthorStart : List Char → Option (List Char)
  | [] => none
  | c :: rest =>
    match stripCI ['a', 'u', 't', 'h', 'o', 'r'] (c :: rest) with
    | some r1 =>
      match r1.dropWhile isSpaceChar with
      | '=' :: r3 => some (r3.dropWhile isSpaceChar)
      | _ => findAuthorStart rest
    | none => findAuthorStart rest

/-- `parse_author_field`: locate the first `author =`, then read a braced
or quoted value; `none` when absent or unterminated. -/
def parseAuthorField (s : List Char) : Option (List Char) :=
  match findAuthorStart s with
  | none => none
  | some [] => none
  | some (c :: r2) =>
    if c = '{' then (extractBraced (c :: r2)).map Prod.fst
    else if c = '"' then (findQuote r2).map Prod.fst
    else none

/-- Field mappings: association lists in insertion order with
first-occurrence-wins keys, as the Python dicts are used here. -/
abbrev FieldMap := List (List Char × List Char)

/-- Python `fields[name] = value` guarded by `name not in fields`. -/
def insertIfAbsent (fs : FieldMap) (k v : List Char) : FieldMap :=
  if (fs.lookup k).isSome then fs else fs ++ [(k, v)]

/-- The main loop of `parse_fields`, with explicit fuel so the function
is structurally recursive (the loop consumes at least one character per
iteration, so fuel `s.length + 1` is never exhausted; see
`parseLoopF_congr` and `parseLoop_eq`).  Each iteration finds the next
`name = value` occurrence and reads a braced, quoted or numeric value,
skipping one character on an unreadable value start and skipping the
offending value on an unterminated brace group. -/
def parseLoopF : Nat → List Char → FieldMap → FieldMap
  | 0, _, fs => fs
  | fuel + 1, s, fs =>
    match findFieldMatch s with
    | none => fs
    | some (w, r) =>
      let name := w.map Char.toLower
      match r with
      | [] => fs
      | c :: r2 =>
        if c = '{' then
          match extractBraced (c :: r2) with
          | some (v, rest) => parseLoopF fuel rest (insertIfAbsent fs name v)
          | none => parseLoopF fuel (c :: r2) fs
        else if c = '"' then
          match findQuote r2 with
          | some (v, rest) => parseLoopF fuel rest (insertIfAbsent fs name v)
          | none => parseLoopF fuel r2 fs
        else if c.isDigit then
          parseLoopF fuel (r2.dropWhile Char.isDigit)
            (insertIfAbsent fs name (c :: r2.takeWhile Char.isDigit))
        else
          parseLoopF fuel r2 fs

theorem parseLoopF_congr :
    ∀ (f₁ : Nat) {f₂ : Nat} {s : List Char} (fs : FieldMap),
      s.length < f₁ → s.length < f₂ → parseLoopF f₁ s fs = parseLoopF f₂ s fs := by
  intro f₁
  induction f₁ with
  | zero => intro f₂ s fs h1 h2; omega
  | succ f ih =>
    intro f₂ s fs h1 h2
    cases f₂ with
    | zero => omega
    | succ g =>
      cases hm : findFieldMatch s with
      | none => rw [parseLoopF, parseLoopF, hm]
      | some p =>
        obtain ⟨w, r⟩ := p
        have hr := findFieldMatch_length hm
        cases r with
        | nil => rw [parseLoopF, parseLoopF, hm]
        | cons c r2 =>
          rw [parseLoopF, parseLoopF, hm]
          dsimp only
          simp only [List.length_cons] at hr
          by_cases hc : c = '{'
          · rw [if_pos hc, if_pos hc]
            cases hb : extractBraced (c :: r2) with
            | none =>
              dsimp only
              exact ih _ (by simp only [List.length_cons]; omega)
                (by simp only [List.length_cons]; omega)
            | some p2 =>
              obtain ⟨v, rest⟩ := p2
              dsimp only
              have := extractBraced_length hb
              simp only [List.length_cons] at this
              exact ih _ (by omega) (by omega)
          · rw [if_neg hc, if_neg hc]
            by_cases hq : c = '"'
            · rw [if_pos hq, if_pos hq]
              cases hb : findQuote r2 with
              | none =>
                dsimp only
                exact ih _ (by omega) (by omega)
              | some p2 =>
                obtain ⟨v, rest⟩ := p2
                dsimp only
                have := findQuote_length hb
                exact ih _ (by omega) (by omega)
            · rw [if_neg hq, if_neg hq]
              by_cases hd : c.isDigit
              · rw [if_pos hd, if_pos hd]
                have := dropWhile_length_le Char.isDigit r2
                exact ih _ (by omega) (by omega)
              · rw [if_neg hd, if_neg hd]
                exact ih _ (by omega) (by omega)

/-- The main loop of `parse_fields` with its canonical (always
sufficient) fuel. -/
def parseLoop (s : List Char) (fs : FieldMap) : FieldMap :=
  parseLoopF (s.length + 1) s fs

/-- The defining one-step equation of the `parse_fields` loop. -/
theorem parseLoop_eq (s : List Char) (fs : FieldMap) :
    parseLoop s fs =
      match findFieldMatch s with
      | none => fs
      | some (w, r) =>
        let name := w.map Char.toLower
        match r with
        | [] => fs
        | c :: r2 =>
          if c = '{' then
            match extractBraced (c :: r2) with
            | some (v, rest) => parseLoop rest (insertIfAbsent fs name v)
            | none => parseLoop (c :: r2) fs
          else if c = '"' then
            match findQuote r2 with
            | some (v, rest) => parseLoop rest (insertIfAbsent fs name v)
            | none => parseLoop r2 fs
          else if c.isDigit then
            parseLoop (r2.dropWhile Char.isDigit)
              (insertIfAbsent fs name (c :: r2.takeWhile Char.isDigit))
          else
            parseLoop r2 fs := by
  show parseLoopF (s.length + 1) s fs = _
  cases hm : findFieldMatch s with
  | none => rw [parseLoopF, hm]
  | some p =>
    obtain ⟨w, r⟩ := p
    have hr := findFieldMatch_length hm
    cases r with
    | nil => rw [parseLoopF, hm]
    | cons c r2 =>
      rw [parseLoopF, hm]
      dsimp only
      simp only [List.length_cons] at hr
      by_cases hc : c = '{'
      · rw [if_pos hc, if_pos hc]
        cases hb : extractBraced (c :: r2) with
        | none =>
          dsimp only
          exact parseLoopF_congr _ _ (by simp only [List.length_cons]; omega)
            (by simp)
        | some p2 =>
          obtain ⟨v, rest⟩ := p2
          dsimp only
          have := extractBraced_length hb
          simp only [List.length_cons] at this
          exact parseLoopF_congr _ _ (by omega) (by simp)
      · rw [if_neg hc, if_neg hc]
        by_cases hq : c = '"'
        · rw [if_pos hq, if_pos hq]
          cases hb : findQuote r2 with
          | none =>
            dsimp only
            exact parseLoopF_congr _ _ (by omega) (by simp)
          | some p2 =>
            obtain ⟨v, rest⟩ := p2
            dsimp only
            have := findQuote_length hb
            exact parseLoopF_congr _ _ (by omega) (by simp)
        · rw [if_neg hq, if_neg hq]
          by_cases hd : c.isDigit
          · rw [if_pos hd, if_pos hd]
            have := dropWhile_length_le Char.isDigit r2
            exact parseLoopF_congr _ _ (by omega) (by simp)
          · rw [if_neg hd, if_neg hd]
            exact parseLoopF_congr _ _ (by omega) (by simp)

/-- `parse_fields`: the author field is read first by a dedicated scan
(`if author:` — an empty author value is falsy and is not recorded),
then the generic field loop runs over the whole string. -/
def parseFields (s : List Char) : FieldMap :=
  let init : FieldMap :=
    match parseAuthorField s with
    | some a => if a ≠ [] then [(['a', 'u', 't', 'h', 'o', 'r'], a)] else []
    | none => []
  parseLoop s init

example :
    parseFields "title = \x7bA &amp; B\x7d".data =
      [("title".data, "A &amp; B".data)] := by decide

example :
    parseFields "author = \x7bSmith, J.\x7d, year = \x7b2020\x7d".data =
      [("author".data, "Smith, J.".data),
       ("year".data, "2020".data)] := by decide

example :
    parseFields "author = \x7bBulbulia, J.\x7d,\n  title = \x7bbad brace,\n  year = \x7b2020\x7d,\n  note = \x7bok\x7d".data =
      [("author".data, "Bulbulia, J.".data),
       ("year".data, "2020".data),
       ("note".data, "ok".data)] := by decide


/-! ## Arithmetic facts about `Char.toLower` and the ASCII classes -/

theorem char_toNat_ofNat {n : Nat} (h : Char.isValidCharNat n) : (Char.ofNat n).toNat = n := by
  unfold Char.ofNat
  rw [dif_pos h]
  rfl

theorem toLower_toNat (c : Char) :
    c.toLower.toNat = if 65 ≤ c.toNat ∧ c.toNat ≤ 90 then c.toNat + 32 else c.toNat := by
  by_cases h : 65 ≤ c.toNat ∧ c.toNat ≤ 90
  · rw [if_pos h]
    unfold Char.toLower
    rw [if_pos h]
    exact char_toNat_ofNat (Or.inl (by omega))
  · rw [if_neg h]
    unfold Char.toLower
    rw [if_neg h]

theorem char_eq_iff_toNat {c d : Char} : c = d ↔ c.toNat = d.toNat := by
  constructor
  · intro h; rw [h]
  · intro h
    apply Char.eq_of_val_eq
    apply UInt32.eq_of_toBitVec_eq
    apply BitVec.eq_of_toNat_eq
    exact h

theorem uint32_le_iff {a b : UInt32} : a ≤ b ↔ a.toNat ≤ b.toNat := by
  rw [UInt32.le_def, BitVec.le_def]
  exact Iff.rfl

theorem isLower_iff {c : Char} : c.isLower = true ↔ 97 ≤ c.toNat ∧ c.toNat ≤ 122 := by
  unfold Char.isLower
  rw [Bool.and_eq_true, decide_eq_true_iff, decide_eq_true_iff,
    ge_iff_le, uint32_le_iff, uint32_le_iff]
  exact Iff.rfl

theorem isUpper_iff {c : Char} : c.isUpper = true ↔ 65 ≤ c.toNat ∧ c.toNat ≤ 90 := by
  unfold Char.isUpper
  rw [Bool.and_eq_true, decide_eq_true_iff, decide_eq_true_iff,
    ge_iff_le, uint32_le_iff, uint32_le_iff]
  exact Iff.rfl

theorem isDigit_iff {c : Char} : c.isDigit = true ↔ 48 ≤ c.toNat ∧ c.toNat ≤ 57 := by
  unfold Char.isDigit
  rw [Bool.and_eq_true, decide_eq_true_iff, decide_eq_true_iff,
    ge_iff_le, uint32_le_iff, uint32_le_iff]
  exact Iff.rfl

theorem isAlphanum_iff {c : Char} :
    c.isAlphanum = true ↔
      (65 ≤ c.toNat ∧ c.toNat ≤ 90) ∨ (97 ≤ c.toNat ∧ c.toNat ≤ 122) ∨
        (48 ≤ c.toNat ∧ c.toNat ≤ 57) := by
  unfold Char.isAlphanum Char.isAlpha
  rw [Bool.or_eq_true, Bool.or_eq_true, isUpper_iff, isLower_iff, isDigit_iff, or_assoc]

theorem toLower_toLower (c : Char) : c.toLower.toLower = c.toLower := by
  apply char_eq_iff_toNat.mpr
  rw [toLower_toNat, toLower_toNat]
  split_ifs <;> omega

theorem isAlphanum_toLower {c : Char} (h : c.isAlphanum = true) :
    c.toLower.isAlphanum = true := by
  rw [isAlphanum_iff] at h ⊢
  rw [toLower_toNat]
  split_ifs <;> omega

theorem isWordChar_iff {c : Char} :
    isWordChar c = true ↔
      (65 ≤ c.toNat ∧ c.toNat ≤ 90) ∨ (97 ≤ c.toNat ∧ c.toNat ≤ 122) ∨
        (48 ≤ c.toNat ∧ c.toNat ≤ 57) ∨ c.toNat = 95 := by
  unfold isWordChar
  rw [Bool.or_eq_true, isAlphanum_iff, decide_eq_true_iff, or_assoc, or_assoc]
  constructor
  · rintro (h | h | h | h)
    · exact Or.inl h
    · exact Or.inr (Or.inl h)
    · exact Or.inr (Or.inr (Or.inl h))
    · exact Or.inr (Or.inr (Or.inr (char_eq_iff_toNat.mp h)))
  · rintro (h | h | h | h)
    · exact Or.inl h
    · exact Or.inr (Or.inl h)
    · exact Or.inr (Or.inr (Or.inl h))
    · exact Or.inr (Or.inr (Or.inr (char_eq_iff_toNat.mpr h)))

theorem isSpaceChar_iff {c : Char} :
    isSpaceChar c = true ↔
      c.toNat = 32 ∨ c.toNat = 9 ∨ c.toNat = 10 ∨ c.toNat = 13 ∨
        c.toNat = 11 ∨ c.toNat = 12 := by
  unfold isSpaceChar
  simp only [Bool.or_eq_true, decide_eq_true_iff]
  rw [@char_eq_iff_toNat c, @char_eq_iff_toNat c, @char_eq_iff_toNat c,
    @char_eq_iff_toNat c, @char_eq_iff_toNat c, @char_eq_iff_toNat c,
    show ' '.toNat = 32 from rfl, show '\t'.toNat = 9 from rfl,
    show '\n'.toNat = 10 from rfl, show '\x0d'.toNat = 13 from rfl,
    show '\x0b'.toNat = 11 from rfl, show '\x0c'.toNat = 12 from rfl]
  omega

theorem isWordChar_toLower {c : Char} (h : isWordChar c = true) :
    isWordChar c.toLower = true := by
  rw [isWordChar_iff] at h ⊢
  rw [toLower_toNat]
  split_ifs <;> omega

theorem toLower_fixed_of_lower {c : Char} (h : ¬(65 ≤ c.toNat ∧ c.toNat ≤ 90)) :
    c.toLower = c := by
  apply char_eq_iff_toNat.mpr
  rw [toLower_toNat, if_neg h]

/-! ## Author filter, citation keys, deduplication and serialization
    (clean_publications_v5.py) -/

def toLowerList (s : List Char) : List Char :=
  s.map Char.toLower

/-- `pattern.isPrefixOf s` for char lists, written out. -/
def startsWithList : List Char → List Char → Bool
  | _, [] => true
  | [], _ :: _ => false
  | c :: cs, p :: ps => c = p && startsWithList cs ps

/-- Python `pat in s` substring containment. -/
def containsSub : List Char → List Char → Bool
  | [], pat => pat.isEmpty
  | c :: rest, pat => startsWithList (c :: rest) pat || containsSub rest pat

/-- `is_bulbulia_author`: an empty author string is falsy (`False`);
otherwise check for the substring `bulbulia` in the lowercased string. -/
def isBulbuliaAuthor (a : List Char) : Bool :=
  if a = [] then false
  else containsSub (toLowerList a) "bulbulia".data

/-- Case-sensitive literal strip used for anchored regex prefixes. -/
def stripPre : List Char → List Char → Option (List Char)
  | [], s => some s
  | _, [] => none
  | p :: ps, c :: cs => if c = p then stripPre ps cs else none

/-- The part of `s` before the first occurrence of `pat`
(`s.split(pat)[0]` for a nonempty separator; all of `s` if absent). -/
def beforeFirst : List Char → List Char → List Char
  | [], _ => []
  | c :: rest, pat =>
    if startsWithList (c :: rest) pat then [] else c :: beforeFirst rest pat

/-- Python `str.strip()` on ASCII text. -/
def stripWs (s : List Char) : List Char :=
  ((s.dropWhile isSpaceChar).reverse.dropWhile isSpaceChar).reverse

/-- The character class of `\\['`^"~=.uvHtcdbkroB]` in
`get_first_author_lastname`. -/
def isAccentCmd (c : Char) : Bool :=
  c = '\'' || c = '`' || c = '^' || c = '"' || c = '~' || c = '=' || c = '.' ||
  c = 'u' || c = 'v' || c = 'H' || c = 't' || c = 'c' || c = 'd' || c = 'b' ||
  c = 'k' || c = 'r' || c = 'o' || c = 'B'

/-- `re.sub(r'\\[\'`^"~=.uvHtcdbkroB]\{?([a-zA-Z])\}?', r'\1', s)`:
global leftmost replacement of accent commands by their bare letter.
When the optional brace is present but no letter follows, the whole
pattern fails at this position and the scan resumes at the next
character.  Fuel keeps the recursion structural; every step consumes at
least one input character, so fuel `s.length + 1` is never exhausted. -/
def subAccentsF : Nat → List Char → List Char
  | 0, s => s
  | _, [] => []
  | fuel + 1, c :: rest =>
    if c = '\\' then
      match rest with
      | [] => ['\\']
      | d :: rest2 =>
        if isAccentCmd d then
          match rest2 with
          | '{' :: l :: rest4 =>
            if l.isAlpha then
              match rest4 with
              | '}' :: rest5 => l :: subAccentsF fuel rest5
              | _ => l :: subAccentsF fuel rest4
            else '\\' :: subAccentsF fuel rest
          | '{' :: [] => '\\' :: subAccentsF fuel rest
          | l :: rest4 =>
            if l.isAlpha then
              match rest4 with
              | '}' :: rest5 => l :: subAccentsF fuel rest5
              | _ => l :: subAccentsF fuel rest4
            else '\\' :: subAccentsF fuel rest
          | [] => '\\' :: subAccentsF fuel rest
        else '\\' :: subAccentsF fuel rest
    else c :: subAccentsF fuel rest

def subAccents (s : List Char) : List Char :=
  subAccentsF (s.length + 1) s

/-- `re.sub(r'\{\\([a-zA-Z])\}', r'\1', s)`: replace `{\l}` by `l`.
Fuel as in `subAccentsF`. -/
def subBraceCmdF : Nat → List Char → List Char
  | 0, s => s
  | _, [] => []
  | fuel + 1, c :: rest =>
    if c = '{' then
      match rest with
      | '\\' :: l :: '}' :: rest2 =>
        if l.isAlpha then l :: subBraceCmdF fuel rest2
        else c :: subBraceCmdF fuel rest
      | _ => c :: subBraceCmdF fuel rest
    else c :: subBraceCmdF fuel rest

def subBraceCmd (s : List Char) : List Char :=
  subBraceCmdF (s.length + 1) s

/-- One step of the whitespace splitter, consuming from the right. -/
def wsStep (c : Char) (acc : List (List Char)) : List (List Char) :=
  if isSpaceChar c then [] :: acc
  else
    match acc with
    | [] => [[c]]
    | w :: ws => (c :: w) :: ws

def wsChunks (s : List Char) : List (List Char) :=
  s.foldr wsStep []

/-- Python `str.split()` (whitespace split, no empty chunks). -/
def wsSplit (s : List Char) : List (List Char) :=
  (wsChunks s).filter (fun w => w ≠ [])

/-- `get_first_author_lastname`. -/
def getFirstAuthorLastname (a : List Char) : Option (List Char) :=
  if a = [] then none
  else
    let fa := stripWs (beforeFirst a " and ".data)
    let fa := subAccents fa
    let fa := subBraceCmd fa
    let fa := fa.filter (fun c => !(c = '{' || c = '}'))
    let lastName? : Option (List Char) :=
      if fa.contains ',' then some (stripWs (beforeFirst fa [',']))
      else (wsSplit fa).getLast?
    match lastName? with
    | none => none
    | some ln =>
      let ln2 := ln.filter Char.isAlpha
      if ln2 = [] then none else some ln2

/-- `re.sub(r'^https?://(dx\.)?doi\.org/', '', s)`: one anchored
replacement (without `re.MULTILINE` the anchor only matches at the
start, so `re.sub` strips at most one prefix). -/
def stripDoiRes (s : List Char) : List Char :=
  match stripPre "http".data s with
  | none => s
  | some r1 =>
    let r2 := match stripPre "s".data r1 with
      | some x => x
      | none => r1
    match stripPre "://".data r2 with
    | none => s
    | some r3 =>
      let r4 := match stripPre "dx.".data r3 with
        | some x => x
        | none => r3
      match stripPre "doi.org/".data r4 with
      | none => s
      | some r5 => r5

/-- Python `s[-n:]`. -/
def lastN (n : Nat) (s : List Char) : List Char :=
  s.drop (s.length - n)

/-- `generate_citation_key` (the `entry_type` parameter is unused in the
source body and omitted). -/
def generateCitationKey (fields : FieldMap) : List Char :=
  let author := (fields.lookup "author".data).getD []
  let lastName := (getFirstAuthorLastname author).getD "Unknown".data
  let year := (fields.lookup "year".data).getD "XXXX".data
  let doi := (fields.lookup "doi".data).getD []
  let suffix :=
    if doi ≠ [] then
      lastN 25 ((stripDoiRes doi).map (fun c => if c.isAlphanum then c else '_'))
    else
      (((fields.lookup "title".data).getD []).filter Char.isAlphanum).take 20
  lastName ++ '_' :: (year ++ '_' :: suffix)

/-- A raw extracted entry (`{'type': …, 'original_key': …,
'fields_str': …}` in `extract_entries`). -/
structure Entry where
  etype : List Char
  originalKey : List Char
  fieldsStr : List Char
deriving DecidableEq, Repr

/-- The DOI normalization of `deduplicate_by_doi`:
`doi.lower().strip()` then resolver-prefix strip (the spec's
`normalize_identifier`). -/
def normalizeIdentifier (d : List Char) : List Char :=
  stripDoiRes (stripWs (toLowerList d))

/-- The normalized DOI of an entry. -/
def normDoi (e : Entry) : List Char :=
  normalizeIdentifier (((parseFields e.fieldsStr).lookup "doi".data).getD [])

/-- The normalized title of the no-DOI branch of `deduplicate_by_doi`:
`fields.get('title','').lower()` then `re.sub(r'[^a-z0-9]','',·)`. -/
def normTitleKey (e : Entry) : List Char :=
  ((((parseFields e.fieldsStr).lookup "title".data).getD []).map Char.toLower).filter
    (fun c => c.isLower || c.isDigit)

/-- Replace the first occurrence (Python
`unique_entries[unique_entries.index(existing)] = entry`; the index call
cannot fail because `existing` is always a member, see
`dedupInvariant`). -/
def replaceFirst : List Entry → Entry → Entry → List Entry
  | [], _, _ => []
  | e :: rest, old, new =>
    if e = old then new :: rest else e :: replaceFirst rest old new

/-- Python dict assignment `d[k] = v` for an existing or new key. -/
def updateAssoc {α : Type} : List (List Char × α) → List Char → α → List (List Char × α)
  | [], k, v => [(k, v)]
  | (k', v') :: rest, k, v =>
    if k' = k then (k, v) :: rest else (k', v') :: updateAssoc rest k v

/-- The loop state of `deduplicate_by_doi`. -/
structure DState where
  seenDois : List (List Char × Entry)
  seenTitles : List (List Char)
  uniq : List Entry

/-- One iteration of `deduplicate_by_doi`. -/
def dedupStep (st : DState) (e : Entry) : DState :=
  let fields := parseFields e.fieldsStr
  let doi := normalizeIdentifier ((fields.lookup "doi".data).getD [])
  if doi ≠ [] then
    match st.seenDois.lookup doi with
    | none => ⟨st.seenDois ++ [(doi, e)], st.seenTitles, st.uniq ++ [e]⟩
    | some existing =>
      if (parseFields existing.fieldsStr).length < fields.length then
        ⟨updateAssoc st.seenDois doi e, st.seenTitles, replaceFirst st.uniq existing e⟩
      else st
  else
    let tn := normTitleKey e
    if tn ≠ [] then
      if st.seenTitles.contains tn then st
      else ⟨st.seenDois, st.seenTitles ++ [tn], st.uniq ++ [e]⟩
    else ⟨st.seenDois, st.seenTitles, st.uniq ++ [e]⟩

/-- `deduplicate_by_doi`. -/
def dedupByDoi (es : List Entry) : List Entry :=
  (es.foldl dedupStep ⟨[], [], []⟩).uniq

/-- The author filter of `main`: keep entries where
`is_bulbulia_author(fields.get('author',''))`. -/
def filterBulbulia (es : List Entry) : List Entry :=
  es.filter (fun e =>
    isBulbuliaAuthor (((parseFields e.fieldsStr).lookup "author".data).getD []))

/-- `value.replace('&amp;', '&')`. -/
def cleanAmp : List Char → List Char
  | [] => []
  | '&' :: 'a' :: 'm' :: 'p' :: ';' :: rest => '&' :: cleanAmp rest
  | c :: rest => c :: cleanAmp rest

/-- `re.sub(r'</?scp>', '', value)`. -/
def cleanScp : List Char → List Char
  | [] => []
  | '<' :: 's' :: 'c' :: 'p' :: '>' :: rest => cleanScp rest
  | '<' :: '/' :: 's' :: 'c' :: 'p' :: '>' :: rest => cleanScp rest
  | c :: rest => c :: cleanScp rest

/-- The value cleaning applied by `format_entry` before rendering. -/
def cleanValue (v : List Char) : List Char :=
  cleanScp (cleanAmp v)

/-- The preferred field ordering of `format_entry`. -/
def fieldOrder : List (List Char) :=
  ["author", "title", "journal", "booktitle", "volume", "number", "pages",
   "year", "month", "publisher", "doi", "url", "issn", "isbn", "editor"].map String.data

/-- The deny-listed fields of `format_entry`. -/
def skipFields : List (List Char) :=
  ["keywords", "copyright", "language"].map String.data

/-- One rendered field line `  name = {value},`. -/
def renderLine (n v : List Char) : List Char :=
  "  ".data ++ n ++ " = \x7b".data ++ cleanValue v ++ "\x7d,".data

/-- The rendered field lines: preferred order first, then the remaining
fields in insertion order, minus the deny list. -/
def orderedLines (fields : FieldMap) : List (List Char) :=
  (fieldOrder.filterMap fun n => (fields.lookup n).map fun v => renderLine n v) ++
    ((fields.filter fun p =>
        !(fieldOrder.contains p.1) && !(skipFields.contains p.1)).map
      fun p => renderLine p.1 p.2)

/-- Remove the trailing comma of the last line, when present. -/
def stripLastComma (l : List Char) : List Char :=
  if l.getLast? = some ',' then l.dropLast else l

def adjustLast : List (List Char) → List (List Char)
  | [] => []
  | [l] => [stripLastComma l]
  | l :: rest => l :: adjustLast rest

def joinNl : List (List Char) → List Char
  | [] => []
  | [l] => l
  | l :: rest => l ++ '\n' :: joinNl rest

/-- The rendering part of `format_entry`, given the already chosen key. -/
def renderEntry (etype key : List Char) (fields : FieldMap) : List Char :=
  joinNl (adjustLast (('@' :: etype ++ '{' :: key ++ [',']) :: orderedLines fields)
    ++ ["\x7d".data])

/-- The key-collision registry (`key_counts`) of one run. -/
abbrev KeyCounts := List (List Char × Nat)

/-- The key-uniquification step of `format_entry`: first use of a base
key registers count 0 and keeps the base key; a later use increments the
count and appends `_` and `chr(96 + count)`. -/
def genKey (counts : KeyCounts) (base : List Char) : List Char × KeyCounts :=
  match counts.lookup base with
  | some n =>
    (base ++ '_' :: [Char.ofNat (96 + (n + 1))], updateAssoc counts base (n + 1))
  | none => (base, counts ++ [(base, 0)])

/-- `format_entry`: parse, choose the key, render. -/
def formatEntry (counts : KeyCounts) (e : Entry) : List Char × KeyCounts :=
  let fields := parseFields e.fieldsStr
  let (key, counts') := genKey counts (generateCitationKey fields)
  (renderEntry e.etype key fields, counts')

/-- The keys assigned by the `format_entry` loop of `main`, in order. -/
def keysAll (es : List Entry) : List (List Char) :=
  (es.foldl
    (fun p e =>
      let kq := genKey p.2 (generateCitationKey (parseFields e.fieldsStr))
      (p.1 ++ [kq.1], kq.2))
    (([] : List (List Char)), ([] : KeyCounts))).1

example :
    generateCitationKey
      (parseFields "author = \x7bSmith, J. and Doe, A.\x7d, year = \x7b2020\x7d, doi = \x7b10.1234/xy\x7d".data) =
      "Smith_2020_10_1234_xy".data := by decide

example :
    keysAll
      [⟨"article".data, "k1".data, "author = \x7bSmith, J. and Bulbulia, J.\x7d, year = \x7b2020\x7d, doi = \x7bab.c\x7d".data⟩,
       ⟨"article".data, "k2".data, "author = \x7bSmith, J. and Bulbulia, J.\x7d, year = \x7b2020\x7d, doi = \x7bab-c\x7d".data⟩,
       ⟨"article".data, "k3".data, "author = \x7bSmith, J. and Bulbulia, J.\x7d, year = \x7b2020\x7d, doi = \x7bab.c.a\x7d".data⟩] =
      ["Smith_2020_ab_c".data, "Smith_2020_ab_c_a".data, "Smith_2020_ab_c_a".data] := by
  decide

/-! ## Title normalization and duplicate audit (audit_publications.py) -/

def joinSpace : List (List Char) → List Char
  | [] => []
  | [w] => w
  | w :: ws => w ++ ' ' :: joinSpace ws

/-- `normalize_title` (audit_publications.py): remove braces, lowercase,
remove `[^\w\s]`, collapse whitespace via `' '.join(t.split())`. -/
def normalizeTitleAudit (t : List Char) : List Char :=
  let t1 := t.filter fun c => !(c = '{' || c = '}')
  let t2 := toLowerList t1
  let t3 := t2.filter fun c => isWordChar c || isSpaceChar c
  joinSpace (wsSplit t3)

/-! ### difflib.SequenceMatcher (used by `similar`)

`SequenceMatcher(None, a, b)` with `autojunk=True` and no junk
predicate: `b2j` maps each character of `b` to its ascending index list,
dropping "popular" characters when `len(b) >= 200`; the junk set proper
is empty, so the two junk extension loops of `find_longest_match` never
run and are omitted. -/

def indicesOf (b : List Char) (c : Char) : List Nat :=
  (b.enum.filter fun p => p.2 = c).map Prod.fst

def isPopular (b : List Char) (c : Char) : Bool :=
  200 ≤ b.length && b.length / 100 + 1 < (b.filter fun d => d = c).length

def b2jList (b : List Char) (c : Char) : List Nat :=
  if isPopular b c then [] else indicesOf b c

def lookupD (l : List (Nat × Nat)) (k : Nat) : Nat :=
  (l.lookup k).getD 0

/-- The backward extension loop of `find_longest_match`
(`while besti > alo and bestj > blo and a[besti-1] == b[bestj-1]`),
returning how many steps it runs.  Fuel `besti` suffices. -/
def extendBackF : Nat → List Char → List Char → Nat → Nat → Nat → Nat → Nat
  | 0, _, _, _, _, _, _ => 0
  | fuel + 1, a, b, alo, blo, besti, bestj =>
    if alo < besti && blo < bestj &&
        (a.getD (besti - 1) ' ' = b.getD (bestj - 1) ' ') then
      1 + extendBackF fuel a b alo blo (besti - 1) (bestj - 1)
    else 0

/-- The forward extension loop of `find_longest_match`.  Fuel `ahi`
suffices. -/
def extendFwdF : Nat → List Char → List Char → Nat → Nat → Nat → Nat → Nat → Nat
  | 0, _, _, _, _, _, _, _ => 0
  | fuel + 1, a, b, ahi, bhi, besti, bestj, bestsize =>
    if besti + bestsize < ahi && bestj + bestsize < bhi &&
        (a.getD (besti + bestsize) ' ' = b.getD (bestj + bestsize) ' ') then
      1 + extendFwdF fuel a b ahi bhi besti bestj (bestsize + 1)
    else 0

/-- `find_longest_match(alo, ahi, blo, bhi)`: the dynamic scan over
`i in range(alo, ahi)` with the running `j2len` table, keeping the first
block attaining each strictly larger size, then the two (non-junk)
extension loops. -/
def findLongestMatch (a b : List Char) (alo ahi blo bhi : Nat) : Nat × Nat × Nat :=
  let step := fun (acc : List (Nat × Nat) × (Nat × Nat × Nat)) (i : Nat) =>
    let js := ((b2jList b (a.getD i ' ')).filter fun j => decide (blo ≤ j)).takeWhile
      fun j => decide (j < bhi)
    let inner := js.foldl
      (fun (acc2 : List (Nat × Nat) × (Nat × Nat × Nat)) j =>
        let k := (if j = 0 then 0 else lookupD acc.1 (j - 1)) + 1
        let tbl := (j, k) :: acc2.1
        if acc2.2.2.2 < k then (tbl, (i + 1 - k, j + 1 - k, k))
        else (tbl, acc2.2))
      ([], acc.2)
    inner
  let res := (List.range' alo (ahi - alo)).foldl step ([], (alo, blo, 0))
  let besti := res.2.1
  let bestj := res.2.2.1
  let bestsize := res.2.2.2
  let eb := extendBackF besti a b alo blo besti bestj
  let besti := besti - eb
  let bestj := bestj - eb
  let bestsize := bestsize + eb
  let ef := extendFwdF ahi a b ahi bhi besti bestj bestsize
  (besti, bestj, bestsize + ef)

/-- The total size of all matching blocks (the `M` of
`ratio() = 2.0 * M / T`): recursive split of `get_matching_blocks`.
Each recursion level removes a nonempty block, so fuel
`a.length + b.length + 1` is never exhausted. -/
def matchTotalF : Nat → List Char → List Char → Nat → Nat → Nat → Nat → Nat
  | 0, _, _, _, _, _, _ => 0
  | fuel + 1, a, b, alo, ahi, blo, bhi =>
    let m := findLongestMatch a b alo ahi blo bhi
    let i := m.1
    let j := m.2.1
    let k := m.2.2
    if k = 0 then 0
    else
      matchTotalF fuel a b alo i blo j + k + matchTotalF fuel a b (i + k) ahi (j + k) bhi

def matchTotal (a b : List Char) : Nat :=
  matchTotalF (a.length + b.length + 1) a b 0 a.length 0 b.length

/-- `similar(a, b)` with the default threshold 0.85:
`ratio() >= 0.85` iff `2M / (len(a)+len(b)) >= 17/20` iff
`40 M >= 17 (len(a)+len(b))`.  (`ratio()` is a Python float; for all
inputs used in the claims the comparison is far from the rounding
boundary, so the exact rational comparison agrees.) -/
def similar (a b : List Char) : Bool :=
  17 * (a.length + b.length) ≤ 40 * matchTotal a b

example : matchTotal "ccccaba".data "ccccbabba".data = 7 := by decide
example : matchTotal "ccccbabba".data "ccccaba".data = 6 := by decide
example : similar "ccccaba".data "ccccbabba".data = true := by decide
example : similar "ccccbabba".data "ccccaba".data = false := by decide

/-- A parsed bibliography entry as consumed by the audit
(`bibtexparser` dict with optional fields; `e.get(k, '')` is
`Option.getD`). -/
structure AEntry where
  id : List Char
  title : Option (List Char)
  doi : Option (List Char)
deriving DecidableEq, Repr

/-- The `same_doi` grouping key: `e.get('doi','').lower().strip()`. -/
def aDoiKey (e : AEntry) : List Char :=
  stripWs (toLowerList (e.doi.getD []))

def appendGroup : List (List Char × List AEntry) → List Char → AEntry →
    List (List Char × List AEntry)
  | [], d, e => [(d, [e])]
  | (d', g) :: rest, d, e =>
    if d' = d then (d', g ++ [e]) :: rest else (d', g) :: appendGroup rest d e

/-- `by_doi = defaultdict(list)` filled in entry order (insertion-order
iteration, as for a Python dict). -/
def byDoiGroups (es : List AEntry) : List (List Char × List AEntry) :=
  es.foldl
    (fun acc e =>
      let d := aDoiKey e
      if d ≠ [] then appendGroup acc d e else acc)
    []

/-- One record of the `duplicates` report of `find_duplicates`. -/
inductive DupRec where
  | sameDoi (doi : List Char) (entries : List (List Char × List Char)) : DupRec
  | fuzzy (dtype : List Char) (e1 e2 : List Char × List Char × List Char) : DupRec
deriving DecidableEq, Repr

/-- The preprint marker test of the fuzzy pass of `find_duplicates`:
`'osf.io' in doi or 'psyarxiv' in doi or '31234' in doi` on the
lowercased DOI. -/
def pairMarker (d : List Char) : Bool :=
  containsSub d "osf.io".data || containsSub d "psyarxiv".data ||
    containsSub d "31234".data

/-- One flagged fuzzy pair with its classification. -/
def mkFuzzy (e1 e2 : AEntry) : DupRec :=
  let d1 := toLowerList (e1.doi.getD [])
  let d2 := toLowerList (e2.doi.getD [])
  let pp := pairMarker d1 != pairMarker d2
  DupRec.fuzzy (if pp then "preprint_published".data else "similar_title".data)
    (e1.id, (e1.title.getD []).take 60, e1.doi.getD [])
    (e2.id, (e2.title.getD []).take 60, e2.doi.getD [])

/-- The `i < j` double loop of the fuzzy-title pass (the `seen_pairs`
test is vacuous: each `(i, j)` is visited once). -/
def fuzzyPairs : List (AEntry × List Char) → List DupRec
  | [] => []
  | (e1, t1) :: rest =>
    (rest.filterMap fun p =>
      if similar t1 p.2 then some (mkFuzzy e1 p.1) else none) ++ fuzzyPairs rest

/-- `find_duplicates`: the `same_doi` reports of all DOI groups of size
`> 1`, then the fuzzy-title reports over normalized titles. -/
def findDuplicates (es : List AEntry) : List DupRec :=
  ((byDoiGroups es).filterMap fun p =>
    if 1 < p.2.length then
      some (DupRec.sameDoi p.1 (p.2.map fun e => (e.id, (e.title.getD []).take 60)))
    else none) ++
    fuzzyPairs (es.map fun e => (e, normalizeTitleAudit (e.title.getD [])))

/-! ## PDF title matching (merge_pdfs_v3.py) -/

/-- `re.sub(r'\\[a-zA-Z]+\{([^}]*)\}', r'\1', s)`: replace a LaTeX
command with braced argument by the argument.  Fuel as before. -/
def subLatexCmdArgF : Nat → List Char → List Char
  | 0, s => s
  | _, [] => []
  | fuel + 1, c :: rest =>
    if c = '\\' then
      if rest.takeWhile Char.isAlpha ≠ [] then
        match rest.dropWhile Char.isAlpha with
        | '{' :: r2 =>
          match r2.dropWhile (fun d => d ≠ '}') with
          | '}' :: r3 => r2.takeWhile (fun d => d ≠ '}') ++ subLatexCmdArgF fuel r3
          | _ => c :: subLatexCmdArgF fuel rest
        | _ => c :: subLatexCmdArgF fuel rest
      else c :: subLatexCmdArgF fuel rest
    else c :: subLatexCmdArgF fuel rest

/-- `re.sub(r'\\[a-zA-Z]+', '', s)`: drop remaining LaTeX commands. -/
def subLatexCmdF : Nat → List Char → List Char
  | 0, s => s
  | _, [] => []
  | fuel + 1, c :: rest =>
    if c = '\\' then
      if rest.takeWhile Char.isAlpha ≠ [] then
        subLatexCmdF fuel (rest.dropWhile Char.isAlpha)
      else c :: subLatexCmdF fuel rest
    else c :: subLatexCmdF fuel rest

/-- `re.sub(r'\s+', ' ', s)`: a whitespace character emits `' '` unless
the collapsed remainder already starts with the blank emitted for the
same run. -/
def collapseSpaces : List Char → List Char
  | [] => []
  | c :: rest =>
    if isSpaceChar c then
      if (collapseSpaces rest).head? = some ' ' then collapseSpaces rest
      else ' ' :: collapseSpaces rest
    else c :: collapseSpaces rest

/-- `normalize_title` (merge_pdfs_v3.py). -/
def normalizeTitleMerge (t : List Char) : List Char :=
  if t = [] then []
  else
    let t1 := subLatexCmdArgF (t.length + 1) t
    let t2 := subLatexCmdF (t1.length + 1) t1
    let t3 := t2.filter fun c => !(c = '{' || c = '}' || c = '\\')
    let t4 := t3.map fun c => if c.isAlphanum || isSpaceChar c then c else ' '
    stripWs (toLowerList (collapseSpaces t4))

def stopWords : List (List Char) :=
  ["the", "a", "an", "of", "in", "on", "for", "to", "and", "with", "by",
   "from", "at", "as", "is", "are", "was", "were"].map String.data

/-- `get_title_words`: whitespace tokens of the normalized title minus
stop words and words of length ≤ 2. -/
def getTitleWords (t : List Char) : List (List Char) :=
  (wsSplit (normalizeTitleMerge t)).filter fun w =>
    !(stopWords.contains w) && 2 < w.length

/-- The significant word set (`set(get_title_words(t))`). -/
def wordSet (t : List Char) : Finset (List Char) :=
  (getTitleWords t).toFinset

/-- `titles_match` with the default threshold 0.6:
`overlap / min_len >= 0.6` iff `5 * overlap >= 3 * min_len` (the float
comparison agrees with the exact rational one for all small word
counts, since 3/5 rounds to the same double as the literal `0.6`). -/
def titlesMatch (t1 t2 : List Char) : Bool :=
  let w1 := wordSet t1
  let w2 := wordSet t2
  if w1 = ∅ || w2 = ∅ then false
  else
    let overlap := (w1 ∩ w2).card
    let minLen := min w1.card w2.card
    if minLen < 3 then false
    else 3 * minLen ≤ 5 * overlap

example :
    normalizeTitleAudit "\x7bReligion\x7d and Well-Being: A Study".data =
      "religion and wellbeing a study".data := by decide

example :
    titlesMatch "Religion and Cooperation in Large Groups".data
      "Religion and cooperation in large groups".data = true := by decide

example : titlesMatch "The Study of a Thing".data "The Study of a Thing".data = false := by
  decide

/-! ## Claim C7: symmetry of the two similarity scorers -/

/-- C7 counterexample: the whole-string similarity predicate `similar`
(difflib `ratio() >= 0.85`) is not symmetric: the greedy matching-block
total of `SequenceMatcher` depends on the argument order
(`M = 7` one way and `M = 6` the other on this pair, as CPython's
difflib also reports). -/
theorem claim_C7_counterexample :
    similar "ccccaba".data "ccccbabba".data = true ∧
    similar "ccccbabba".data "ccccaba".data = false := by decide

/-- C7 (amended): the word-overlap matcher `titles_match` is symmetric
for every pair of strings; the whole-string scorer is not (see the
counterexample). -/
theorem claim_C7_amended (a b : List Char) : titlesMatch a b = titlesMatch b a := by
  unfold titlesMatch
  dsimp only
  rw [Finset.inter_comm, inf_comm, Bool.or_comm]

/-! ## Claim C9: short titles never word-overlap match -/

/-- C9: whenever the smaller of the two significant-word sets has fewer
than 3 elements, `titles_match` returns false regardless of the overlap
ratio. -/
theorem claim_C9 (t1 t2 : List Char)
    (h : min (wordSet t1).card (wordSet t2).card < 3) :
    titlesMatch t1 t2 = false := by
  unfold titlesMatch
  dsimp only
  split_ifs with h1 h2
  all_goals first
    | rfl
    | exact absurd h h2
    | omega

theorem claim_C9_witness :
    min (wordSet "alpha beta".data).card (wordSet "gamma delta epsilon".data).card < 3 ∧
    titlesMatch "alpha beta".data "gamma delta epsilon".data = false :=
  ⟨by decide, claim_C9 _ _ (by decide)⟩

/-! ## Claim C2: canonical keys are not always distinct (code bug) -/

def c2entry1 : Entry :=
  ⟨"article".data, "k1".data,
    "author = \x7bSmith, J. and Bulbulia, J.\x7d, year = \x7b2020\x7d, doi = \x7bab.c\x7d".data⟩

def c2entry2 : Entry :=
  ⟨"article".data, "k2".data,
    "author = \x7bSmith, J. and Bulbulia, J.\x7d, year = \x7b2020\x7d, doi = \x7bab-c\x7d".data⟩

def c2entry3 : Entry :=
  ⟨"article".data, "k3".data,
    "author = \x7bSmith, J. and Bulbulia, J.\x7d, year = \x7b2020\x7d, doi = \x7bab.c.a\x7d".data⟩

/-- C2 is violated by the code: three entries with pairwise distinct
DOIs (`ab.c`, `ab-c`, `ab.c.a`) all pass the author filter and all
survive deduplication, yet the `format_entry` loop assigns the key
`Smith_2020_ab_c_a` twice: the collision registry tracks only base
keys, so a fresh base key that happens to equal an already-emitted
suffixed key is reused verbatim.  This contradicts the function's own
documentation (`Generate a unique citation key`, `# Ensure
uniqueness`). -/
theorem claim_C2_bug :
    filterBulbulia [c2entry1, c2entry2, c2entry3] = [c2entry1, c2entry2, c2entry3] ∧
    dedupByDoi [c2entry1, c2entry2, c2entry3] = [c2entry1, c2entry2, c2entry3] ∧
    keysAll [c2entry1, c2entry2, c2entry3] =
      ["Smith_2020_ab_c".data, "Smith_2020_ab_c_a".data, "Smith_2020_ab_c_a".data] ∧
    ¬ (keysAll [c2entry1, c2entry2, c2entry3]).Nodup := by decide

/-! ## Claim C5: the key generator's collision policy and scenario -/

def c5fields : List Char :=
  "author = \x7bSmith, J. and Doe, A.\x7d, year = \x7b2020\x7d, doi = \x7b10.1234/xy\x7d".data

def c5fields2 : List Char :=
  "author = \x7bSmith, J. and Doe, A.\x7d, year = \x7b2020\x7d, doi = \x7b10.1234/ab\x7d".data

/-- C5 counterexample: the scenario entry yields base key
`Smith_2020_10_1234_xy`, whose identifier-derived suffix has 10
characters, not 25 as the claim states (`[-25:]` takes at most 25). -/
theorem claim_C5_counterexample :
    generateCitationKey (parseFields c5fields) = "Smith_2020_10_1234_xy".data ∧
    ((generateCitationKey (parseFields c5fields)).drop "Smith_2020_".data.length).length ≠ 25 := by
  decide

/-- C5 (amended): on first use of a base key the key is the base key
with count 0 registered; on a subsequent use the count is incremented
and the emitted key is the base key with an underscore and the single
character `chr(96 + count)` appended, which is a lowercase letter while
`count ≤ 26`.  The scenario entry yields base key `Smith_2020_` followed
by the (10-character) identifier-derived suffix `10_1234_xy`, and a
second entry with the same author and year whose DOI sanitizes to a
different suffix gets a different base key. -/
theorem claim_C5_amended (counts : KeyCounts) (base : List Char) :
    (counts.lookup base = none →
      genKey counts base = (base, counts ++ [(base, 0)])) ∧
    (∀ n, counts.lookup base = some n →
      genKey counts base =
        (base ++ '_' :: [Char.ofNat (96 + (n + 1))], updateAssoc counts base (n + 1)) ∧
      (n + 1 ≤ 26 → (Char.ofNat (96 + (n + 1))).isLower = true)) ∧
    generateCitationKey (parseFields c5fields) = "Smith_2020_10_1234_xy".data ∧
    generateCitationKey (parseFields c5fields2) ≠
      generateCitationKey (parseFields c5fields) := by
  refine ⟨?_, ?_, by decide, by decide⟩
  · intro h
    unfold genKey
    rw [h]
  · intro n h
    constructor
    · unfold genKey
      rw [h]
    · intro hn
      have : n < 26 := by omega
      interval_cases n <;> decide

theorem claim_C5_witness :
    genKey [] "Smith_2020_x".data = ("Smith_2020_x".data, [("Smith_2020_x".data, 0)]) ∧
    genKey [("Smith_2020_x".data, 0)] "Smith_2020_x".data =
      ("Smith_2020_x".data ++ '_' :: [Char.ofNat (96 + (0 + 1))],
        updateAssoc [("Smith_2020_x".data, 0)] "Smith_2020_x".data (0 + 1)) ∧
    (Char.ofNat (96 + (0 + 1))).isLower = true :=
  ⟨(claim_C5_amended [] "Smith_2020_x".data).1 (by decide),
   ((claim_C5_amended [("Smith_2020_x".data, 0)] "Smith_2020_x".data).2.1 0 (by decide)).1,
   ((claim_C5_amended [("Smith_2020_x".data, 0)] "Smith_2020_x".data).2.1 0 (by decide)).2
     (by decide)⟩

/-! ## Claim C6: classification of fuzzy-title pairs -/

theorem fuzzyPairs_classify {ps : List (AEntry × List Char)} {dtype : List Char}
    {e1 e2 : List Char × List Char × List Char}
    (h : DupRec.fuzzy dtype e1 e2 ∈ fuzzyPairs ps) :
    (dtype = "preprint_published".data ↔
      pairMarker (toLowerList e1.2.2) ≠ pairMarker (toLowerList e2.2.2)) := by
  induction ps with
  | nil => simp [fuzzyPairs] at h
  | cons p rest ih =>
    obtain ⟨a1, t1⟩ := p
    rw [fuzzyPairs, List.mem_append] at h
    rcases h with h | h
    · rw [List.mem_filterMap] at h
      obtain ⟨q, -, hq⟩ := h
      by_cases hs : similar t1 q.2
      · rw [if_pos hs] at hq
        have heq := Option.some.inj hq
        unfold mkFuzzy at heq
        dsimp only at heq
        obtain ⟨hd, he1, he2⟩ :
            (if (pairMarker (toLowerList (a1.doi.getD [])) !=
                  pairMarker (toLowerList (q.1.doi.getD []))) = true then
                "preprint_published".data else "similar_title".data) = dtype ∧
            (a1.id, (a1.title.getD []).take 60, a1.doi.getD []) = e1 ∧
            (q.1.id, (q.1.title.getD []).take 60, q.1.doi.getD []) = e2 := by
          cases heq
          exact ⟨rfl, rfl, rfl⟩
        subst hd
        subst he1
        subst he2
        dsimp only
        by_cases hb :
            pairMarker (toLowerList (a1.doi.getD [])) =
              pairMarker (toLowerList (q.1.doi.getD []))
        · rw [if_neg (by simp [hb])]
          constructor
          · intro habs
            exact absurd habs (by decide)
          · intro habs
            exact absurd hb habs
        · rw [if_pos (by simp [hb])]
          exact ⟨fun _ => hb, fun _ => rfl⟩
      · rw [if_neg hs] at hq
        exact absurd hq (by simp)
    · exact ih h

/-- C6 (amended): a pair flagged by the fuzzy-title pass of
`find_duplicates` is classified `preprint_published` iff exactly one of
the two sides' DOI (lowercased) contains one of the three markers
`osf.io`, `psyarxiv`, `31234`; otherwise `similar_title`.  The venue is
not consulted and the markers `arxiv`, `biorxiv`, `medrxiv` of
`find_preprints` play no role here. -/
theorem claim_C6_amended (es : List AEntry) (dtype : List Char)
    (e1 e2 : List Char × List Char × List Char)
    (h : DupRec.fuzzy dtype e1 e2 ∈ findDuplicates es) :
    (dtype = "preprint_published".data ↔
      pairMarker (toLowerList e1.2.2) ≠ pairMarker (toLowerList e2.2.2)) := by
  unfold findDuplicates at h
  rw [List.mem_append] at h
  rcases h with h | h
  · exfalso
    rw [List.mem_filterMap] at h
    obtain ⟨p, -, hp⟩ := h
    by_cases h2 : 1 < p.2.length
    · rw [if_pos h2] at hp
      exact absurd hp (by simp)
    · rw [if_neg h2] at hp
      exact absurd hp (by simp)
  · exact fuzzyPairs_classify h

def c6entry1 : AEntry :=
  ⟨"p1".data, some "Religion and cooperation".data, some "10.48550/arxiv.2101.00001".data⟩

def c6entry2 : AEntry :=
  ⟨"p2".data, some "Religion and cooperation".data, some "10.1234/x".data⟩

/-- C6 counterexample: a flagged pair where exactly one side's
identifier contains the preprint marker `arxiv` is classified
`similar_title`, not `preprint_published`: the pair classification
tests only `osf.io`, `psyarxiv` and `31234` against the DOI. -/
theorem claim_C6_counterexample :
    findDuplicates [c6entry1, c6entry2] =
      [DupRec.fuzzy "similar_title".data
        ("p1".data, "Religion and cooperation".data, "10.48550/arxiv.2101.00001".data)
        ("p2".data, "Religion and cooperation".data, "10.1234/x".data)] ∧
    containsSub (toLowerList "10.48550/arxiv.2101.00001".data) "arxiv".data = true ∧
    containsSub (toLowerList "10.1234/x".data) "arxiv".data = false := by decide

theorem claim_C6_witness :
    ((DupRec.fuzzy "similar_title".data
        ("p1".data, "Religion and cooperation".data, "10.48550/arxiv.2101.00001".data)
        ("p2".data, "Religion and cooperation".data, "10.1234/x".data) ∈
      findDuplicates [c6entry1, c6entry2]) ∧
      ¬ ("similar_title".data = "preprint_published".data)) :=
  ⟨by decide,
   fun habs =>
     ((claim_C6_amended [c6entry1, c6entry2] "similar_title".data
        ("p1".data, "Religion and cooperation".data, "10.48550/arxiv.2101.00001".data)
        ("p2".data, "Religion and cooperation".data, "10.1234/x".data)
        (by decide)).mp habs) (by decide)⟩

/-! ## Claim C10: the silent Bulbulia author filter -/

/-- The parsed author string of an entry (`fields.get('author','')`). -/
def authorOf (e : Entry) : List Char :=
  ((parseFields e.fieldsStr).lookup "author".data).getD []

theorem mem_replaceFirst {l : List Entry} {old new x : Entry}
    (h : x ∈ replaceFirst l old new) : x ∈ l ∨ x = new := by
  induction l with
  | nil => simp [replaceFirst] at h
  | cons e rest ih =>
    rw [replaceFirst] at h
    split at h
    · rcases List.mem_cons.mp h with h1 | h1
      · exact Or.inr h1
      · exact Or.inl (List.mem_cons_of_mem _ h1)
    · rcases List.mem_cons.mp h with h1 | h1
      · exact Or.inl (h1 ▸ List.mem_cons_self _ _)
      · rcases ih h1 with h2 | h2
        · exact Or.inl (List.mem_cons_of_mem _ h2)
        · exact Or.inr h2

theorem dedupStep_uniq_sub (st : DState) (e x : Entry)
    (h : x ∈ (dedupStep st e).uniq) : x ∈ st.uniq ∨ x = e := by
  unfold dedupStep at h
  dsimp only at h
  split at h
  · split at h
    · rcases List.mem_append.mp h with h1 | h1
      · exact Or.inl h1
      · exact Or.inr (by simpa using h1)
    · split at h
      · exact mem_replaceFirst h
      · exact Or.inl h
  · split at h
    · split at h
      · exact Or.inl h
      · rcases List.mem_append.mp h with h1 | h1
        · exact Or.inl h1
        · exact Or.inr (by simpa using h1)
    · rcases List.mem_append.mp h with h1 | h1
      · exact Or.inl h1
      · exact Or.inr (by simpa using h1)

theorem foldl_dedup_uniq_sub :
    ∀ (es : List Entry) (st : DState) (x : Entry),
      x ∈ (es.foldl dedupStep st).uniq → x ∈ st.uniq ∨ x ∈ es := by
  intro es
  induction es with
  | nil => intro st x h; exact Or.inl h
  | cons a rest ih =>
    intro st x h
    rw [List.foldl_cons] at h
    rcases ih _ _ h with h1 | h1
    · rcases dedupStep_uniq_sub _ _ _ h1 with h2 | h2
      · exact Or.inl h2
      · exact Or.inr (h2 ▸ List.mem_cons_self _ _)
    · exact Or.inr (List.mem_cons_of_mem _ h1)

theorem dedup_sub {es : List Entry} {x : Entry} (h : x ∈ dedupByDoi es) : x ∈ es := by
  rcases foldl_dedup_uniq_sub es ⟨[], [], []⟩ x h with h1 | h1
  · simp at h1
  · exact h1

/-- C10: the pipeline filters to Bulbulia-authored entries before
deduplication.  Every record surviving `deduplicate_by_doi` applied to
the filtered list has a nonempty parsed author string containing the
substring `bulbulia` case-insensitively; and every extracted record
whose parsed author fails that test (in particular any record without
an author field, whose author string defaults to empty) is dropped by
the filter. -/
theorem claim_C10 (es : List Entry) :
    (∀ e, e ∈ dedupByDoi (filterBulbulia es) →
      containsSub (toLowerList (authorOf e)) "bulbulia".data = true ∧
      authorOf e ≠ [] ∧ e ∈ es) ∧
    (∀ e, e ∈ es → isBulbuliaAuthor (authorOf e) = false →
      e ∉ filterBulbulia es) := by
  constructor
  · intro e h
    have h1 : e ∈ filterBulbulia es := dedup_sub h
    unfold filterBulbulia at h1
    rw [List.mem_filter] at h1
    obtain ⟨hmem, hp⟩ := h1
    unfold isBulbuliaAuthor at hp
    rw [show (((parseFields e.fieldsStr).lookup "author".data).getD []) = authorOf e
      from rfl] at hp
    split at hp
    · exact absurd hp (by simp)
    · next hne => exact ⟨hp, hne, hmem⟩
  · intro e hmem hfail habs
    unfold filterBulbulia at habs
    rw [List.mem_filter] at habs
    rw [show (((parseFields e.fieldsStr).lookup "author".data).getD []) = authorOf e
      from rfl] at habs
    rw [hfail] at habs
    exact absurd habs.2 (by simp)

def c10good : Entry :=
  ⟨"article".data, "g".data,
    "author = \x7bBulbulia, J.\x7d, title = \x7bT one\x7d".data⟩

def c10bad : Entry :=
  ⟨"article".data, "b".data, "title = \x7bT two\x7d".data⟩

theorem claim_C10_witness :
    (containsSub (toLowerList (authorOf c10good)) "bulbulia".data = true ∧
      authorOf c10good ≠ [] ∧ c10good ∈ [c10good, c10bad]) ∧
    c10bad ∉ filterBulbulia [c10good, c10bad] :=
  ⟨(claim_C10 [c10good, c10bad]).1 c10good (by decide),
   (claim_C10 [c10good, c10bad]).2 c10bad (by decide) (by decide)⟩

/-! ## Claim C8: idempotence of the normalizers -/

theorem map_eq_self {α : Type} {l : List α} {f : α → α} (h : ∀ c ∈ l, f c = c) :
    l.map f = l := by
  induction l with
  | nil => rfl
  | cons c rest ih =>
    rw [List.map_cons, h c (List.mem_cons_self _ _),
      ih fun d hd => h d (List.mem_cons_of_mem _ hd)]

theorem filter_eq_self_of {α : Type} {l : List α} {p : α → Bool} (h : ∀ c ∈ l, p c = true) :
    l.filter p = l := by
  induction l with
  | nil => rfl
  | cons c rest ih =>
    rw [List.filter_cons_of_pos (h c (List.mem_cons_self _ _)),
      ih fun d hd => h d (List.mem_cons_of_mem _ hd)]

theorem dropWhile_eq_append (p : Char → Bool) (l : List Char) :
    ∃ t, l = t ++ l.dropWhile p := by
  induction l with
  | nil => exact ⟨[], rfl⟩
  | cons c rest ih =>
    by_cases h : p c
    · obtain ⟨t, ht⟩ := ih
      rw [List.dropWhile_cons_of_pos h]
      exact ⟨c :: t, by rw [List.cons_append, ← ht]⟩
    · rw [List.dropWhile_cons_of_neg (by simpa using h)]
      exact ⟨[], rfl⟩

theorem head?_dropWhile_false {p : Char → Bool} {l : List Char} {c : Char}
    (h : (l.dropWhile p).head? = some c) : p c = false := by
  induction l with
  | nil => simp [List.dropWhile] at h
  | cons d rest ih =>
    by_cases hd : p d
    · rw [List.dropWhile_cons_of_pos hd] at h
      exact ih h
    · rw [List.dropWhile_cons_of_neg (by simpa using hd)] at h
      obtain rfl : d = c := by simpa using h
      simpa using hd

theorem dropWhile_eq_self_of {p : Char → Bool} {l : List Char}
    (h : ∀ c, l.head? = some c → p c = false) : l.dropWhile p = l := by
  cases l with
  | nil => rfl
  | cons c rest =>
    rw [List.dropWhile_cons_of_neg]
    simp [h c rfl]

theorem dropWhile_dropWhile (p : Char → Bool) (l : List Char) :
    (l.dropWhile p).dropWhile p = l.dropWhile p :=
  dropWhile_eq_self_of fun _ hc => head?_dropWhile_false hc

theorem getLast?_dropWhile {p : Char → Bool} {l : List Char}
    (h : l.dropWhile p ≠ []) : (l.dropWhile p).getLast? = l.getLast? := by
  induction l with
  | nil => simp [List.dropWhile] at h
  | cons c rest ih =>
    by_cases hc : p c
    · rw [List.dropWhile_cons_of_pos hc] at h ⊢
      have hr : rest ≠ [] := by
        intro habs
        rw [habs] at h
        simp [List.dropWhile] at h
      rw [ih h]
      cases rest with
      | nil => exact absurd rfl hr
      | cons d r2 => rw [List.getLast?_cons_cons]
    · rw [List.dropWhile_cons_of_neg (by simpa using hc)]

theorem stripWs_eq_append (s : List Char) :
    ∃ a b, s = a ++ stripWs s ++ b := by
  obtain ⟨a, ha⟩ := dropWhile_eq_append isSpaceChar s
  obtain ⟨b, hb⟩ := dropWhile_eq_append isSpaceChar (s.dropWhile isSpaceChar).reverse
  refine ⟨a, b.reverse, ?_⟩
  unfold stripWs
  calc s = a ++ s.dropWhile isSpaceChar := ha
    _ = a ++ ((s.dropWhile isSpaceChar).reverse).reverse := by rw [List.reverse_reverse]
    _ = a ++ (b ++ ((s.dropWhile isSpaceChar).reverse.dropWhile isSpaceChar)).reverse := by
        rw [← hb]
    _ = a ++ ((s.dropWhile isSpaceChar).reverse.dropWhile isSpaceChar).reverse ++ b.reverse := by
        rw [List.reverse_append, List.append_assoc]

theorem mem_stripWs {s : List Char} {c : Char} (h : c ∈ stripWs s) : c ∈ s := by
  obtain ⟨a, b, hab⟩ := stripWs_eq_append s
  rw [hab]
  simp only [List.mem_append]
  exact Or.inl (Or.inr h)

theorem stripWs_idem (s : List Char) : stripWs (stripWs s) = stripWs s := by
  have e2 : (stripWs s).reverse.dropWhile isSpaceChar = (stripWs s).reverse := by
    unfold stripWs
    rw [List.reverse_reverse]
    exact dropWhile_dropWhile _ _
  have e1 : (stripWs s).dropWhile isSpaceChar = stripWs s := by
    apply dropWhile_eq_self_of
    intro c hc
    unfold stripWs at hc
    set D := ((s.dropWhile isSpaceChar).reverse).dropWhile isSpaceChar with hD
    have hD0 : D ≠ [] := by
      intro habs
      rw [habs] at hc
      simp at hc
    have h3 : D.getLast? = some c := by
      rw [List.head?_reverse] at hc
      exact hc
    have h4 : (s.dropWhile isSpaceChar).reverse.getLast? = some c := by
      rw [← getLast?_dropWhile hD0, ← hD, h3]
    rw [List.getLast?_reverse] at h4
    exact head?_dropWhile_false h4
  have hdef : stripWs (stripWs s) =
      (((stripWs s).dropWhile isSpaceChar).reverse.dropWhile isSpaceChar).reverse := rfl
  rw [hdef, e1, e2, List.reverse_reverse]

def prependChunk (w : List Char) : List (List Char) → List (List Char)
  | [] => [w]
  | u :: us => (w ++ u) :: us

theorem wsChunks_cons_space {c : Char} (s : List Char) (h : isSpaceChar c = true) :
    wsChunks (c :: s) = [] :: wsChunks s := by
  unfold wsChunks
  rw [List.foldr_cons]
  unfold wsStep
  rw [if_pos h]

theorem wsChunks_cons_nonspace {c : Char} (s : List Char) (h : isSpaceChar c = false) :
    wsChunks (c :: s) = prependChunk [c] (wsChunks s) := by
  unfold wsChunks
  rw [List.foldr_cons]
  unfold wsStep
  rw [if_neg (by simp [h])]
  cases s.foldr wsStep [] with
  | nil => rfl
  | cons u us => rfl

theorem prependChunk_ne_nil (w : List Char) (us : List (List Char)) :
    prependChunk w us ≠ [] := by
  cases us <;> simp [prependChunk]

theorem wsChunks_append_word {w : List Char} (s : List Char) (hw : w ≠ [])
    (hns : ∀ c ∈ w, isSpaceChar c = false) :
    wsChunks (w ++ s) = prependChunk w (wsChunks s) := by
  induction w with
  | nil => exact absurd rfl hw
  | cons c w' ih =>
    by_cases hw' : w' = []
    · subst hw'
      exact wsChunks_cons_nonspace s (hns c (List.mem_cons_self _ _))
    · rw [List.cons_append,
        wsChunks_cons_nonspace (w' ++ s) (hns c (List.mem_cons_self _ _)),
        ih hw' fun d hd => hns d (List.mem_cons_of_mem _ hd)]
      cases wsChunks s <;> simp [prependChunk]

theorem wsChunks_joinSpace {ws : List (List Char)}
    (h : ∀ w ∈ ws, w ≠ [] ∧ ∀ c ∈ w, isSpaceChar c = false) :
    wsChunks (joinSpace ws) = ws := by
  induction ws with
  | nil => rfl
  | cons w ws' ih =>
    have hw := h w (List.mem_cons_self _ _)
    by_cases hws : ws' = []
    · subst hws
      show wsChunks w = [w]
      calc wsChunks w = wsChunks (w ++ []) := by rw [List.append_nil]
        _ = prependChunk w (wsChunks []) := wsChunks_append_word [] hw.1 hw.2
        _ = [w] := rfl
    · have hjoin : joinSpace (w :: ws') = w ++ ' ' :: joinSpace ws' := by
        cases ws' with
        | nil => exact absurd rfl hws
        | cons u us => rfl
      rw [hjoin, wsChunks_append_word _ hw.1 hw.2,
        wsChunks_cons_space _ (by decide),
        ih fun v hv => h v (List.mem_cons_of_mem _ hv)]
      simp [prependChunk]

theorem wsChunks_props :
    ∀ (s : List Char) (w : List Char), w ∈ wsChunks s →
      ∀ c ∈ w, c ∈ s ∧ isSpaceChar c = false := by
  intro s
  induction s with
  | nil =>
    intro w hw
    simp [wsChunks] at hw
  | cons a rest ih =>
    intro w hw c hc
    by_cases ha : isSpaceChar a
    · rw [wsChunks_cons_space _ ha] at hw
      rcases List.mem_cons.mp hw with h1 | h1
      · rw [h1] at hc
        simp at hc
      · have := ih w h1 c hc
        exact ⟨List.mem_cons_of_mem _ this.1, this.2⟩
    · rw [wsChunks_cons_nonspace _ (by simpa using ha)] at hw
      cases hcs : wsChunks rest with
      | nil =>
        rw [hcs] at hw
        simp only [prependChunk] at hw
        rcases List.mem_cons.mp hw with h1 | h1
        · rw [h1] at hc
          obtain rfl : c = a := by simpa using hc
          exact ⟨List.mem_cons_self _ _, by simpa using ha⟩
        · simp at h1
      | cons u us =>
        rw [hcs] at hw
        simp only [prependChunk] at hw
        rcases List.mem_cons.mp hw with h1 | h1
        · rw [h1] at hc
          rcases List.mem_cons.mp hc with h2 | h2
          · subst h2
            exact ⟨List.mem_cons_self _ _, by simpa using ha⟩
          · have := ih u (hcs ▸ List.mem_cons_self _ _) c h2
            exact ⟨List.mem_cons_of_mem _ this.1, this.2⟩
        · have := ih w (hcs ▸ List.mem_cons_of_mem _ h1) c hc
          exact ⟨List.mem_cons_of_mem _ this.1, this.2⟩

theorem mem_joinSpace {ws : List (List Char)} {c : Char} (h : c ∈ joinSpace ws) :
    c = ' ' ∨ ∃ w ∈ ws, c ∈ w := by
  induction ws with
  | nil => simp [joinSpace] at h
  | cons w ws' ih =>
    by_cases hws : ws' = []
    · subst hws
      exact Or.inr ⟨w, List.mem_cons_self _ _, h⟩
    · have hjoin : joinSpace (w :: ws') = w ++ ' ' :: joinSpace ws' := by
        cases ws' with
        | nil => exact absurd rfl hws
        | cons u us => rfl
      rw [hjoin] at h
      rcases List.mem_append.mp h with h1 | h1
      · exact Or.inr ⟨w, List.mem_cons_self _ _, h1⟩
      · rcases List.mem_cons.mp h1 with h2 | h2
        · exact Or.inl h2
        · rcases ih h2 with h3 | ⟨v, hv, hcv⟩
          · exact Or.inl h3
          · exact Or.inr ⟨v, List.mem_cons_of_mem _ hv, hcv⟩

/-- Character-level facts about the output of the audit normalizer:
every character is either a lowercase-fixed word character or a blank. -/
theorem normalizeTitleAudit_chars {t : List Char} {c : Char}
    (h : c ∈ normalizeTitleAudit t) :
    c = ' ' ∨ (isWordChar c = true ∧ isSpaceChar c = false ∧ c.toLower = c) := by
  unfold normalizeTitleAudit at h
  dsimp only at h
  rcases mem_joinSpace h with h1 | ⟨w, hw, hcw⟩
  · exact Or.inl h1
  · unfold wsSplit at hw
    rw [List.mem_filter] at hw
    obtain ⟨hmem3, hns⟩ := wsChunks_props _ w hw.1 c hcw
    right
    refine ⟨?_, hns, ?_⟩
    · have hkeep := List.of_mem_filter hmem3
      rcases Bool.or_eq_true _ _ |>.mp hkeep with h1 | h1
      · exact h1
      · rw [h1] at hns
        exact absurd hns (by simp)
    · rcases List.mem_map.mp (List.mem_of_mem_filter hmem3) with ⟨d, -, hd⟩
      rw [← hd]
      exact toLower_toLower d

theorem normalizeTitleAudit_idem (t : List Char) :
    normalizeTitleAudit (normalizeTitleAudit t) = normalizeTitleAudit t := by
  have hx : normalizeTitleAudit t =
      joinSpace (wsSplit ((toLowerList (t.filter fun c => !(c = '{' || c = '}'))).filter
        fun c => isWordChar c || isSpaceChar c)) := rfl
  have h1 : (normalizeTitleAudit t).filter (fun c => !(c = '{' || c = '}')) =
      normalizeTitleAudit t := by
    apply filter_eq_self_of
    intro c hc
    rcases normalizeTitleAudit_chars hc with h | ⟨hw, -, -⟩
    · subst h; decide
    · rw [isWordChar_iff] at hw
      have hb1 : c ≠ '{' := by
        intro habs
        rw [char_eq_iff_toNat] at habs
        have h123 : ('{').toNat = 123 := rfl
        omega
      have hb2 : c ≠ '}' := by
        intro habs
        rw [char_eq_iff_toNat] at habs
        have h125 : ('}').toNat = 125 := rfl
        omega
      simp [hb1, hb2]
  have h2 : toLowerList (normalizeTitleAudit t) = normalizeTitleAudit t := by
    apply map_eq_self
    intro c hc
    rcases normalizeTitleAudit_chars hc with h | ⟨-, -, hfix⟩
    · subst h; decide
    · exact hfix
  have h3 : (normalizeTitleAudit t).filter (fun c => isWordChar c || isSpaceChar c) =
      normalizeTitleAudit t := by
    apply filter_eq_self_of
    intro c hc
    rcases normalizeTitleAudit_chars hc with h | ⟨hw, -, -⟩
    · subst h; decide
    · simp [hw]
  have hWSprops : ∀ w ∈ wsSplit ((toLowerList (t.filter fun c => !(c = '{' || c = '}'))).filter
      fun c => isWordChar c || isSpaceChar c),
      w ≠ [] ∧ ∀ c ∈ w, isSpaceChar c = false := by
    intro w hw
    unfold wsSplit at hw
    rw [List.mem_filter] at hw
    refine ⟨by simpa using hw.2, fun c hc => (wsChunks_props _ w hw.1 c hc).2⟩
  have hround : wsSplit (normalizeTitleAudit t) =
      wsSplit ((toLowerList (t.filter fun c => !(c = '{' || c = '}'))).filter
        fun c => isWordChar c || isSpaceChar c) := by
    rw [hx]
    unfold wsSplit
    rw [wsChunks_joinSpace (by
      intro w hw
      exact hWSprops w hw)]
    apply filter_eq_self_of
    intro w hw
    unfold wsSplit at hw
    rw [List.mem_filter] at hw
    exact hw.2
  calc normalizeTitleAudit (normalizeTitleAudit t)
      = joinSpace (wsSplit (((normalizeTitleAudit t).filter
          (fun c => !(c = '{' || c = '}')) |> toLowerList).filter
            fun c => isWordChar c || isSpaceChar c)) := rfl
    _ = joinSpace (wsSplit (normalizeTitleAudit t)) := by rw [h1, h2, h3]
    _ = normalizeTitleAudit t := by rw [hround, ← hx]

/-- No two adjacent whitespace characters. -/
def noDoubleSpace : List Char → Bool
  | [] => true
  | [_] => true
  | c :: d :: rest => !(isSpaceChar c && isSpaceChar d) && noDoubleSpace (d :: rest)

theorem nds_tail {c : Char} {l : List Char} (h : noDoubleSpace (c :: l) = true) :
    noDoubleSpace l = true := by
  cases l with
  | nil => rfl
  | cons d rest =>
    rw [noDoubleSpace, Bool.and_eq_true] at h
    exact h.2

theorem nds_dropLeft {a m : List Char} (h : noDoubleSpace (a ++ m) = true) :
    noDoubleSpace m = true := by
  induction a with
  | nil => exact h
  | cons c a' ih => exact ih (nds_tail h)

theorem nds_dropRight {m b : List Char} (h : noDoubleSpace (m ++ b) = true) :
    noDoubleSpace m = true := by
  induction m with
  | nil => rfl
  | cons c m' ih =>
    cases m' with
    | nil => rfl
    | cons d m2 =>
      rw [List.cons_append, List.cons_append, noDoubleSpace, Bool.and_eq_true] at h
      rw [noDoubleSpace, Bool.and_eq_true]
      exact ⟨h.1, ih (by rw [List.cons_append]; exact h.2)⟩

theorem nds_map {f : Char → Char} (hf : ∀ c, isSpaceChar (f c) = isSpaceChar c)
    {l : List Char} (h : noDoubleSpace l = true) : noDoubleSpace (l.map f) = true := by
  induction l with
  | nil => rfl
  | cons c l' ih =>
    cases l' with
    | nil => rfl
    | cons d rest =>
      rw [noDoubleSpace, Bool.and_eq_true] at h
      rw [List.map_cons, List.map_cons, noDoubleSpace, Bool.and_eq_true]
      refine ⟨?_, by rw [← List.map_cons]; exact ih h.2⟩
      rw [hf, hf]
      exact h.1

theorem isSpaceChar_toLower (c : Char) : isSpaceChar c.toLower = isSpaceChar c := by
  cases h : isSpaceChar c with
  | true =>
    rw [isSpaceChar_iff] at h ⊢
    rw [toLower_toNat]
    split_ifs <;> omega
  | false =>
    rw [← Bool.not_eq_true] at h ⊢
    rw [isSpaceChar_iff] at h ⊢
    rw [toLower_toNat]
    split_ifs <;> omega

theorem collapse_cons_nonspace {c : Char} (s : List Char) (h : isSpaceChar c = false) :
    collapseSpaces (c :: s) = c :: collapseSpaces s := by
  rw [collapseSpaces, if_neg (by simp [h])]

theorem collapse_cons_space {c : Char} (s : List Char) (h : isSpaceChar c = true) :
    collapseSpaces (c :: s) =
      if (collapseSpaces s).head? = some ' ' then collapseSpaces s
      else ' ' :: collapseSpaces s := by
  rw [collapseSpaces, if_pos h]

theorem mem_collapse {s : List Char} {c : Char} (h : c ∈ collapseSpaces s) :
    c ∈ s ∨ c = ' ' := by
  induction s with
  | nil => simp [collapseSpaces] at h
  | cons d s' ih =>
    by_cases hd : isSpaceChar d
    · rw [collapse_cons_space s' hd] at h
      split_ifs at h
      · rcases ih h with h1 | h1
        · exact Or.inl (List.mem_cons_of_mem _ h1)
        · exact Or.inr h1
      · rcases List.mem_cons.mp h with h1 | h1
        · exact Or.inr h1
        · rcases ih h1 with h2 | h2
          · exact Or.inl (List.mem_cons_of_mem _ h2)
          · exact Or.inr h2
    · rw [collapse_cons_nonspace s' (by simpa using hd)] at h
      rcases List.mem_cons.mp h with h1 | h1
      · exact Or.inl (h1 ▸ List.mem_cons_self _ _)
      · rcases ih h1 with h2 | h2
        · exact Or.inl (List.mem_cons_of_mem _ h2)
        · exact Or.inr h2

theorem collapse_allBlank {s : List Char} {c : Char} (h : c ∈ collapseSpaces s)
    (hsp : isSpaceChar c = true) : c = ' ' := by
  induction s with
  | nil => simp [collapseSpaces] at h
  | cons d s' ih =>
    by_cases hd : isSpaceChar d
    · rw [collapse_cons_space s' hd] at h
      split_ifs at h
      · exact ih h
      · rcases List.mem_cons.mp h with h1 | h1
        · exact h1
        · exact ih h1
    · rw [collapse_cons_nonspace s' (by simpa using hd)] at h
      rcases List.mem_cons.mp h with h1 | h1
      · subst h1
        exact absurd hsp (by simpa using hd)
      · exact ih h1

theorem collapse_nds (s : List Char) : noDoubleSpace (collapseSpaces s) = true := by
  induction s with
  | nil => rfl
  | cons d s' ih =>
    by_cases hd : isSpaceChar d
    · rw [collapse_cons_space s' hd]
      split_ifs with hh
      · exact ih
      · cases hc : collapseSpaces s' with
        | nil => rfl
        | cons e rest =>
          rw [noDoubleSpace, Bool.and_eq_true]
          constructor
          · have he : e ≠ ' ' := by
              intro habs
              rw [hc, habs] at hh
              simp at hh
            have : isSpaceChar e = false := by
              cases hsp : isSpaceChar e with
              | false => rfl
              | true =>
                exact absurd (collapse_allBlank (hc ▸ List.mem_cons_self _ _) hsp) he
            simp [this]
          · rw [← hc]
            exact ih
    · rw [collapse_cons_nonspace s' (by simpa using hd)]
      cases hc : collapseSpaces s' with
      | nil => rfl
      | cons e rest =>
        rw [noDoubleSpace, Bool.and_eq_true]
        refine ⟨by simp [hd], ?_⟩
        rw [← hc]
        exact ih

theorem collapse_eq_self {s : List Char}
    (hblank : ∀ c ∈ s, isSpaceChar c = true → c = ' ')
    (hnds : noDoubleSpace s = true) : collapseSpaces s = s := by
  induction s with
  | nil => rfl
  | cons d s' ih =>
    have ihr : collapseSpaces s' = s' :=
      ih (fun c hc hs => hblank c (List.mem_cons_of_mem _ hc) hs) (nds_tail hnds)
    by_cases hd : isSpaceChar d
    · rw [collapse_cons_space s' hd, ihr]
      have hd' : d = ' ' := hblank d (List.mem_cons_self _ _) hd
      subst hd'
      cases s' with
      | nil => rw [if_neg (by simp)]
      | cons e rest =>
        rw [noDoubleSpace, Bool.and_eq_true] at hnds
        have he : isSpaceChar e = false := by
          have := hnds.1
          cases hsp : isSpaceChar e with
          | false => rfl
          | true => simp [hd, hsp] at this
        have he' : e ≠ ' ' := by
          intro habs
          rw [habs] at he
          exact absurd he (by decide)
        rw [if_neg (by simp [he'])]
    · rw [collapse_cons_nonspace s' (by simpa using hd), ihr]

theorem alnum_not_space {c : Char} (h : c.isAlphanum = true) : isSpaceChar c = false := by
  cases hs : isSpaceChar c with
  | false => rfl
  | true =>
    rw [isAlphanum_iff] at h
    rw [isSpaceChar_iff] at hs
    omega

theorem subArg_eq_self :
    ∀ {fuel : Nat} {s : List Char}, s.length < fuel → (∀ c ∈ s, c ≠ '\\') →
      subLatexCmdArgF fuel s = s := by
  intro fuel
  induction fuel with
  | zero => intro s h _; omega
  | succ f ih =>
    intro s hl hbs
    cases s with
    | nil => rfl
    | cons c rest =>
      rw [subLatexCmdArgF, if_neg (hbs c (List.mem_cons_self _ _))]
      rw [ih (by simp only [List.length_cons] at hl; omega)
        fun d hd => hbs d (List.mem_cons_of_mem _ hd)]

theorem subCmd_eq_self :
    ∀ {fuel : Nat} {s : List Char}, s.length < fuel → (∀ c ∈ s, c ≠ '\\') →
      subLatexCmdF fuel s = s := by
  intro fuel
  induction fuel with
  | zero => intro s h _; omega
  | succ f ih =>
    intro s hl hbs
    cases s with
    | nil => rfl
    | cons c rest =>
      rw [subLatexCmdF, if_neg (hbs c (List.mem_cons_self _ _))]
      rw [ih (by simp only [List.length_cons] at hl; omega)
        fun d hd => hbs d (List.mem_cons_of_mem _ hd)]

theorem normalizeTitleMerge_chars {t : List Char} {c : Char}
    (h : c ∈ normalizeTitleMerge t) :
    c = ' ' ∨ (c.isAlphanum = true ∧ isSpaceChar c = false ∧ c.toLower = c) := by
  unfold normalizeTitleMerge at h
  split at h
  · simp at h
  · dsimp only at h
    have h1 := mem_stripWs h
    rcases List.mem_map.mp h1 with ⟨d, hd, hdc⟩
    rcases mem_collapse hd with h2 | h2
    · rcases List.mem_map.mp h2 with ⟨e, -, hed⟩
      by_cases ha : (e.isAlphanum || isSpaceChar e) = true
      · rw [if_pos ha] at hed
        subst hed
        rcases Bool.or_eq_true _ _ |>.mp ha with hA | hS
        · right
          exact ⟨hdc ▸ isAlphanum_toLower hA,
            hdc ▸ alnum_not_space (isAlphanum_toLower hA),
            hdc ▸ toLower_toLower e⟩
        · have hblank : e = ' ' := collapse_allBlank hd hS
          subst hblank
          exact Or.inl (by rw [← hdc]; decide)
      · rw [if_neg ha] at hed
        subst hed
        exact Or.inl (by rw [← hdc]; decide)
    · subst h2
      exact Or.inl (by rw [← hdc]; decide)

theorem normalizeTitleMerge_nds (t : List Char) :
    noDoubleSpace (normalizeTitleMerge t) = true := by
  unfold normalizeTitleMerge
  split
  · rfl
  · dsimp only
    have h2 : noDoubleSpace (toLowerList (collapseSpaces (((subLatexCmdF
        ((subLatexCmdArgF (t.length + 1) t).length + 1)
        (subLatexCmdArgF (t.length + 1) t)).filter
          fun c => !(c = '{' || c = '}' || c = '\\')).map
        fun c => if c.isAlphanum || isSpaceChar c then c else ' '))) = true :=
      nds_map isSpaceChar_toLower (collapse_nds
        (((subLatexCmdF
          ((subLatexCmdArgF (t.length + 1) t).length + 1)
          (subLatexCmdArgF (t.length + 1) t)).filter
            fun c => !(c = '{' || c = '}' || c = '\\')).map
          fun c => if c.isAlphanum || isSpaceChar c then c else ' '))
    obtain ⟨a, b, hab⟩ := stripWs_eq_append
      (toLowerList (collapseSpaces (((subLatexCmdF
        ((subLatexCmdArgF (t.length + 1) t).length + 1)
        (subLatexCmdArgF (t.length + 1) t)).filter
          fun c => !(c = '{' || c = '}' || c = '\\')).map
        fun c => if c.isAlphanum || isSpaceChar c then c else ' ')))
    rw [hab] at h2
    exact nds_dropLeft (nds_dropRight h2)

theorem normalizeTitleMerge_idem (t : List Char) :
    normalizeTitleMerge (normalizeTitleMerge t) = normalizeTitleMerge t := by
  by_cases h0 : normalizeTitleMerge t = []
  · rw [h0]
    rfl
  · have hchars := fun c (hc : c ∈ normalizeTitleMerge t) => normalizeTitleMerge_chars hc
    have hnobs : ∀ c ∈ normalizeTitleMerge t, c ≠ '\\' := by
      intro c hc habs
      rcases hchars c hc with h | ⟨hA, -, -⟩
      · rw [habs] at h
        exact absurd h (by decide)
      · rw [habs, isAlphanum_iff] at hA
        have h92 : ('\\').toNat = 92 := rfl
        omega
    have s1 : subLatexCmdArgF ((normalizeTitleMerge t).length + 1) (normalizeTitleMerge t) =
        normalizeTitleMerge t := subArg_eq_self (by omega) hnobs
    have s2 : subLatexCmdF ((normalizeTitleMerge t).length + 1) (normalizeTitleMerge t) =
        normalizeTitleMerge t := subCmd_eq_self (by omega) hnobs
    have s3 : (normalizeTitleMerge t).filter (fun c => !(c = '{' || c = '}' || c = '\\')) =
        normalizeTitleMerge t := by
      apply filter_eq_self_of
      intro c hc
      rcases hchars c hc with h | ⟨hA, -, -⟩
      · subst h; decide
      · rw [isAlphanum_iff] at hA
        have hb1 : c ≠ '{' := by
          intro habs
          rw [char_eq_iff_toNat] at habs
          have : ('{').toNat = 123 := rfl
          omega
        have hb2 : c ≠ '}' := by
          intro habs
          rw [char_eq_iff_toNat] at habs
          have : ('}').toNat = 125 := rfl
          omega
        have hb3 : c ≠ '\\' := by
          intro habs
          rw [char_eq_iff_toNat] at habs
          have : ('\\').toNat = 92 := rfl
          omega
        simp [hb1, hb2, hb3]
    have s4 : (normalizeTitleMerge t).map
        (fun c => if c.isAlphanum || isSpaceChar c then c else ' ') =
        normalizeTitleMerge t := by
      apply map_eq_self
      intro c hc
      rcases hchars c hc with h | ⟨hA, -, -⟩
      · subst h; decide
      · rw [if_pos (by simp [hA])]
    have s5 : collapseSpaces (normalizeTitleMerge t) = normalizeTitleMerge t := by
      apply collapse_eq_self
      · intro c hc hs
        rcases hchars c hc with h | ⟨-, hns, -⟩
        · exact h
        · rw [hs] at hns
          exact absurd hns (by simp)
      · exact normalizeTitleMerge_nds t
    have s6 : toLowerList (normalizeTitleMerge t) = normalizeTitleMerge t := by
      apply map_eq_self
      intro c hc
      rcases hchars c hc with h | ⟨-, -, hfix⟩
      · subst h; decide
      · exact hfix
    have s7 : stripWs (normalizeTitleMerge t) = normalizeTitleMerge t := by
      have ht : t ≠ [] := by
        intro habs
        rw [habs] at h0
        exact h0 rfl
      have hxdef : normalizeTitleMerge t =
          stripWs (toLowerList (collapseSpaces ((((subLatexCmdF
            ((subLatexCmdArgF (t.length + 1) t).length + 1)
            (subLatexCmdArgF (t.length + 1) t)).filter
              fun c => !(c = '{' || c = '}' || c = '\\')).map
            fun c => if c.isAlphanum || isSpaceChar c then c else ' ')))) := by
        unfold normalizeTitleMerge
        rw [if_neg ht]
      rw [hxdef, stripWs_idem]
    have expand : normalizeTitleMerge (normalizeTitleMerge t) =
        stripWs (toLowerList (collapseSpaces ((((subLatexCmdF
          ((subLatexCmdArgF ((normalizeTitleMerge t).length + 1)
            (normalizeTitleMerge t)).length + 1)
          (subLatexCmdArgF ((normalizeTitleMerge t).length + 1)
            (normalizeTitleMerge t))).filter
            fun c => !(c = '{' || c = '}' || c = '\\')).map
          fun c => if c.isAlphanum || isSpaceChar c then c else ' ')))) := by
      have expand0 : normalizeTitleMerge (normalizeTitleMerge t) =
          if normalizeTitleMerge t = [] then [] else
            stripWs (toLowerList (collapseSpaces ((((subLatexCmdF
              ((subLatexCmdArgF ((normalizeTitleMerge t).length + 1)
                (normalizeTitleMerge t)).length + 1)
              (subLatexCmdArgF ((normalizeTitleMerge t).length + 1)
                (normalizeTitleMerge t))).filter
                fun c => !(c = '{' || c = '}' || c = '\\')).map
              fun c => if c.isAlphanum || isSpaceChar c then c else ' ')))) := rfl
      rw [expand0, if_neg h0]
    rw [expand, s1, s2, s3, s4, s5, s6, s7]

theorem stripPre_mem {pat s r : List Char} (h : stripPre pat s = some r) :
    ∀ c ∈ r, c ∈ s := by
  induction pat generalizing s with
  | nil =>
    obtain rfl : s = r := by simpa [stripPre] using h
    exact fun c hc => hc
  | cons p ps ih =>
    cases s with
    | nil => simp [stripPre] at h
    | cons a as =>
      rw [stripPre] at h
      split_ifs at h with hc
      · exact fun c hcr => List.mem_cons_of_mem _ (ih h c hcr)

theorem mem_stripDoiRes {s : List Char} {c : Char} (h : c ∈ stripDoiRes s) : c ∈ s := by
  unfold stripDoiRes at h
  cases h1 : stripPre "http".data s with
  | none => rw [h1] at h; exact h
  | some r1 =>
    rw [h1] at h
    have hm1 : ∀ d ∈ r1, d ∈ s := stripPre_mem h1
    dsimp only at h
    cases h2 : stripPre "s".data r1 with
    | none =>
      rw [h2] at h
      dsimp only at h
      cases h3 : stripPre "://".data r1 with
      | none => rw [h3] at h; exact h
      | some r3 =>
        rw [h3] at h
        dsimp only at h
        have hm3 : ∀ d ∈ r3, d ∈ s := fun d hd => hm1 d (stripPre_mem h3 d hd)
        cases h4 : stripPre "dx.".data r3 with
        | none =>
          rw [h4] at h
          dsimp only at h
          cases h5 : stripPre "doi.org/".data r3 with
          | none => rw [h5] at h; exact h
          | some r5 =>
            rw [h5] at h
            exact hm3 c (stripPre_mem h5 c h)
        | some r4 =>
          rw [h4] at h
          dsimp only at h
          have hm4 : ∀ d ∈ r4, d ∈ s := fun d hd => hm3 d (stripPre_mem h4 d hd)
          cases h5 : stripPre "doi.org/".data r4 with
          | none => rw [h5] at h; exact h
          | some r5 =>
            rw [h5] at h
            exact hm4 c (stripPre_mem h5 c h)
    | some r2 =>
      rw [h2] at h
      dsimp only at h
      have hm2 : ∀ d ∈ r2, d ∈ s := fun d hd => hm1 d (stripPre_mem h2 d hd)
      cases h3 : stripPre "://".data r2 with
      | none => rw [h3] at h; exact h
      | some r3 =>
        rw [h3] at h
        dsimp only at h
        have hm3 : ∀ d ∈ r3, d ∈ s := fun d hd => hm2 d (stripPre_mem h3 d hd)
        cases h4 : stripPre "dx.".data r3 with
        | none =>
          rw [h4] at h
          dsimp only at h
          cases h5 : stripPre "doi.org/".data r3 with
          | none => rw [h5] at h; exact h
          | some r5 =>
            rw [h5] at h
            exact hm3 c (stripPre_mem h5 c h)
        | some r4 =>
          rw [h4] at h
          dsimp only at h
          have hm4 : ∀ d ∈ r4, d ∈ s := fun d hd => hm3 d (stripPre_mem h4 d hd)
          cases h5 : stripPre "doi.org/".data r4 with
          | none => rw [h5] at h; exact h
          | some r5 =>
            rw [h5] at h
            exact hm4 c (stripPre_mem h5 c h)

theorem normalizeIdentifier_toLower_fixed {d : List Char} {c : Char}
    (h : c ∈ normalizeIdentifier d) : c.toLower = c := by
  unfold normalizeIdentifier at h
  have h1 := mem_stripWs (mem_stripDoiRes h)
  rcases List.mem_map.mp h1 with ⟨e, -, he⟩
  rw [← he]
  exact toLower_toLower e

/-- C8 counterexample: the DOI normalization is not idempotent: a
doubled resolver prefix is stripped once per application. -/
theorem claim_C8_counterexample :
    normalizeIdentifier
        (normalizeIdentifier "https://doi.org/https://doi.org/10.1/x".data) ≠
      normalizeIdentifier "https://doi.org/https://doi.org/10.1/x".data := by decide

/-- C8 (amended): both title normalizers are idempotent on every input;
the identifier normalization is idempotent exactly when its output is
already whitespace-stripped and carries no further resolver prefix
(which a doubled resolver prefix, or a space after the prefix,
violates). -/
theorem claim_C8_amended (t u d : List Char)
    (h1 : stripWs (normalizeIdentifier d) = normalizeIdentifier d)
    (h2 : stripDoiRes (normalizeIdentifier d) = normalizeIdentifier d) :
    normalizeTitleAudit (normalizeTitleAudit t) = normalizeTitleAudit t ∧
    normalizeTitleMerge (normalizeTitleMerge u) = normalizeTitleMerge u ∧
    normalizeIdentifier (normalizeIdentifier d) = normalizeIdentifier d := by
  refine ⟨normalizeTitleAudit_idem t, normalizeTitleMerge_idem u, ?_⟩
  have h3 : toLowerList (normalizeIdentifier d) = normalizeIdentifier d :=
    map_eq_self fun c hc => normalizeIdentifier_toLower_fixed hc
  show stripDoiRes (stripWs (toLowerList (normalizeIdentifier d))) = normalizeIdentifier d
  rw [h3, h1, h2]

theorem claim_C8_witness :
    normalizeTitleAudit (normalizeTitleAudit "A \x7bB\x7d: c".data) =
      normalizeTitleAudit "A \x7bB\x7d: c".data ∧
    normalizeTitleMerge (normalizeTitleMerge "\\emph\x7bX\x7d y!".data) =
      normalizeTitleMerge "\\emph\x7bX\x7d y!".data ∧
    normalizeIdentifier (normalizeIdentifier "https://doi.org/10.1/x".data) =
      normalizeIdentifier "https://doi.org/10.1/x".data :=
  claim_C8_amended "A \x7bB\x7d: c".data "\\emph\x7bX\x7d y!".data
    "https://doi.org/10.1/x".data (by decide) (by decide)

/-! ## Claim C1: the DOI deduplication invariant -/

/-- `len(fields)` of an entry. -/
def fieldCount (e : Entry) : Nat :=
  (parseFields e.fieldsStr).length

/-- The largest field count in a group (0 for the empty group). -/
def maxCount (g : List Entry) : Nat :=
  (g.map fieldCount).foldr max 0

/-- The claim's selector: the first-encountered entry of the group with
the maximal number of parsed fields. -/
def specBest (g : List Entry) : Option Entry :=
  g.find? fun e => fieldCount e == maxCount g

theorem le_maxCount {g : List Entry} {x : Entry} (h : x ∈ g) :
    fieldCount x ≤ maxCount g := by
  induction g with
  | nil => simp at h
  | cons a rest ih =>
    unfold maxCount at *
    rw [List.map_cons, List.foldr_cons]
    rcases List.mem_cons.mp h with h1 | h1
    · subst h1
      exact Nat.le_max_left _ _
    · exact Nat.le_trans (ih h1) (Nat.le_max_right _ _)

theorem maxCount_attained {g : List Entry} (h : g ≠ []) :
    ∃ x ∈ g, fieldCount x = maxCount g := by
  induction g with
  | nil => exact absurd rfl h
  | cons a rest ih =>
    by_cases hr : rest = []
    · subst hr
      refine ⟨a, List.mem_cons_self _ _, ?_⟩
      unfold maxCount
      simp
    · obtain ⟨x, hx, hfx⟩ := ih hr
      unfold maxCount at *
      rw [List.map_cons, List.foldr_cons]
      by_cases hc : fieldCount a ≤ (rest.map fieldCount).foldr max 0
      · exact ⟨x, List.mem_cons_of_mem _ hx, by rw [hfx, Nat.max_eq_right hc]⟩
      · refine ⟨a, List.mem_cons_self _ _, ?_⟩
        rw [Nat.max_eq_left (by omega)]

theorem maxCount_append_singleton (g : List Entry) (e : Entry) :
    maxCount (g ++ [e]) = max (maxCount g) (fieldCount e) := by
  induction g with
  | nil =>
    unfold maxCount
    simp
  | cons a rest ih =>
    unfold maxCount at *
    rw [List.cons_append, List.map_cons, List.foldr_cons, ih, List.map_cons,
      List.foldr_cons, Nat.max_assoc]

theorem find?_append_eq {p : Entry → Bool} (l1 l2 : List Entry) :
    (l1 ++ l2).find? p =
      match l1.find? p with
      | some x => some x
      | none => l2.find? p := by
  induction l1 with
  | nil => simp
  | cons a rest ih =>
    by_cases h : p a
    · rw [List.cons_append, List.find?_cons_of_pos _ h, List.find?_cons_of_pos _ h]
    · rw [List.cons_append, List.find?_cons_of_neg _ h,
        List.find?_cons_of_neg _ h, ih]

theorem specBest_eq_none_iff {g : List Entry} : specBest g = none ↔ g = [] := by
  constructor
  · intro h
    by_cases hg : g = []
    · exact hg
    · obtain ⟨x, hx, hfx⟩ := maxCount_attained hg
      unfold specBest at h
      rw [List.find?_eq_none] at h
      exact absurd (by simp [hfx]) (h x hx)
  · intro h
    subst h
    rfl

theorem specBest_spec {g : List Entry} {b : Entry} (h : specBest g = some b) :
    b ∈ g ∧ fieldCount b = maxCount g := by
  unfold specBest at h
  refine ⟨List.mem_of_find?_eq_some h, ?_⟩
  have := List.find?_some h
  simpa using this

theorem specBest_append_le {g : List Entry} {e : Entry} (hg : g ≠ [])
    (h : fieldCount e ≤ maxCount g) :
    specBest (g ++ [e]) = specBest g := by
  have hmax : maxCount (g ++ [e]) = maxCount g := by
    rw [maxCount_append_singleton, Nat.max_eq_left h]
  unfold specBest
  rw [hmax, find?_append_eq]
  cases hb : g.find? (fun x => fieldCount x == maxCount g) with
  | none =>
    obtain ⟨x, hx, hfx⟩ := maxCount_attained hg
    rw [List.find?_eq_none] at hb
    exact absurd (by simp [hfx]) (hb x hx)
  | some b => rfl

theorem specBest_append_gt {g : List Entry} {e : Entry}
    (h : maxCount g < fieldCount e) :
    specBest (g ++ [e]) = some e := by
  have hmax : maxCount (g ++ [e]) = fieldCount e := by
    rw [maxCount_append_singleton, Nat.max_eq_right (by omega)]
  unfold specBest
  rw [hmax, find?_append_eq]
  cases hb : g.find? (fun x => fieldCount x == fieldCount e) with
  | none => simp
  | some b =>
    have hp := List.find?_some hb
    have hmem := List.mem_of_find?_eq_some hb
    have : fieldCount b = fieldCount e := by simpa using hp
    have := le_maxCount hmem
    omega

theorem specBest_singleton (e : Entry) : specBest [e] = some e := by
  unfold specBest
  rw [show maxCount [e] = fieldCount e from by unfold maxCount; simp]
  simp

theorem filterConsPos (p : Entry → Bool) (a : Entry) (h : p a = true) (l : List Entry) :
    (a :: l).filter p = a :: l.filter p := by
  simp [List.filter_cons, h]

theorem filterConsNeg (p : Entry → Bool) (a : Entry) (h : p a = false) (l : List Entry) :
    (a :: l).filter p = l.filter p := by
  simp [List.filter_cons, h]

theorem lookup_cons_eq (k' : List Char) (v' : Entry) (rest : List (List Char × Entry))
    (d : List Char) :
    ((k', v') :: rest).lookup d = if d = k' then some v' else rest.lookup d := by
  cases hbe : (d == k') with
  | true => simp [List.lookup, hbe, beq_iff_eq.mp hbe]
  | false => simp [List.lookup, hbe, beq_eq_false_iff_ne.mp hbe]

theorem lookup_append_single_self {l : List (List Char × Entry)} {k : List Char} {v : Entry}
    (h : l.lookup k = none) : (l ++ [(k, v)]).lookup k = some v := by
  induction l with
  | nil => rw [List.nil_append, lookup_cons_eq, if_pos rfl]
  | cons p rest ih =>
    obtain ⟨k', v'⟩ := p
    rw [List.cons_append, lookup_cons_eq]
    rw [lookup_cons_eq] at h
    by_cases hd : k = k'
    · rw [if_pos hd] at h
      exact absurd h (by simp)
    · rw [if_neg hd] at h ⊢
      exact ih h

theorem lookup_append_single_ne {l : List (List Char × Entry)} {k d : List Char} {v : Entry}
    (h : d ≠ k) : (l ++ [(k, v)]).lookup d = l.lookup d := by
  induction l with
  | nil =>
    rw [List.nil_append, lookup_cons_eq, if_neg h]
  | cons p rest ih =>
    obtain ⟨k', v'⟩ := p
    rw [List.cons_append, lookup_cons_eq, lookup_cons_eq]
    by_cases hd' : d = k'
    · rw [if_pos hd', if_pos hd']
    · rw [if_neg hd', if_neg hd']
      exact ih

theorem lookup_updateAssoc_self (l : List (List Char × Entry)) (k : List Char) (v : Entry) :
    (updateAssoc l k v).lookup k = some v := by
  induction l with
  | nil =>
    simp only [updateAssoc]
    rw [lookup_cons_eq, if_pos rfl]
  | cons p rest ih =>
    obtain ⟨k', v'⟩ := p
    unfold updateAssoc
    by_cases hk : k' = k
    · rw [if_pos hk, lookup_cons_eq, if_pos rfl]
    · rw [if_neg hk, lookup_cons_eq, if_neg fun he => hk he.symm]
      exact ih

theorem lookup_updateAssoc_ne (l : List (List Char × Entry)) {k d : List Char} (v : Entry)
    (h : d ≠ k) : (updateAssoc l k v).lookup d = l.lookup d := by
  induction l with
  | nil =>
    simp only [updateAssoc]
    rw [lookup_cons_eq, if_neg h]
  | cons p rest ih =>
    obtain ⟨k', v'⟩ := p
    unfold updateAssoc
    by_cases hk : k' = k
    · rw [if_pos hk, lookup_cons_eq, lookup_cons_eq, if_neg h,
        if_neg (show d ≠ k' from fun he => h (he.trans hk))]
    · rw [if_neg hk, lookup_cons_eq, lookup_cons_eq]
      by_cases hd' : d = k'
      · rw [if_pos hd', if_pos hd']
      · rw [if_neg hd', if_neg hd']
        exact ih

theorem replaceFirst_decomp {l : List Entry} {old : Entry} (h : old ∈ l) (new : Entry) :
    ∃ l1 l2, l = l1 ++ old :: l2 ∧ old ∉ l1 ∧ replaceFirst l old new = l1 ++ new :: l2 := by
  induction l with
  | nil => simp at h
  | cons a rest ih =>
    by_cases ha : a = old
    · subst ha
      refine ⟨[], rest, rfl, by simp, ?_⟩
      simp only [replaceFirst, if_pos rfl]
      rfl
    · rcases List.mem_cons.mp h with h1 | h1
      · exact absurd h1.symm ha
      · obtain ⟨l1, l2, he, hn, hr⟩ := ih h1
        refine ⟨a :: l1, l2, by rw [he, List.cons_append], ?_, ?_⟩
        · intro hmem
          rcases List.mem_cons.mp hmem with h2 | h2
          · exact ha h2.symm
          · exact hn h2
        · simp only [replaceFirst, if_neg ha]
          rw [hr, List.cons_append]

theorem append_cons_eq_singleton {l1 l2 : List Entry} {x y : Entry}
    (h : l1 ++ x :: l2 = [y]) : l1 = [] ∧ x = y ∧ l2 = [] := by
  cases l1 with
  | nil =>
    simp only [List.nil_append, List.cons.injEq] at h
    exact ⟨rfl, h.1, h.2⟩
  | cons a rest =>
    rw [List.cons_append] at h
    have := congrArg List.length h
    simp [List.length_append] at this

/-- The records of `es` whose normalized DOI is `d`. -/
def dedupGroup (es : List Entry) (d : List Char) : List Entry :=
  es.filter fun x => normDoi x == d

theorem dedupGroup_append_mem {e : Entry} {d : List Char} (h : normDoi e = d)
    (ps : List Entry) : dedupGroup (ps ++ [e]) d = dedupGroup ps d ++ [e] := by
  unfold dedupGroup
  rw [List.filter_append]
  simp [h]

theorem dedupGroup_append_ne {e : Entry} {d : List Char} (h : normDoi e ≠ d)
    (ps : List Entry) : dedupGroup (ps ++ [e]) d = dedupGroup ps d := by
  unfold dedupGroup
  rw [List.filter_append]
  simp [beq_eq_false_iff_ne.mpr h]

/-- The loop invariant of `deduplicate_by_doi`: after processing the prefix
`ps`, for each nonempty normalized DOI `d` the dict `seen_dois` holds the
first entry of the `d`-group of `ps` with maximal field count, and the
entries of `unique_entries` with that DOI are exactly that one. -/
def DInv (ps : List Entry) (st : DState) : Prop :=
  ∀ d : List Char, d ≠ [] →
    st.seenDois.lookup d = specBest (dedupGroup ps d) ∧
    st.uniq.filter (fun x => normDoi x == d) = (st.seenDois.lookup d).toList

theorem dedupStep_eq (st : DState) (e : Entry) :
    dedupStep st e =
      if normDoi e ≠ [] then
        match st.seenDois.lookup (normDoi e) with
        | none => ⟨st.seenDois ++ [(normDoi e, e)], st.seenTitles, st.uniq ++ [e]⟩
        | some existing =>
          if fieldCount existing < fieldCount e then
            ⟨updateAssoc st.seenDois (normDoi e) e, st.seenTitles,
              replaceFirst st.uniq existing e⟩
          else st
      else
        if normTitleKey e ≠ [] then
          if st.seenTitles.contains (normTitleKey e) then st
          else ⟨st.seenDois, st.seenTitles ++ [normTitleKey e], st.uniq ++ [e]⟩
        else ⟨st.seenDois, st.seenTitles, st.uniq ++ [e]⟩ := rfl

theorem DInv_step {ps : List Entry} {st : DState} (h : DInv ps st) (e : Entry) :
    DInv (ps ++ [e]) (dedupStep st e) := by
  rw [dedupStep_eq]
  by_cases hde : normDoi e = []
  · rw [if_neg (by simpa using hde)]
    have hfe : ∀ d : List Char, d ≠ [] → (normDoi e == d) = false := fun d hd =>
      beq_eq_false_iff_ne.mpr (by rw [hde]; exact fun hh => hd hh.symm)
    have hgroup : ∀ d : List Char, d ≠ [] → dedupGroup (ps ++ [e]) d = dedupGroup ps d :=
      fun d hd => dedupGroup_append_ne (by rw [hde]; exact fun hh => hd hh.symm) ps
    have key : ∀ ts : List (List Char),
        DInv (ps ++ [e]) ⟨st.seenDois, ts, st.uniq ++ [e]⟩ := by
      intro ts d hd
      dsimp only
      refine ⟨?_, ?_⟩
      · rw [hgroup d hd]
        exact (h d hd).1
      · rw [List.filter_append,
          filterConsNeg (fun x => normDoi x == d) e (hfe d hd) [],
          List.filter_nil, List.append_nil]
        exact (h d hd).2
    have keep : DInv (ps ++ [e]) st := by
      intro d hd
      refine ⟨?_, ?_⟩
      · rw [hgroup d hd]
        exact (h d hd).1
      · exact (h d hd).2
    by_cases ht : normTitleKey e = []
    · rw [if_neg (by simpa using ht)]
      exact key st.seenTitles
    · rw [if_pos ht]
      by_cases hc : st.seenTitles.contains (normTitleKey e)
      · rw [if_pos hc]
        exact keep
      · rw [if_neg hc]
        exact key (st.seenTitles ++ [normTitleKey e])
  · rw [if_pos hde]
    cases hlook : st.seenDois.lookup (normDoi e) with
    | none =>
      have hGnil : dedupGroup ps (normDoi e) = [] :=
        specBest_eq_none_iff.mp (by rw [← (h (normDoi e) hde).1, hlook])
      intro d hd
      dsimp only
      by_cases hdd : d = normDoi e
      · subst hdd
        refine ⟨?_, ?_⟩
        · rw [lookup_append_single_self hlook, dedupGroup_append_mem rfl, hGnil,
            List.nil_append, specBest_singleton]
        · rw [List.filter_append, lookup_append_single_self hlook,
            filterConsPos (fun x => normDoi x == normDoi e) e (beq_self_eq_true _) [],
            List.filter_nil]
          have h2 := (h (normDoi e) hd).2
          rw [hlook] at h2
          rw [h2]
          rfl
      · have hne : normDoi e ≠ d := fun hh => hdd hh.symm
        refine ⟨?_, ?_⟩
        · rw [lookup_append_single_ne hdd, dedupGroup_append_ne hne]
          exact (h d hd).1
        · rw [List.filter_append, lookup_append_single_ne hdd,
            filterConsNeg (fun x => normDoi x == d) e (beq_eq_false_iff_ne.mpr hne) [],
            List.filter_nil, List.append_nil]
          exact (h d hd).2
    | some existing =>
      have h1 := (h (normDoi e) hde).1
      rw [hlook] at h1
      obtain ⟨hmemG, hfcE⟩ := specBest_spec h1.symm
      have hGne : dedupGroup ps (normDoi e) ≠ [] := by
        intro hg
        rw [hg] at hmemG
        simp at hmemG
      have h2 := (h (normDoi e) hde).2
      rw [hlook] at h2
      dsimp only
      by_cases hcmp : fieldCount existing < fieldCount e
      · rw [if_pos hcmp]
        have hmemU : existing ∈ st.uniq := by
          have hm : existing ∈ st.uniq.filter (fun x => normDoi x == normDoi e) := by
            rw [h2]
            exact List.mem_cons_self _ _
          exact (List.mem_filter.mp hm).1
        have hpex : (normDoi existing == normDoi e) = true := by
          have hm : existing ∈ st.uniq.filter (fun x => normDoi x == normDoi e) := by
            rw [h2]
            exact List.mem_cons_self _ _
          exact (List.mem_filter.mp hm).2
        obtain ⟨l1, l2, hu, hnotin, hrf⟩ := replaceFirst_decomp hmemU e
        have hfl : (l1.filter fun x => normDoi x == normDoi e) = [] ∧
            (l2.filter fun x => normDoi x == normDoi e) = [] := by
          rw [hu, List.filter_append,
            filterConsPos (fun x => normDoi x == normDoi e) existing hpex l2] at h2
          have := append_cons_eq_singleton h2
          exact ⟨this.1, this.2.2⟩
        intro d hd
        dsimp only
        by_cases hdd : d = normDoi e
        · subst hdd
          refine ⟨?_, ?_⟩
          · rw [lookup_updateAssoc_self, dedupGroup_append_mem rfl,
              specBest_append_gt (by omega)]
          · rw [lookup_updateAssoc_self, hrf, List.filter_append,
              filterConsPos (fun x => normDoi x == normDoi e) e (beq_self_eq_true _) l2,
              hfl.1, hfl.2, List.nil_append]
            rfl
        · have hne : normDoi e ≠ d := fun hh => hdd hh.symm
          have hpd : (normDoi e == d) = false := beq_eq_false_iff_ne.mpr hne
          have hpexd : (normDoi existing == d) = false := by
            rw [eq_of_beq hpex]
            exact hpd
          refine ⟨?_, ?_⟩
          · rw [lookup_updateAssoc_ne _ _ hdd, dedupGroup_append_ne hne]
            exact (h d hd).1
          · have old := (h d hd).2
            rw [hu, List.filter_append,
              filterConsNeg (fun x => normDoi x == d) existing hpexd l2] at old
            rw [hrf, List.filter_append,
              filterConsNeg (fun x => normDoi x == d) e hpd l2,
              lookup_updateAssoc_ne _ _ hdd]
            exact old
      · rw [if_neg hcmp]
        intro d hd
        by_cases hdd : d = normDoi e
        · subst hdd
          refine ⟨?_, ?_⟩
          · rw [hlook, dedupGroup_append_mem rfl,
              specBest_append_le hGne (by omega)]
            exact h1
          · exact (h (normDoi e) hd).2
        · have hne : normDoi e ≠ d := fun hh => hdd hh.symm
          refine ⟨?_, ?_⟩
          · rw [dedupGroup_append_ne hne]
            exact (h d hd).1
          · exact (h d hd).2

theorem DInv_init : DInv [] ⟨[], [], []⟩ := by
  intro d hd
  exact ⟨rfl, rfl⟩

theorem DInv_foldl (es : List Entry) : ∀ (ps : List Entry) (st : DState), DInv ps st →
    DInv (ps ++ es) (es.foldl dedupStep st) := by
  induction es with
  | nil =>
    intro ps st h
    simpa using h
  | cons e rest ih =>
    intro ps st h
    have hrec := ih (ps ++ [e]) (dedupStep st e) (DInv_step h e)
    rw [List.foldl_cons]
    rw [List.append_assoc] at hrec
    simpa using hrec

/-- The claim's scenario: two entries whose DOI fields are case/prefix
variants of the same identifier. -/
def c1entry1 : Entry := ⟨"article".data, "k1".data, "doi = \x7b10.1234/ABC\x7d".data⟩

def c1entry2 : Entry :=
  ⟨"article".data, "k2".data, "doi = \x7bhttps://doi.org/10.1234/abc\x7d".data⟩

/-- C1: for every sequence of records and every nonempty normalized DOI `d`,
the deduplicator's output contains exactly the members of the `d`-group
selected by `specBest`: the first-encountered record of the group whose
parsed field mapping has the largest number of fields (so exactly one record
of each nonempty group survives). In particular the two scenario entries
with DOI values `10.1234/ABC` and `https://doi.org/10.1234/abc` normalize to
the same identifier and only the first survives. -/
theorem claim_C1 :
    (∀ (es : List Entry) (d : List Char), d ≠ [] →
      (dedupByDoi es).filter (fun x => normDoi x == d) =
        (specBest (es.filter fun x => normDoi x == d)).toList) ∧
    normDoi c1entry1 = normDoi c1entry2 ∧
    dedupByDoi [c1entry1, c1entry2] = [c1entry1] := by
  refine ⟨?_, by decide, by decide⟩
  intro es d hd
  have hinv := DInv_foldl es [] ⟨[], [], []⟩ DInv_init
  rw [List.nil_append] at hinv
  obtain ⟨h1, h2⟩ := hinv d hd
  show (List.foldl dedupStep ⟨[], [], []⟩ es).uniq.filter _ = _
  rw [h2, h1]
  rfl

theorem claim_C1_witness :
    (dedupByDoi [c1entry1, c1entry2]).filter
        (fun x => normDoi x == "10.1234/abc".data) =
      (specBest ([c1entry1, c1entry2].filter
        fun x => normDoi x == "10.1234/abc".data)).toList :=
  claim_C1.1 [c1entry1, c1entry2] "10.1234/abc".data (by decide)

/-! ## Claims C3 and C4: round-tripping the serializer and brace-error recovery -/

/-- Dyck balance relative to a starting depth: scanning `v` from depth `d`
never closes a brace at depth 0 and ends back at depth 0. -/
def balancedAt : List Char → Nat → Bool
  | [], d => d == 0
  | c :: r, d =>
    if c = '{' then balancedAt r (d + 1)
    else if c = '}' then decide (1 ≤ d) && balancedAt r (d - 1)
    else balancedAt r d

/-- A balanced braced value, as required for `extract_braced_content` to
return exactly the value. -/
def isBalanced (v : List Char) : Bool :=
  balancedAt v 0

/-- Scanning from depth `d` the depth always stays at least 1 (each
closing brace sees depth at least 2). -/
def posDepth : List Char → Nat → Bool
  | [], _ => true
  | c :: r, d =>
    if c = '{' then posDepth r (d + 1)
    else if c = '}' then decide (2 ≤ d) && posDepth r (d - 1)
    else posDepth r d

/-- The nesting depth after scanning `s` from depth `d`. -/
def depthAfter : List Char → Nat → Nat
  | [], d => d
  | c :: r, d =>
    if c = '{' then depthAfter r (d + 1)
    else if c = '}' then depthAfter r (d - 1)
    else depthAfter r d

theorem extractBalanced :
    ∀ (v : List Char) (d : Nat) (tail : List Char), balancedAt v d = true →
      bracedAux (v ++ '}' :: tail) (d + 1) = some (v, tail) := by
  intro v
  induction v with
  | nil =>
    intro d tail h
    have hd : d = 0 := by simpa [balancedAt] using h
    subst hd
    rw [List.nil_append, bracedAux, if_pos rfl, if_pos rfl]
  | cons c v' ih =>
    intro d tail h
    rw [balancedAt] at h
    rw [List.cons_append, bracedAux]
    by_cases hc : c = '}'
    · subst hc
      rw [if_neg (by decide), if_pos rfl] at h
      obtain ⟨h1, h2⟩ := Bool.and_eq_true_iff.mp h
      have hd1 : 1 ≤ d := of_decide_eq_true h1
      rw [if_pos rfl, if_neg (show ¬ d + 1 = 1 by omega)]
      have hih := ih (d - 1) tail h2
      rw [show d - 1 + 1 = d from by omega] at hih
      rw [show d + 1 - 1 = d from by omega, hih]
    · by_cases hb : c = '{'
      · subst hb
        rw [if_pos rfl] at h
        rw [if_neg (by decide), if_pos rfl]
        rw [ih (d + 1) tail h]
      · rw [if_neg hb, if_neg hc] at h
        rw [if_neg hc, if_neg hb]
        rw [ih d tail h]

theorem bracedAux_posDepth :
    ∀ (s : List Char) (d : Nat), posDepth s d = true → bracedAux s d = none := by
  intro s
  induction s with
  | nil => intro d _; rfl
  | cons c r ih =>
    intro d h
    rw [posDepth] at h
    rw [bracedAux]
    by_cases hc : c = '}'
    · subst hc
      rw [if_neg (by decide), if_pos rfl] at h
      obtain ⟨h1, h2⟩ := Bool.and_eq_true_iff.mp h
      have hd : 2 ≤ d := of_decide_eq_true h1
      rw [if_pos rfl, if_neg (show ¬ d = 1 by omega), ih (d - 1) h2]
    · by_cases hb : c = '{'
      · subst hb
        rw [if_pos rfl] at h
        rw [if_neg (by decide), if_pos rfl, ih (d + 1) h]
      · rw [if_neg hb, if_neg hc] at h
        rw [if_neg hc, if_neg hb, ih d h]

theorem depthAfter_append :
    ∀ (a b : List Char) (d : Nat), depthAfter (a ++ b) d = depthAfter b (depthAfter a d) := by
  intro a
  induction a with
  | nil => intro b d; rfl
  | cons c r ih =>
    intro b d
    rw [List.cons_append, depthAfter, depthAfter]
    by_cases hb : c = '{'
    · rw [if_pos hb, if_pos hb, ih]
    · rw [if_neg hb, if_neg hb]
      by_cases hc : c = '}'
      · rw [if_pos hc, if_pos hc, ih]
      · rw [if_neg hc, if_neg hc, ih]

theorem posDepth_append :
    ∀ (a b : List Char) (d : Nat), posDepth a d = true →
      posDepth b (depthAfter a d) = true → posDepth (a ++ b) d = true := by
  intro a
  induction a with
  | nil => intro b d _ h2; exact h2
  | cons c r ih =>
    intro b d h1 h2
    rw [posDepth] at h1
    rw [depthAfter] at h2
    rw [List.cons_append, posDepth]
    by_cases hb : c = '{'
    · rw [if_pos hb] at h1
      rw [if_pos hb] at h2
      rw [if_pos hb]
      exact ih b (d + 1) h1 h2
    · rw [if_neg hb] at h1 h2 ⊢
      by_cases hc : c = '}'
      · rw [if_pos hc] at h1 h2
        obtain ⟨hd, h1'⟩ := Bool.and_eq_true_iff.mp h1
        rw [if_pos hc, Bool.and_eq_true]
        exact ⟨hd, ih b (d - 1) h1' h2⟩
      · rw [if_neg hc] at h1 h2
        rw [if_neg hc]
        exact ih b d h1 h2

theorem depthAfter_pos :
    ∀ (s : List Char) (d : Nat), posDepth s d = true → 1 ≤ d → 1 ≤ depthAfter s d := by
  intro s
  induction s with
  | nil => intro d _ hd; exact hd
  | cons c r ih =>
    intro d h hd
    rw [posDepth] at h
    rw [depthAfter]
    by_cases hb : c = '{'
    · rw [if_pos hb] at h
      rw [if_pos hb]
      exact ih (d + 1) h (by omega)
    · rw [if_neg hb] at h ⊢
      by_cases hc : c = '}'
      · rw [if_pos hc] at h
        obtain ⟨h1, h2⟩ := Bool.and_eq_true_iff.mp h
        have := of_decide_eq_true h1
        rw [if_pos hc]
        exact ih (d - 1) h2 (by omega)
      · rw [if_neg hc] at h
        rw [if_neg hc]
        exact ih d h hd

theorem balanced_posDepth :
    ∀ (v : List Char) (k c : Nat), balancedAt v k = true → 1 ≤ c →
      posDepth v (k + c) = true ∧ depthAfter v (k + c) = c := by
  intro v
  induction v with
  | nil =>
    intro k c h hc
    have hk : k = 0 := by simpa [balancedAt] using h
    subst hk
    exact ⟨rfl, Nat.zero_add c⟩
  | cons x r ih =>
    intro k c h hc
    rw [balancedAt] at h
    rw [posDepth, depthAfter]
    by_cases hb : x = '{'
    · rw [if_pos hb] at h
      rw [if_pos hb, if_pos hb]
      have := ih (k + 1) c h hc
      rw [show k + 1 + c = k + c + 1 from by omega] at this
      exact this
    · rw [if_neg hb] at h
      rw [if_neg hb, if_neg hb]
      by_cases hx : x = '}'
      · rw [if_pos hx] at h
        obtain ⟨h1, h2⟩ := Bool.and_eq_true_iff.mp h
        have hk1 : 1 ≤ k := of_decide_eq_true h1
        rw [if_pos hx, if_pos hx]
        have := ih (k - 1) c h2 hc
        rw [show k - 1 + c = k + c - 1 from by omega] at this
        refine ⟨?_, this.2⟩
        rw [Bool.and_eq_true]
        exact ⟨decide_eq_true (by omega), this.1⟩
      · rw [if_neg hx] at h
        rw [if_neg hx, if_neg hx]
        exact ih k c h hc

theorem posDepth_noBrace :
    ∀ (l : List Char) (d : Nat), (∀ c ∈ l, c ≠ '{' ∧ c ≠ '}') →
      posDepth l d = true ∧ depthAfter l d = d := by
  intro l
  induction l with
  | nil => intro d _; exact ⟨rfl, rfl⟩
  | cons c r ih =>
    intro d h
    obtain ⟨h1, h2⟩ := h c (List.mem_cons_self _ _)
    rw [posDepth, depthAfter, if_neg h1, if_neg h1, if_neg h2, if_neg h2]
    exact ih d fun x hx => h x (List.mem_cons_of_mem _ hx)

theorem dropWhileAllAppend {p : Char → Bool} :
    ∀ {l : List Char}, l.all p = true → ∀ t : List Char, (l ++ t).dropWhile p = t.dropWhile p := by
  intro l
  induction l with
  | nil => intro _ t; rfl
  | cons c r ih =>
    intro h t
    obtain ⟨h1, h2⟩ := Bool.and_eq_true_iff.mp (by rw [List.all_cons] at h; exact h)
    rw [List.cons_append, List.dropWhile_cons_of_pos h1]
    exact ih h2 t

theorem takeWhileAllAppend {p : Char → Bool} :
    ∀ {l : List Char}, l.all p = true → ∀ {c : Char} (t : List Char), p c = false →
      ((l ++ c :: t).takeWhile p) = l := by
  intro l
  induction l with
  | nil =>
    intro _ c t hc
    rw [List.nil_append, List.takeWhile_cons_of_neg (by simp [hc])]
  | cons a r ih =>
    intro h c t hc
    obtain ⟨h1, h2⟩ := Bool.and_eq_true_iff.mp (by rw [List.all_cons] at h; exact h)
    rw [List.cons_append, List.takeWhile_cons_of_pos h1, ih h2 t hc]

theorem findFieldMatch_cons_skip {c : Char} (hc : isWordChar c = false) (t : List Char) :
    findFieldMatch (c :: t) = findFieldMatch t := by
  rw [findFieldMatch, if_neg (by simp [hc])]

/-- The scanner's leftmost match at a well-formed rendered field line:
the word-run name, one space, `=`, one space, then the braced value. -/
theorem findFieldMatch_line (n : List Char) (hn : n ≠ []) (hw : n.all isWordChar = true)
    (u : List Char) :
    findFieldMatch (n ++ ' ' :: '=' :: ' ' :: '{' :: u) = some (n, '{' :: u) := by
  obtain ⟨c, n', rfl⟩ : ∃ c n', n = c :: n' := by
    cases n with
    | nil => exact absurd rfl hn
    | cons c n' => exact ⟨c, n', rfl⟩
  obtain ⟨hcw, hn'w⟩ := Bool.and_eq_true_iff.mp (by rw [List.all_cons] at hw; exact hw)
  rw [List.cons_append, findFieldMatch, if_pos hcw]
  have h1 : (n' ++ ' ' :: '=' :: ' ' :: '{' :: u).dropWhile isWordChar =
      ' ' :: '=' :: ' ' :: '{' :: u := by
    rw [dropWhileAllAppend hn'w, List.dropWhile_cons_of_neg (by decide)]
  rw [h1, List.dropWhile_cons_of_pos (by decide), List.dropWhile_cons_of_neg (by decide)]
  split
  · next r3 heq =>
    obtain ⟨-, hr3⟩ := List.cons.injEq _ _ _ _ ▸ heq
    subst hr3
    rw [takeWhileAllAppend hn'w _ (by decide), List.dropWhile_cons_of_pos (by decide),
      List.dropWhile_cons_of_neg (by decide)]
  · next hne => exact absurd rfl (hne (' ' :: '{' :: u))

/-- Skipping a word run whose `=`-check fails, then its (non-word,
non-space, non-`=`) terminator. -/
theorem findFieldMatch_skip_run (c : Char) (t : List Char) (hc1 : isWordChar c = false)
    (hc2 : isSpaceChar c = false) (hc3 : c ≠ '=') :
    ∀ n : List Char, n.all isWordChar = true → findFieldMatch (n ++ c :: t) = findFieldMatch t := by
  intro n
  induction n with
  | nil =>
    intro _
    rw [List.nil_append]
    exact findFieldMatch_cons_skip hc1 t
  | cons a n' ih =>
    intro hw
    obtain ⟨haw, hn'w⟩ := Bool.and_eq_true_iff.mp (by rw [List.all_cons] at hw; exact hw)
    rw [List.cons_append, findFieldMatch, if_pos haw]
    have h1 : (n' ++ c :: t).dropWhile isWordChar = c :: t := by
      rw [dropWhileAllAppend hn'w, List.dropWhile_cons_of_neg (by simp [hc1])]
    rw [h1, List.dropWhile_cons_of_neg (by simp [hc2])]
    split
    · next r3 heq =>
      exact absurd (List.cons.injEq _ _ _ _ ▸ heq).1 hc3
    · exact ih hn'w

theorem parseLoop_congr_match {s1 s2 : List Char} (h : findFieldMatch s1 = findFieldMatch s2)
    (fs : FieldMap) : parseLoop s1 fs = parseLoop s2 fs := by
  rw [parseLoop_eq s1, parseLoop_eq s2, h]

theorem parseLoop_cons_skip {c : Char} (hc : isWordChar c = false) (s : List Char)
    (fs : FieldMap) : parseLoop (c :: s) fs = parseLoop s fs :=
  parseLoop_congr_match (findFieldMatch_cons_skip hc s) fs

theorem parseLoop_nil (fs : FieldMap) : parseLoop [] fs = fs := rfl

theorem noEqDropSpace :
    ∀ (j : List Char) (t : List Char), '=' ∉ j →
      ∀ r3, (j ++ ',' :: t).dropWhile isSpaceChar ≠ '=' :: r3 := by
  intro j
  induction j with
  | nil =>
    intro t _ r3
    rw [List.nil_append, List.dropWhile_cons_of_neg (by decide)]
    intro h
    exact absurd (List.cons.injEq _ _ _ _ ▸ h).1 (by decide)
  | cons c j' ih =>
    intro t h r3
    by_cases hs : isSpaceChar c = true
    · rw [List.cons_append, List.dropWhile_cons_of_pos hs]
      exact ih t (fun hm => h (List.mem_cons_of_mem _ hm)) r3
    · rw [List.cons_append, List.dropWhile_cons_of_neg (by simpa using hs)]
      intro hh
      have : c = '=' := (List.cons.injEq _ _ _ _ ▸ hh).1
      exact h (this ▸ List.mem_cons_self _ _)

theorem noEqCheck :
    ∀ (j : List Char) (t : List Char), '=' ∉ j →
      ∀ r3, ((j ++ ',' :: t).dropWhile isWordChar).dropWhile isSpaceChar ≠ '=' :: r3 := by
  intro j
  induction j with
  | nil =>
    intro t _ r3
    rw [List.nil_append, List.dropWhile_cons_of_neg (by decide)]
    exact noEqDropSpace [] t (by simp) r3
  | cons c j' ih =>
    intro t h r3
    by_cases hw : isWordChar c = true
    · rw [List.cons_append, List.dropWhile_cons_of_pos hw]
      exact ih t (fun hm => h (List.mem_cons_of_mem _ hm)) r3
    · rw [List.cons_append, List.dropWhile_cons_of_neg (by simpa using hw)]
      by_cases hs : isSpaceChar c = true
      · rw [List.dropWhile_cons_of_pos hs]
        exact noEqDropSpace j' t (fun hm => h (List.mem_cons_of_mem _ hm)) r3
      · rw [List.dropWhile_cons_of_neg (by simpa using hs)]
        intro hh
        have : c = '=' := (List.cons.injEq _ _ _ _ ▸ hh).1
        exact h (this ▸ List.mem_cons_self _ _)

/-- The scan finds no `name = ` occurrence inside an `=`-free region
terminated by a comma. -/
theorem findFieldMatch_skip_noEq :
    ∀ (j : List Char) (t : List Char), '=' ∉ j →
      findFieldMatch (j ++ ',' :: t) = findFieldMatch t := by
  intro j
  induction j with
  | nil =>
    intro t _
    rw [List.nil_append]
    exact findFieldMatch_cons_skip (by decide) t
  | cons c j' ih =>
    intro t h
    by_cases hw : isWordChar c = true
    · rw [List.cons_append, findFieldMatch, if_pos hw]
      split
      · next r3 heq => exact absurd heq (noEqCheck j' t (fun hm => h (List.mem_cons_of_mem _ hm)) r3)
      · exact ih t fun hm => h (List.mem_cons_of_mem _ hm)
    · rw [List.cons_append, findFieldMatch_cons_skip (by simpa using hw)]
      exact ih t fun hm => h (List.mem_cons_of_mem _ hm)

theorem extractBraced_balanced {v : List Char} (h : isBalanced v = true) (tail : List Char) :
    extractBraced ('{' :: (v ++ '}' :: tail)) = some (v, tail) := by
  rw [extractBraced, if_pos rfl]
  exact extractBalanced v 0 tail h

/-- A well-formed parsed field name: nonempty, word characters only,
already lowercase (as `parse_fields` produces). -/
def wfName (n : List Char) : Prop :=
  n ≠ [] ∧ n.all isWordChar = true ∧ n.map Char.toLower = n

/-- A well-formed rendered pair: well-formed name and brace-balanced
value. -/
def wfPair (p : List Char × List Char) : Prop :=
  wfName p.1 ∧ isBalanced p.2 = true

/-- The raw text of a sequence of `name = {value},` field lines, each
followed by the separator `,\n  `, ending in `t`. -/
def rawFrom : List (List Char × List Char) → List Char → List Char
  | [], t => t
  | (n, v) :: rest, t =>
    n ++ ' ' :: '=' :: ' ' :: '{' :: (v ++ '}' :: ',' :: '\n' :: ' ' :: ' ' :: rawFrom rest t)

/-- The body of a rendered entry after its opening line: the field lines
separated by `,\n`, the last one comma-less, then the closing brace. -/
def bodyFrom : List Char × List Char → List (List Char × List Char) → List Char
  | (n, v), [] => ' ' :: ' ' :: (n ++ ' ' :: '=' :: ' ' :: '{' :: (v ++ '}' :: '\n' :: ['}']))
  | (n, v), q :: rest =>
    ' ' :: ' ' :: (n ++ ' ' :: '=' :: ' ' :: '{' :: (v ++ '}' :: ',' :: '\n' :: bodyFrom q rest))

/-- One insertion step of the parse loop. -/
def insStep (m : FieldMap) (p : List Char × List Char) : FieldMap :=
  insertIfAbsent m p.1 p.2

theorem parseLoop_rawFrom :
    ∀ (pairs : List (List Char × List Char)), (∀ p ∈ pairs, wfPair p) →
      ∀ (t : List Char) (fs : FieldMap),
        parseLoop (rawFrom pairs t) fs = parseLoop t (pairs.foldl insStep fs) := by
  intro pairs
  induction pairs with
  | nil => intro _ t fs; rfl
  | cons p rest ih =>
    obtain ⟨n, v⟩ := p
    intro hwf t fs
    obtain ⟨⟨hn1, hn2, hn3⟩, hbal⟩ := hwf (n, v) (List.mem_cons_self _ _)
    rw [show rawFrom ((n, v) :: rest) t =
      n ++ ' ' :: '=' :: ' ' :: '{' ::
        (v ++ '}' :: ',' :: '\n' :: ' ' :: ' ' :: rawFrom rest t) from rfl]
    rw [parseLoop_eq, findFieldMatch_line n hn1 hn2 _]
    dsimp only
    rw [if_pos rfl, extractBraced_balanced hbal _]
    dsimp only
    rw [hn3, parseLoop_cons_skip (by decide), parseLoop_cons_skip (by decide),
      parseLoop_cons_skip (by decide), parseLoop_cons_skip (by decide)]
    rw [ih (fun q hq => hwf q (List.mem_cons_of_mem _ hq)) t (insertIfAbsent fs n v)]
    rw [List.foldl_cons]
    rfl

theorem parseLoop_bodyFrom :
    ∀ (rest : List (List Char × List Char)) (p : List Char × List Char),
      (∀ q ∈ p :: rest, wfPair q) → ∀ fs : FieldMap,
        parseLoop (bodyFrom p rest) fs = (p :: rest).foldl insStep fs := by
  intro rest
  induction rest with
  | nil =>
    intro p hwf fs
    obtain ⟨n, v⟩ := p
    obtain ⟨⟨hn1, hn2, hn3⟩, hbal⟩ := hwf (n, v) (List.mem_cons_self _ _)
    rw [show bodyFrom (n, v) [] =
      ' ' :: ' ' :: (n ++ ' ' :: '=' :: ' ' :: '{' :: (v ++ '}' :: '\n' :: ['}'])) from rfl]
    rw [parseLoop_cons_skip (by decide), parseLoop_cons_skip (by decide)]
    rw [parseLoop_eq, findFieldMatch_line n hn1 hn2 _]
    dsimp only
    rw [if_pos rfl, extractBraced_balanced hbal _]
    dsimp only
    rw [hn3, parseLoop_cons_skip (by decide), parseLoop_cons_skip (by decide), parseLoop_nil]
    rfl
  | cons q rest' ih =>
    intro p hwf fs
    obtain ⟨n, v⟩ := p
    obtain ⟨⟨hn1, hn2, hn3⟩, hbal⟩ := hwf (n, v) (List.mem_cons_self _ _)
    rw [show bodyFrom (n, v) (q :: rest') =
      ' ' :: ' ' :: (n ++ ' ' :: '=' :: ' ' :: '{' ::
        (v ++ '}' :: ',' :: '\n' :: bodyFrom q rest')) from rfl]
    rw [parseLoop_cons_skip (by decide), parseLoop_cons_skip (by decide)]
    rw [parseLoop_eq, findFieldMatch_line n hn1 hn2 _]
    dsimp only
    rw [if_pos rfl, extractBraced_balanced hbal _]
    dsimp only
    rw [hn3, parseLoop_cons_skip (by decide), parseLoop_cons_skip (by decide)]
    rw [ih q (fun x hx => hwf x (List.mem_cons_of_mem _ hx)) (insertIfAbsent fs n v)]
    rw [List.foldl_cons, List.foldl_cons]
    rfl

theorem word_of_toLower_word {c : Char} (h : isWordChar c.toLower = true) :
    isWordChar c = true := by
  rw [isWordChar_iff] at h ⊢
  rw [toLower_toNat] at h
  split_ifs at h <;> omega

theorem word_not_space {c : Char} (h : isWordChar c = true) : isSpaceChar c = false := by
  cases hs : isSpaceChar c with
  | false => rfl
  | true =>
    rw [isWordChar_iff] at h
    rw [isSpaceChar_iff] at hs
    omega

theorem word_ne_eq {c : Char} (h : isWordChar c = true) : c ≠ '=' := by
  intro he
  subst he
  exact absurd h (by decide)

theorem stripCI_eq_some_iff :
    ∀ (p s r : List Char),
      stripCI p s = some r ↔
        p.length ≤ s.length ∧ (s.take p.length).map Char.toLower = p ∧ r = s.drop p.length := by
  intro p
  induction p with
  | nil =>
    intro s r
    simp [stripCI, eq_comm]
  | cons q p' ih =>
    intro s r
    cases s with
    | nil =>
      constructor
      · intro h
        exact absurd h (by simp [stripCI])
      · intro h
        exact absurd h.1 (by simp)
    | cons c s' =>
      rw [stripCI]
      by_cases hc : c.toLower = q
      · rw [if_pos hc, ih s' r]
        simp only [List.length_cons, List.take_succ_cons, List.drop_succ_cons,
          List.map_cons, hc, Nat.succ_le_succ_iff, List.cons.injEq, true_and]
      · rw [if_neg hc]
        constructor
        · intro h
          exact absurd h (by simp)
        · rintro ⟨-, h2, -⟩
          rw [List.length_cons, List.take_succ_cons, List.map_cons] at h2
          exact absurd (List.cons.injEq _ _ _ _ ▸ h2).1 hc

theorem findAuthorStart_cons_skip {c : Char} (hc : isWordChar c = false) (t : List Char) :
    findAuthorStart (c :: t) = findAuthorStart t := by
  rw [findAuthorStart]
  have hne : ¬ c.toLower = 'a' := by
    intro hl
    have h1 : isWordChar c.toLower = true := by rw [hl]; decide
    have h2 := word_of_toLower_word h1
    rw [h2] at hc
    exact Bool.noConfusion hc
  rw [show stripCI ['a', 'u', 't', 'h', 'o', 'r'] (c :: t) = none from by
    rw [stripCI, if_neg hne]]

/-- A successful case-insensitive `author` match cannot cross a non-word
character: it lies within the segment before it, which must hold at least
six characters. -/
theorem stripCI_author_run {S : List Char} {c : Char} (hc : isWordChar c = false)
    {t r : List Char}
    (h : stripCI ['a', 'u', 't', 'h', 'o', 'r'] (S ++ c :: t) = some r) :
    6 ≤ S.length ∧ r = S.drop 6 ++ c :: t ∧
      (S.take 6).map Char.toLower = ['a', 'u', 't', 'h', 'o', 'r'] := by
  rw [stripCI_eq_some_iff] at h
  obtain ⟨hlen, htake, hr⟩ := h
  rw [show (['a', 'u', 't', 'h', 'o', 'r'] : List Char).length = 6 from rfl] at hlen htake hr
  by_cases h6 : 6 ≤ S.length
  · refine ⟨h6, ?_, ?_⟩
    · rw [hr, List.drop_append_of_le_length h6]
    · rw [List.take_append_of_le_length h6] at htake
      exact htake
  · exfalso
    rw [List.take_append_eq_append_take] at htake
    have h1 : S.take 6 = S := List.take_of_length_le (by omega)
    obtain ⟨m, hm⟩ : ∃ m, 6 - S.length = m + 1 := ⟨6 - S.length - 1, by omega⟩
    rw [h1, hm, List.take_succ_cons] at htake
    have hcmem : c.toLower ∈ (['a', 'u', 't', 'h', 'o', 'r'] : List Char) := by
      rw [← htake, List.map_append, List.map_cons]
      exact List.mem_append_right _ (List.mem_cons_self _ _)
    have hall : ∀ x ∈ (['a', 'u', 't', 'h', 'o', 'r'] : List Char), isWordChar x = true := by
      decide
    exact absurd (word_of_toLower_word (hall _ hcmem)) (by simp [hc])

/-- The converse: six matching characters at the front yield the match,
whatever follows them. -/
theorem stripCI_author_build {S : List Char} (h6 : 6 ≤ S.length)
    (htake : (S.take 6).map Char.toLower = ['a', 'u', 't', 'h', 'o', 'r'])
    (X : List Char) :
    stripCI ['a', 'u', 't', 'h', 'o', 'r'] (S ++ X) = some (S.drop 6 ++ X) := by
  rw [stripCI_eq_some_iff]
  rw [show (['a', 'u', 't', 'h', 'o', 'r'] : List Char).length = 6 from rfl]
  refine ⟨?_, ?_, ?_⟩
  · rw [List.length_append]
    omega
  · rw [List.take_append_of_le_length h6]
    exact htake
  · rw [List.drop_append_of_le_length h6]

/-- Skipping a lowercase word run that is not author-suffixed, followed
by the rendered ` = ` separator. -/
theorem findAuthorStart_skip_name (s : List Char) :
    ∀ n : List Char, n.all isWordChar = true → n.map Char.toLower = n →
      ¬(['a', 'u', 't', 'h', 'o', 'r'] <:+ n) →
      findAuthorStart (n ++ ' ' :: '=' :: ' ' :: s) = findAuthorStart s := by
  intro n
  induction n with
  | nil =>
    intro _ _ _
    rw [List.nil_append, findAuthorStart_cons_skip (by decide),
      findAuthorStart_cons_skip (by decide), findAuthorStart_cons_skip (by decide)]
  | cons a n' ih =>
    intro hw hlow hsuf
    have hn'w : n'.all isWordChar = true := by
      rw [List.all_cons] at hw
      exact (Bool.and_eq_true_iff.mp hw).2
    have hn'low : n'.map Char.toLower = n' := by
      have := congrArg List.tail hlow
      simpa using this
    have hn'suf : ¬(['a', 'u', 't', 'h', 'o', 'r'] <:+ n') := fun hh =>
      hsuf (hh.trans (List.suffix_cons a n'))
    rw [List.cons_append, findAuthorStart]
    cases hs : stripCI ['a', 'u', 't', 'h', 'o', 'r'] (a :: (n' ++ ' ' :: '=' :: ' ' :: s)) with
    | none => exact ih hn'w hn'low hn'suf
    | some r1 =>
      have hs' : stripCI ['a', 'u', 't', 'h', 'o', 'r']
          ((a :: n') ++ ' ' :: '=' :: ' ' :: s) = some r1 := hs
      obtain ⟨h6, hr1, htake⟩ := stripCI_author_run (by decide) hs'
      dsimp only
      cases hd : (a :: n').drop 6 with
      | nil =>
        exfalso
        have hlen6 : (a :: n').length ≤ 6 := by
          have := List.drop_eq_nil_iff_le.mp hd
          omega
        have htk : (a :: n').take 6 = a :: n' := List.take_of_length_le hlen6
        rw [htk, hlow] at htake
        exact hsuf (by rw [htake])
      | cons b bs =>
        have hbw : isWordChar b = true := by
          have hbm : b ∈ a :: n' := List.mem_of_mem_drop (hd ▸ List.mem_cons_self b bs)
          rw [List.all_eq_true] at hw
          exact hw b hbm
        have hck : ∀ r3, r1.dropWhile isSpaceChar ≠ '=' :: r3 := by
          intro r3
          rw [hr1, hd, List.cons_append,
            List.dropWhile_cons_of_neg (by simp [word_not_space hbw])]
          intro hh
          exact word_ne_eq hbw (List.cons.injEq _ _ _ _ ▸ hh).1
        split
        · next r3 heq => exact absurd heq (hck r3)
        · exact ih hn'w hn'low hn'suf

/-- The space-skip after a failed match sees the same head whether the
value region is followed by `b` alone or by `b` and more text. -/
theorem dropWhileSpaceAlign (b : Char) (hb2 : isSpaceChar b = false) (w : List Char) :
    ∀ D : List Char,
      ((D ++ [b]).dropWhile isSpaceChar = [b] ∧
        (D ++ b :: w).dropWhile isSpaceChar = b :: w) ∨
      (∃ y Y, isSpaceChar y = false ∧
        (D ++ [b]).dropWhile isSpaceChar = y :: (Y ++ [b]) ∧
        (D ++ b :: w).dropWhile isSpaceChar = y :: (Y ++ b :: w)) := by
  intro D
  induction D with
  | nil =>
    left
    rw [List.nil_append, List.nil_append, List.dropWhile_cons_of_neg (by simp [hb2]),
      List.dropWhile_cons_of_neg (by simp [hb2])]
    exact ⟨rfl, rfl⟩
  | cons d D' ih =>
    by_cases hd : isSpaceChar d = true
    · rw [List.cons_append, List.cons_append, List.dropWhile_cons_of_pos hd,
        List.dropWhile_cons_of_pos hd] at *
      exact ih
    · right
      refine ⟨d, D', by simpa using hd, ?_, ?_⟩
      · rw [List.cons_append, List.dropWhile_cons_of_neg (by simpa using hd)]
      · rw [List.cons_append, List.dropWhile_cons_of_neg (by simpa using hd)]

/-- Skipping an arbitrary value region: if no `author =` match arises in
the value closed by `b`, none arises with continuation `w` either, and
the scan resumes after `b`. -/
theorem findAuthorStart_skip_val (b : Char) (hb1 : isWordChar b = false)
    (hb2 : isSpaceChar b = false) (hb3 : b ≠ '=') (w : List Char) :
    ∀ v : List Char, findAuthorStart (v ++ [b]) = none →
      findAuthorStart (v ++ b :: w) = findAuthorStart w := by
  intro v
  induction v with
  | nil =>
    intro _
    rw [List.nil_append]
    exact findAuthorStart_cons_skip hb1 w
  | cons c v' ih =>
    intro hnone
    rw [List.cons_append, findAuthorStart] at hnone ⊢
    cases hs : stripCI ['a', 'u', 't', 'h', 'o', 'r'] (c :: (v' ++ b :: w)) with
    | none =>
      cases hs0 : stripCI ['a', 'u', 't', 'h', 'o', 'r'] (c :: (v' ++ [b])) with
      | none =>
        rw [hs0] at hnone
        exact ih hnone
      | some r0 =>
        exfalso
        have hs0' : stripCI ['a', 'u', 't', 'h', 'o', 'r'] ((c :: v') ++ [b]) = some r0 := hs0
        obtain ⟨h6, -, htake⟩ := stripCI_author_run hb1 (t := []) hs0'
        have := stripCI_author_build h6 htake (b :: w)
        rw [show (c :: v') ++ b :: w = c :: (v' ++ b :: w) from rfl, hs] at this
        exact Option.noConfusion this
    | some r1 =>
      have hs' : stripCI ['a', 'u', 't', 'h', 'o', 'r'] ((c :: v') ++ b :: w) = some r1 := hs
      obtain ⟨h6, hr1, htake⟩ := stripCI_author_run hb1 hs'
      have hs0 : stripCI ['a', 'u', 't', 'h', 'o', 'r'] (c :: (v' ++ [b])) =
          some ((c :: v').drop 6 ++ [b]) := by
        have := stripCI_author_build h6 htake [b]
        rw [show (c :: v') ++ [b] = c :: (v' ++ [b]) from rfl] at this
        exact this
      rw [hs0] at hnone
      dsimp only at hnone
      subst hr1
      dsimp only
      rcases dropWhileSpaceAlign b hb2 w ((c :: v').drop 6) with ⟨e1, e2⟩ | ⟨y, Y, hy, e1, e2⟩
      · rw [e1] at hnone
        rw [e2]
        split at hnone
        · next r3 heq =>
          exact absurd (List.cons.injEq _ _ _ _ ▸ heq).1 hb3
        · split
          · next r3 heq =>
            exact absurd (List.cons.injEq _ _ _ _ ▸ heq).1 hb3
          · exact ih hnone
      · rw [e1] at hnone
        rw [e2]
        split at hnone
        · next r3 heq => exact absurd hnone (by simp)
        · next hne0 =>
          have hyne : y ≠ '=' := by
            intro hy'
            exact hne0 (Y ++ [b]) (by rw [hy'])
          split
          · next r3 heq =>
            exact absurd (List.cons.injEq _ _ _ _ ▸ heq).1 hyne
          · exact ih hnone

/-- The genuine match at a rendered `author = {` position. -/
theorem findAuthorStart_at (u : List Char) :
    findAuthorStart
        ('a' :: 'u' :: 't' :: 'h' :: 'o' :: 'r' :: ' ' :: '=' :: ' ' :: '{' :: u) =
      some ('{' :: u) := by
  rw [findAuthorStart]
  rw [show stripCI ['a', 'u', 't', 'h', 'o', 'r']
      ('a' :: 'u' :: 't' :: 'h' :: 'o' :: 'r' :: ' ' :: '=' :: ' ' :: '{' :: u) =
      some (' ' :: '=' :: ' ' :: '{' :: u) from by
    rw [stripCI, if_pos (by decide), stripCI, if_pos (by decide), stripCI, if_pos (by decide),
      stripCI, if_pos (by decide), stripCI, if_pos (by decide), stripCI, if_pos (by decide),
      stripCI]]
  dsimp only
  rw [show (' ' :: '=' :: ' ' :: '{' :: u).dropWhile isSpaceChar = '=' :: ' ' :: '{' :: u from by
    rw [List.dropWhile_cons_of_pos (by decide), List.dropWhile_cons_of_neg (by decide)]]
  split
  · next r3 heq =>
    obtain ⟨-, hr3⟩ := List.cons.injEq _ _ _ _ ▸ heq
    subst hr3
    rw [List.dropWhile_cons_of_pos (by decide), List.dropWhile_cons_of_neg (by decide)]
  · next hne => exact absurd rfl (hne (' ' :: '{' :: u))

/-- What follows a field line's closing brace: a comma and the next line,
or the final newline and closing brace. -/
def bodySep : List (List Char × List Char) → List Char
  | [] => '\n' :: ['}']
  | q :: rest => ',' :: '\n' :: bodyFrom q rest

theorem bodyFrom_eq (n v : List Char) (rest : List (List Char × List Char)) :
    bodyFrom (n, v) rest =
      ' ' :: ' ' :: (n ++ ' ' :: '=' :: ' ' :: '{' :: (v ++ '}' :: bodySep rest)) := by
  cases rest <;> rfl

/-- The well-formedness needed of a rendered pair for the author pre-pass
to ignore it. -/
def noAuthPair (p : List Char × List Char) : Prop :=
  ¬(['a', 'u', 't', 'h', 'o', 'r'] <:+ p.1) ∧ findAuthorStart (p.2 ++ ['}']) = none

theorem findAuthorStart_rawFrom :
    ∀ pairs : List (List Char × List Char),
      (∀ p ∈ pairs, wfPair p ∧ noAuthPair p) →
      ∀ t : List Char, findAuthorStart t = none → findAuthorStart (rawFrom pairs t) = none := by
  intro pairs
  induction pairs with
  | nil => intro _ t h; exact h
  | cons p rest ih =>
    obtain ⟨n, v⟩ := p
    intro hwf t ht
    obtain ⟨⟨⟨hn1, hn2, hn3⟩, hbal⟩, hsuf, hva⟩ := hwf (n, v) (List.mem_cons_self _ _)
    rw [show rawFrom ((n, v) :: rest) t =
      n ++ ' ' :: '=' :: ' ' :: '{' ::
        (v ++ '}' :: ',' :: '\n' :: ' ' :: ' ' :: rawFrom rest t) from rfl]
    rw [findAuthorStart_skip_name _ n hn2 hn3 hsuf,
      findAuthorStart_cons_skip (by decide),
      findAuthorStart_skip_val '}' (by decide) (by decide) (by decide) _ v hva,
      findAuthorStart_cons_skip (by decide), findAuthorStart_cons_skip (by decide),
      findAuthorStart_cons_skip (by decide), findAuthorStart_cons_skip (by decide)]
    exact ih (fun q hq => hwf q (List.mem_cons_of_mem _ hq)) t ht

theorem findAuthorStart_bodyFrom :
    ∀ (rest : List (List Char × List Char)) (p : List Char × List Char),
      (∀ q ∈ p :: rest, wfPair q ∧ noAuthPair q) →
      findAuthorStart (bodyFrom p rest) = none := by
  intro rest
  induction rest with
  | nil =>
    intro p hwf
    obtain ⟨n, v⟩ := p
    obtain ⟨⟨⟨hn1, hn2, hn3⟩, hbal⟩, hsuf, hva⟩ := hwf (n, v) (List.mem_cons_self _ _)
    rw [bodyFrom_eq, findAuthorStart_cons_skip (by decide),
      findAuthorStart_cons_skip (by decide),
      findAuthorStart_skip_name _ n hn2 hn3 hsuf,
      findAuthorStart_cons_skip (by decide)]
    rw [show bodySep ([] : List (List Char × List Char)) = '\n' :: ['}'] from rfl]
    rw [findAuthorStart_skip_val '}' (by decide) (by decide) (by decide) _ v hva,
      findAuthorStart_cons_skip (by decide), findAuthorStart_cons_skip (by decide)]
    rfl
  | cons q rest' ih =>
    intro p hwf
    obtain ⟨n, v⟩ := p
    obtain ⟨⟨⟨hn1, hn2, hn3⟩, hbal⟩, hsuf, hva⟩ := hwf (n, v) (List.mem_cons_self _ _)
    rw [bodyFrom_eq, findAuthorStart_cons_skip (by decide),
      findAuthorStart_cons_skip (by decide),
      findAuthorStart_skip_name _ n hn2 hn3 hsuf,
      findAuthorStart_cons_skip (by decide)]
    rw [show bodySep (q :: rest') = ',' :: '\n' :: bodyFrom q rest' from rfl]
    rw [findAuthorStart_skip_val '}' (by decide) (by decide) (by decide) _ v hva,
      findAuthorStart_cons_skip (by decide), findAuthorStart_cons_skip (by decide)]
    exact ih q fun x hx => hwf x (List.mem_cons_of_mem _ hx)

theorem findAuthorStart_bodyFrom_author (v : List Char)
    (rest : List (List Char × List Char)) :
    findAuthorStart (bodyFrom ("author".data, v) rest) =
      some ('{' :: (v ++ '}' :: bodySep rest)) := by
  rw [bodyFrom_eq, findAuthorStart_cons_skip (by decide), findAuthorStart_cons_skip (by decide)]
  rw [show "author".data ++ ' ' :: '=' :: ' ' :: '{' :: (v ++ '}' :: bodySep rest) =
    'a' :: 'u' :: 't' :: 'h' :: 'o' :: 'r' ::
      ' ' :: '=' :: ' ' :: '{' :: (v ++ '}' :: bodySep rest) from rfl]
  exact findAuthorStart_at _

/-- Skipping a word run that is followed by a non-word, non-space,
non-`=` terminator: no `author =` match can arise there. -/
theorem findAuthorStart_skip_run (c : Char) (t : List Char) (hc1 : isWordChar c = false)
    (hc2 : isSpaceChar c = false) (hc3 : c ≠ '=') :
    ∀ n : List Char, n.all isWordChar = true →
      findAuthorStart (n ++ c :: t) = findAuthorStart t := by
  intro n
  induction n with
  | nil =>
    intro _
    rw [List.nil_append]
    exact findAuthorStart_cons_skip hc1 t
  | cons a n' ih =>
    intro hw
    have hn'w : n'.all isWordChar = true := by
      rw [List.all_cons] at hw
      exact (Bool.and_eq_true_iff.mp hw).2
    rw [List.cons_append, findAuthorStart]
    cases hs : stripCI ['a', 'u', 't', 'h', 'o', 'r'] (a :: (n' ++ c :: t)) with
    | none => exact ih hn'w
    | some r1 =>
      have hs' : stripCI ['a', 'u', 't', 'h', 'o', 'r'] ((a :: n') ++ c :: t) = some r1 := hs
      obtain ⟨h6, hr1, -⟩ := stripCI_author_run hc1 hs'
      dsimp only
      have hck : ∀ r3, r1.dropWhile isSpaceChar ≠ '=' :: r3 := by
        intro r3
        rw [hr1]
        cases hd : (a :: n').drop 6 with
        | nil =>
          rw [List.nil_append, List.dropWhile_cons_of_neg (by simp [hc2])]
          intro hh
          exact hc3 (List.cons.injEq _ _ _ _ ▸ hh).1
        | cons b bs =>
          have hbw : isWordChar b = true := by
            have hbm : b ∈ a :: n' := List.mem_of_mem_drop (hd ▸ List.mem_cons_self b bs)
            rw [List.all_eq_true] at hw
            exact hw b hbm
          rw [List.cons_append, List.dropWhile_cons_of_neg (by simp [word_not_space hbw])]
          intro hh
          exact word_ne_eq hbw (List.cons.injEq _ _ _ _ ▸ hh).1
      split
      · next r3 heq => exact absurd heq (hck r3)
      · exact ih hn'w

/-- The opening line of a rendered entry plus the newline before the body. -/
def headLine (etype key : List Char) (body : List Char) : List Char :=
  '@' :: (etype ++ '{' :: (key ++ ',' :: '\n' :: body))

theorem findAuthorStart_headLine (etype key body : List Char)
    (he : etype.all isWordChar = true) (hk : key.all isWordChar = true) :
    findAuthorStart (headLine etype key body) = findAuthorStart body := by
  rw [headLine, findAuthorStart_cons_skip (by decide),
    findAuthorStart_skip_run '{' _ (by decide) (by decide) (by decide) etype he,
    findAuthorStart_skip_run ',' _ (by decide) (by decide) (by decide) key hk,
    findAuthorStart_cons_skip (by decide)]

theorem findFieldMatch_headLine (etype key body : List Char)
    (he : etype.all isWordChar = true) (hk : key.all isWordChar = true) :
    findFieldMatch (headLine etype key body) = findFieldMatch body := by
  rw [headLine, findFieldMatch_cons_skip (by decide),
    findFieldMatch_skip_run '{' _ (by decide) (by decide) (by decide) etype he,
    findFieldMatch_skip_run ',' _ (by decide) (by decide) (by decide) key hk,
    findFieldMatch_cons_skip (by decide)]

/-- A rendered field line as raw characters, value already cleaned. -/
def rawLine (p : List Char × List Char) : List Char :=
  ' ' :: ' ' :: (p.1 ++ ' ' :: '=' :: ' ' :: '{' :: (p.2 ++ ['}', ',']))

/-- The ordered name/cleaned-value pairs rendered by `format_entry`. -/
def orderedPairs (fields : FieldMap) : List (List Char × List Char) :=
  (fieldOrder.filterMap fun n => (fields.lookup n).map fun v => (n, cleanValue v)) ++
    ((fields.filter fun p =>
        !(fieldOrder.contains p.1) && !(skipFields.contains p.1)).map
      fun p => (p.1, cleanValue p.2))

theorem renderLine_eq (n v : List Char) : renderLine n v = rawLine (n, cleanValue v) := by
  rw [renderLine, rawLine]
  rw [show "  ".data = [' ', ' '] from rfl, show " = \x7b".data = [' ', '=', ' ', '{'] from rfl,
    show "\x7d,".data = ['}', ','] from rfl]
  simp [List.append_assoc]

theorem orderedLines_part1 (fields : FieldMap) :
    ∀ ns : List (List Char),
      (ns.filterMap fun n => (fields.lookup n).map fun v => renderLine n v) =
        (ns.filterMap fun n => (fields.lookup n).map fun v => (n, cleanValue v)).map rawLine := by
  intro ns
  induction ns with
  | nil => rfl
  | cons n ns ih =>
    rw [List.filterMap_cons, List.filterMap_cons]
    cases h : fields.lookup n with
    | none => exact ih
    | some v =>
      rw [Option.map_some', Option.map_some']
      dsimp only
      rw [List.map_cons, ih, renderLine_eq]

theorem orderedLines_eq (fields : FieldMap) :
    orderedLines fields = (orderedPairs fields).map rawLine := by
  rw [orderedLines, orderedPairs, List.map_append, orderedLines_part1 fields, List.map_map]
  congr 1
  apply List.map_congr_left
  intro p _
  exact renderLine_eq p.1 p.2

theorem adjustLast_cons_cons (a b : List Char) (t : List (List Char)) :
    adjustLast (a :: b :: t) = a :: adjustLast (b :: t) := rfl

theorem joinNl_cons_cons (a b : List Char) (t : List (List Char)) :
    joinNl (a :: b :: t) = a ++ '\n' :: joinNl (b :: t) := rfl

theorem rawLine_concat (p : List Char × List Char) :
    rawLine p = (' ' :: ' ' :: (p.1 ++ ' ' :: '=' :: ' ' :: '{' :: (p.2 ++ ['}']))) ++ [','] := by
  rw [rawLine]
  simp [List.append_assoc]

theorem stripLastComma_concat (l : List Char) : stripLastComma (l ++ [',']) = l := by
  rw [stripLastComma, if_pos (by rw [List.getLast?_concat])]
  exact List.dropLast_concat

theorem render_block :
    ∀ (ps : List (List Char × List Char)) (p : List Char × List Char) (l1 : List Char),
      joinNl (adjustLast (l1 :: (p :: ps).map rawLine) ++ [['}']]) =
        l1 ++ '\n' :: bodyFrom p ps := by
  intro ps
  induction ps with
  | nil =>
    intro p l1
    obtain ⟨n, v⟩ := p
    rw [List.map_cons, List.map_nil]
    rw [show adjustLast [l1, rawLine (n, v)] = [l1, stripLastComma (rawLine (n, v))] from rfl]
    rw [rawLine_concat, stripLastComma_concat]
    rw [show ([l1, ' ' :: ' ' :: (n ++ ' ' :: '=' :: ' ' :: '{' :: (v ++ ['}']))] ++ [['}']]) =
      [l1, ' ' :: ' ' :: (n ++ ' ' :: '=' :: ' ' :: '{' :: (v ++ ['}'])), ['}']] from rfl]
    rw [show joinNl [l1, ' ' :: ' ' :: (n ++ ' ' :: '=' :: ' ' :: '{' :: (v ++ ['}'])), ['}']] =
      l1 ++ '\n' :: ((' ' :: ' ' :: (n ++ ' ' :: '=' :: ' ' :: '{' :: (v ++ ['}']))) ++
        '\n' :: ['}']) from rfl]
    rw [show bodyFrom (n, v) [] =
      ' ' :: ' ' :: (n ++ ' ' :: '=' :: ' ' :: '{' :: (v ++ '}' :: '\n' :: ['}'])) from rfl]
    simp [List.append_assoc]
  | cons q ps' ih =>
    intro p l1
    have ih' := ih q (rawLine p)
    rw [List.map_cons, adjustLast_cons_cons, List.cons_append] at ih'
    rw [List.map_cons, List.map_cons, adjustLast_cons_cons, List.cons_append,
      adjustLast_cons_cons, List.cons_append, joinNl_cons_cons]
    rw [ih']
    obtain ⟨n, v⟩ := p
    rw [show bodyFrom (n, v) (q :: ps') =
      ' ' :: ' ' :: (n ++ ' ' :: '=' :: ' ' :: '{' ::
        (v ++ '}' :: ',' :: '\n' :: bodyFrom q ps')) from rfl]
    rw [rawLine]
    simp [List.append_assoc]

theorem renderEntry_eq (etype key : List Char) (fields : FieldMap)
    {p : List Char × List Char} {ps : List (List Char × List Char)}
    (hop : orderedPairs fields = p :: ps) :
    renderEntry etype key fields = headLine etype key (bodyFrom p ps) := by
  rw [renderEntry, orderedLines_eq, hop, show "\x7d".data = ['}'] from rfl, render_block,
    headLine]
  simp [List.append_assoc]

/-- First-of-two option choice (`orElse` without the thunk). -/
def optOr {α : Type} : Option α → Option α → Option α
  | some a, _ => some a
  | none, b => b

theorem fmLookup_cons (k' v' : List Char) (rest : FieldMap) (d : List Char) :
    ((k', v') :: rest).lookup d = if d = k' then some v' else rest.lookup d := by
  cases hbe : (d == k') with
  | true => simp [List.lookup, hbe, beq_iff_eq.mp hbe]
  | false => simp [List.lookup, hbe, beq_eq_false_iff_ne.mp hbe]

theorem fmLookup_mem {l : FieldMap} {k v : List Char} (h : l.lookup k = some v) :
    (k, v) ∈ l := by
  induction l with
  | nil => exact absurd h (by simp [List.lookup])
  | cons q rest ih =>
    obtain ⟨k', v'⟩ := q
    rw [fmLookup_cons] at h
    by_cases hk : k = k'
    · rw [if_pos hk] at h
      obtain rfl := Option.some.injEq _ _ ▸ h
      exact hk ▸ List.mem_cons_self _ _
    · rw [if_neg hk] at h
      exact List.mem_cons_of_mem _ (ih h)

theorem fmLookup_append (l1 l2 : FieldMap) (k : List Char) :
    (l1 ++ l2).lookup k = optOr (l1.lookup k) (l2.lookup k) := by
  induction l1 with
  | nil => rfl
  | cons q rest ih =>
    obtain ⟨k', v'⟩ := q
    rw [List.cons_append, fmLookup_cons, fmLookup_cons]
    by_cases hk : k = k'
    · rw [if_pos hk, if_pos hk]
      rfl
    · rw [if_neg hk, if_neg hk]
      exact ih

theorem foldl_insStep_lookup :
    ∀ (pairs : List (List Char × List Char)) (m : FieldMap) (k : List Char),
      (pairs.foldl insStep m).lookup k = optOr (m.lookup k) (pairs.lookup k) := by
  intro pairs
  induction pairs with
  | nil =>
    intro m k
    rw [List.foldl_nil]
    cases h : m.lookup k <;> rfl
  | cons p rest ih =>
    obtain ⟨n, v⟩ := p
    intro m k
    rw [List.foldl_cons, ih (insStep m (n, v)) k,
      show insStep m (n, v) = insertIfAbsent m n v from rfl, insertIfAbsent]
    by_cases hm : (m.lookup n).isSome
    · rw [if_pos hm, fmLookup_cons]
      by_cases hk : k = n
      · subst hk
        obtain ⟨v0, hv0⟩ := Option.isSome_iff_exists.mp hm
        rw [hv0, if_pos rfl]
        rfl
      · rw [if_neg hk]
    · rw [if_neg hm, fmLookup_append, fmLookup_cons, fmLookup_cons]
      by_cases hk : k = n
      · subst hk
        rw [if_pos rfl, if_pos rfl, Option.not_isSome_iff_eq_none.mp hm]
        rfl
      · rw [if_neg hk, if_neg hk]
        cases h : m.lookup k <;> rfl

theorem filterConsPosP (p : List Char × List Char → Bool) (a : List Char × List Char)
    (h : p a = true) (l : List (List Char × List Char)) :
    (a :: l).filter p = a :: l.filter p := by
  simp [List.filter_cons, h]

theorem filterConsNegP (p : List Char × List Char → Bool) (a : List Char × List Char)
    (h : p a = false) (l : List (List Char × List Char)) :
    (a :: l).filter p = l.filter p := by
  simp [List.filter_cons, h]

theorem part1_lookup (fields : FieldMap) (k : List Char) :
    ∀ ns : List (List Char),
      (ns.filterMap fun n => (fields.lookup n).map fun v => (n, cleanValue v)).lookup k =
        if ns.contains k then (fields.lookup k).map cleanValue else none := by
  intro ns
  induction ns with
  | nil => rfl
  | cons n ns ih =>
    rw [List.filterMap_cons]
    cases h : fields.lookup n with
    | none =>
      rw [Option.map_none']
      dsimp only
      rw [ih, List.contains_cons]
      by_cases hk : k = n
      · subst hk
        rw [h]
        simp
      · rw [show (k == n) = false from beq_eq_false_iff_ne.mpr hk]
        simp
    | some v =>
      rw [Option.map_some']
      dsimp only
      rw [fmLookup_cons]
      by_cases hk : k = n
      · subst hk
        rw [if_pos rfl, List.contains_cons, beq_self_eq_true, h]
        simp
      · rw [if_neg hk, ih, List.contains_cons,
          show (k == n) = false from beq_eq_false_iff_ne.mpr hk]
        simp

theorem part2_lookup (k : List Char) (hk1 : fieldOrder.contains k = false)
    (hk2 : skipFields.contains k = false) :
    ∀ fields : FieldMap,
      ((fields.filter fun p =>
          !(fieldOrder.contains p.1) && !(skipFields.contains p.1)).map
        fun p => (p.1, cleanValue p.2)).lookup k = (fields.lookup k).map cleanValue := by
  intro fields
  induction fields with
  | nil => rfl
  | cons q rest ih =>
    obtain ⟨n, v⟩ := q
    by_cases hc : (!(fieldOrder.contains n) && !(skipFields.contains n)) = true
    · rw [filterConsPosP _ _ hc _, List.map_cons]
      dsimp only
      rw [fmLookup_cons, fmLookup_cons]
      by_cases hk : k = n
      · subst hk
        rw [if_pos rfl, if_pos rfl]
        rfl
      · rw [if_neg hk, if_neg hk]
        exact ih
    · rw [filterConsNegP _ _ (by simpa using hc) _, fmLookup_cons]
      by_cases hk : k = n
      · subst hk
        exact absurd (show (!fieldOrder.contains k && !skipFields.contains k) = true by
          rw [hk1, hk2]; rfl) hc
      · rw [if_neg hk]
        exact ih

theorem part2_lookup_none_fo (k : List Char) (hk : fieldOrder.contains k = true) :
    ∀ fields : FieldMap,
      ((fields.filter fun p =>
          !(fieldOrder.contains p.1) && !(skipFields.contains p.1)).map
        fun p => (p.1, cleanValue p.2)).lookup k = none := by
  intro fields
  induction fields with
  | nil => rfl
  | cons q rest ih =>
    obtain ⟨n, v⟩ := q
    by_cases hc : (!(fieldOrder.contains n) && !(skipFields.contains n)) = true
    · rw [filterConsPosP _ _ hc _, List.map_cons]
      dsimp only
      rw [fmLookup_cons]
      obtain ⟨h1, -⟩ := Bool.and_eq_true_iff.mp hc
      have hkn : k ≠ n := by
        intro hh
        subst hh
        rw [hk] at h1
        exact Bool.noConfusion h1
      rw [if_neg hkn]
      exact ih
    · rw [filterConsNegP _ _ (by simpa using hc) _]
      exact ih

theorem part2_lookup_none_skip (k : List Char) (hk : skipFields.contains k = true) :
    ∀ fields : FieldMap,
      ((fields.filter fun p =>
          !(fieldOrder.contains p.1) && !(skipFields.contains p.1)).map
        fun p => (p.1, cleanValue p.2)).lookup k = none := by
  intro fields
  induction fields with
  | nil => rfl
  | cons q rest ih =>
    obtain ⟨n, v⟩ := q
    by_cases hc : (!(fieldOrder.contains n) && !(skipFields.contains n)) = true
    · rw [filterConsPosP _ _ hc _, List.map_cons]
      dsimp only
      rw [fmLookup_cons]
      obtain ⟨-, h2⟩ := Bool.and_eq_true_iff.mp hc
      have hkn : k ≠ n := by
        intro hh
        subst hh
        rw [hk] at h2
        exact Bool.noConfusion h2
      rw [if_neg hkn]
      exact ih
    · rw [filterConsNegP _ _ (by simpa using hc) _]
      exact ih

theorem orderedPairs_lookup (fields : FieldMap) (k : List Char) :
    (orderedPairs fields).lookup k =
      if skipFields.contains k then none else (fields.lookup k).map cleanValue := by
  rw [orderedPairs, fmLookup_append, part1_lookup]
  by_cases hs : skipFields.contains k = true
  · have hfo : fieldOrder.contains k = false := by
      have hmem : k ∈ skipFields := List.mem_of_elem_eq_true hs
      simp only [skipFields, List.map_cons, List.map_nil, List.mem_cons,
        List.not_mem_nil, or_false] at hmem
      rcases hmem with rfl | rfl | rfl <;> decide
    rw [hfo, if_pos hs, part2_lookup_none_skip k hs]
    rfl
  · have hs' : skipFields.contains k = false := by simpa using hs
    by_cases hfo : fieldOrder.contains k = true
    · rw [hfo, part2_lookup_none_fo k hfo, if_neg hs, if_pos rfl]
      cases h : (fields.lookup k).map cleanValue <;> rfl
    · have hfo' : fieldOrder.contains k = false := by simpa using hfo
      rw [hfo', part2_lookup k hfo' hs', if_neg hs, if_neg (by simp)]
      rfl

theorem orderedPairs_mem {fields : FieldMap} {p : List Char × List Char}
    (hp : p ∈ orderedPairs fields) :
    ∃ n v, p = (n, cleanValue v) ∧ (n, v) ∈ fields := by
  rw [orderedPairs] at hp
  rcases List.mem_append.mp hp with h | h
  · obtain ⟨n, -, hf⟩ := List.mem_filterMap.mp h
    obtain ⟨v, hv, hpv⟩ := Option.map_eq_some'.mp hf
    exact ⟨n, v, hpv.symm, fmLookup_mem hv⟩
  · obtain ⟨q, hq, hpq⟩ := List.mem_map.mp h
    obtain ⟨n, v⟩ := q
    exact ⟨n, v, hpq.symm, (List.mem_filter.mp hq).1⟩

/-- The tail of the preferred field order after `author`. -/
def fieldOrderRest : List (List Char) :=
  ["title", "journal", "booktitle", "volume", "number", "pages",
   "year", "month", "publisher", "doi", "url", "issn", "isbn", "editor"].map String.data

theorem orderedPairs_author {fields : FieldMap} {a : List Char}
    (h : fields.lookup "author".data = some a) :
    orderedPairs fields = ("author".data, cleanValue a) ::
      ((fieldOrderRest.filterMap fun n => (fields.lookup n).map fun v => (n, cleanValue v)) ++
        ((fields.filter fun p =>
            !(fieldOrder.contains p.1) && !(skipFields.contains p.1)).map
          fun p => (p.1, cleanValue p.2))) := by
  have hstep : (fieldOrder.filterMap fun n => (fields.lookup n).map fun v => (n, cleanValue v)) =
      ("author".data, cleanValue a) ::
        (fieldOrderRest.filterMap fun n => (fields.lookup n).map fun v => (n, cleanValue v)) := by
    rw [show fieldOrder = "author".data :: fieldOrderRest from rfl, List.filterMap_cons, h,
      Option.map_some']
  rw [orderedPairs, hstep, List.cons_append]

theorem orderedPairs_noauthor {fields : FieldMap}
    (h : fields.lookup "author".data = none) :
    orderedPairs fields =
      (fieldOrderRest.filterMap fun n => (fields.lookup n).map fun v => (n, cleanValue v)) ++
        ((fields.filter fun p =>
            !(fieldOrder.contains p.1) && !(skipFields.contains p.1)).map
          fun p => (p.1, cleanValue p.2)) := by
  have hstep : (fieldOrder.filterMap fun n => (fields.lookup n).map fun v => (n, cleanValue v)) =
      fieldOrderRest.filterMap fun n => (fields.lookup n).map fun v => (n, cleanValue v) := by
    rw [show fieldOrder = "author".data :: fieldOrderRest from rfl, List.filterMap_cons, h]
    rfl
  rw [orderedPairs, hstep]

theorem findFieldMatch_name_wf :
    ∀ {s w r : List Char}, findFieldMatch s = some (w, r) →
      w ≠ [] ∧ w.all isWordChar = true := by
  intro s
  induction s with
  | nil => intro w r h; exact absurd h (by simp [findFieldMatch])
  | cons c rest ih =>
    intro w r h
    rw [findFieldMatch] at h
    split at h
    · next hcw =>
      split at h
      · next r3 heq =>
        obtain ⟨hw, -⟩ : c :: rest.takeWhile isWordChar = w ∧ r3.dropWhile isSpaceChar = r := by
          simpa using h
        subst hw
        refine ⟨by simp, ?_⟩
        rw [List.all_cons, Bool.and_eq_true]
        refine ⟨hcw, ?_⟩
        rw [List.all_eq_true]
        intro x hx
        exact List.mem_takeWhile_imp hx
      · exact ih h
    · exact ih h

theorem insertIfAbsent_names_wf {fs : FieldMap} {w : List Char}
    (hw1 : w ≠ []) (hw2 : w.all isWordChar = true)
    (h : ∀ p ∈ fs, wfName p.1) (v : List Char) :
    ∀ p ∈ insertIfAbsent fs (w.map Char.toLower) v, wfName p.1 := by
  intro p hp
  rw [insertIfAbsent] at hp
  split at hp
  · exact h p hp
  · rcases List.mem_append.mp hp with h1 | h1
    · exact h p h1
    · obtain rfl : p = (w.map Char.toLower, v) := by simpa using h1
      refine ⟨by simpa using hw1, ?_, ?_⟩
      · rw [List.all_eq_true]
        intro x hx
        obtain ⟨y, hy, rfl⟩ := List.mem_map.mp hx
        exact isWordChar_toLower (List.all_eq_true.mp hw2 y hy)
      · rw [List.map_map]
        exact List.map_congr_left fun x _ => toLower_toLower x

theorem parseLoop_names_wf :
    ∀ (L : Nat) (s : List Char), s.length ≤ L → ∀ fs : FieldMap,
      (∀ p ∈ fs, wfName p.1) → ∀ p ∈ parseLoop s fs, wfName p.1 := by
  intro L
  induction L with
  | zero =>
    intro s hs fs hfs p hp
    have hnil : s = [] := List.eq_nil_of_length_eq_zero (by omega)
    subst hnil
    rw [parseLoop_nil] at hp
    exact hfs p hp
  | succ L ih =>
    intro s hs fs hfs p hp
    rw [parseLoop_eq] at hp
    cases hm : findFieldMatch s with
    | none =>
      rw [hm] at hp
      exact hfs p hp
    | some q =>
      obtain ⟨w, r⟩ := q
      rw [hm] at hp
      dsimp only at hp
      have hr := findFieldMatch_length hm
      obtain ⟨hw1, hw2⟩ := findFieldMatch_name_wf hm
      cases r with
      | nil => exact hfs p hp
      | cons c r2 =>
        dsimp only at hp
        simp only [List.length_cons] at hr
        by_cases hc : c = '{'
        · rw [if_pos hc] at hp
          cases hb : extractBraced (c :: r2) with
          | some q2 =>
            obtain ⟨v, rest2⟩ := q2
            rw [hb] at hp
            dsimp only at hp
            have hlen := extractBraced_length hb
            simp only [List.length_cons] at hlen
            exact ih rest2 (by omega) _ (insertIfAbsent_names_wf hw1 hw2 hfs v) p hp
          | none =>
            rw [hb] at hp
            dsimp only at hp
            exact ih (c :: r2) (by simp only [List.length_cons]; omega) fs hfs p hp
        · rw [if_neg hc] at hp
          by_cases hq : c = '"'
          · rw [if_pos hq] at hp
            cases hb : findQuote r2 with
            | some q2 =>
              obtain ⟨v, rest2⟩ := q2
              rw [hb] at hp
              dsimp only at hp
              have hlen := findQuote_length hb
              exact ih rest2 (by omega) _ (insertIfAbsent_names_wf hw1 hw2 hfs v) p hp
            | none =>
              rw [hb] at hp
              dsimp only at hp
              exact ih r2 (by omega) fs hfs p hp
          · rw [if_neg hq] at hp
            by_cases hd : c.isDigit
            · rw [if_pos hd] at hp
              have hlen := dropWhile_length_le Char.isDigit r2
              exact ih _ (by omega) _
                (insertIfAbsent_names_wf hw1 hw2 hfs (c :: r2.takeWhile Char.isDigit)) p hp
            · rw [if_neg hd] at hp
              exact ih r2 (by omega) fs hfs p hp

theorem parseFields_names_wf (s : List Char) : ∀ p ∈ parseFields s, wfName p.1 := by
  intro p hp
  rw [parseFields] at hp
  have hauth : wfName ['a', 'u', 't', 'h', 'o', 'r'] := ⟨by decide, by decide, by decide⟩
  cases hpa : parseAuthorField s with
  | none =>
    rw [hpa] at hp
    exact parseLoop_names_wf s.length s (Nat.le_refl _) _ (by simp) p hp
  | some a =>
    rw [hpa] at hp
    dsimp only at hp
    by_cases ha : a ≠ []
    · rw [if_pos ha] at hp
      refine parseLoop_names_wf s.length s (Nat.le_refl _) _ ?_ p hp
      intro q hq
      obtain rfl : q = (['a', 'u', 't', 'h', 'o', 'r'], a) := by simpa using hq
      exact hauth
    · rw [if_neg ha] at hp
      exact parseLoop_names_wf s.length s (Nat.le_refl _) _ (by simp) p hp

/-- C3 counterexample: the serializer rewrites `&amp;` to `&` inside
values, so re-tokenizing its output does not reproduce the original
mapping even for a non-deny-listed field. -/
theorem claim_C3_counterexample :
    (parseFields "title = \x7bA &amp; B\x7d".data).lookup "title".data ≠ none ∧
    skipFields.contains "title".data = false ∧
    (parseFields (renderEntry "article".data "k0".data
        (parseFields "title = \x7bA &amp; B\x7d".data))).lookup "title".data ≠
      (parseFields "title = \x7bA &amp; B\x7d".data).lookup "title".data := by
  refine ⟨by decide, by decide, by decide⟩

/-- C3 (amended): for any record whose parsed values are brace-balanced,
fixed by the HTML cleanup (`&amp;`/`scp` rewriting), and — when no author
field is present — free of `author =` artefacts, re-tokenizing the
serializer's rendered output reproduces exactly the parsed field mapping
minus the deny-listed fields, for every key. -/
theorem claim_C3_amended (fs etype key : List Char)
    (he : etype.all isWordChar = true) (hk : key.all isWordChar = true)
    (hcv : ∀ p ∈ parseFields fs, cleanValue p.2 = p.2)
    (hbal : ∀ p ∈ parseFields fs, isBalanced p.2 = true)
    (hnoa : (parseFields fs).lookup "author".data = none →
      ∀ p ∈ parseFields fs, findAuthorStart (p.2 ++ ['}']) = none ∧
        ¬(['a', 'u', 't', 'h', 'o', 'r'] <:+ p.1))
    (hne : orderedPairs (parseFields fs) ≠ []) :
    ∀ kk, (parseFields (renderEntry etype key (parseFields fs))).lookup kk =
      if skipFields.contains kk then none else (parseFields fs).lookup kk := by
  intro kk
  have hwfall : ∀ p ∈ orderedPairs (parseFields fs), wfPair p := by
    intro p hp
    obtain ⟨n, v, rfl, hmem⟩ := orderedPairs_mem hp
    refine ⟨parseFields_names_wf fs (n, v) hmem, ?_⟩
    rw [hcv (n, v) hmem]
    exact hbal (n, v) hmem
  obtain ⟨p0, ps0, hop⟩ : ∃ p0 ps0, orderedPairs (parseFields fs) = p0 :: ps0 := by
    cases hOP : orderedPairs (parseFields fs) with
    | nil => exact absurd hOP hne
    | cons a b => exact ⟨a, b, rfl⟩
  have hrender := renderEntry_eq etype key (parseFields fs) hop
  have hwf0 : ∀ q ∈ p0 :: ps0, wfPair q := fun q hq => hwfall q (by rw [hop]; exact hq)
  have hbody : ∀ init : FieldMap,
      parseLoop (renderEntry etype key (parseFields fs)) init =
        (p0 :: ps0).foldl insStep init := by
    intro init
    rw [hrender]
    exact (parseLoop_congr_match (findFieldMatch_headLine etype key _ he hk) init).trans
      (parseLoop_bodyFrom ps0 p0 hwf0 init)
  have hmapclean : ∀ k0 : List Char,
      ((parseFields fs).lookup k0).map cleanValue = (parseFields fs).lookup k0 := by
    intro k0
    cases h : (parseFields fs).lookup k0 with
    | none => rfl
    | some v => rw [Option.map_some', hcv _ (fmLookup_mem h)]
  cases hA : (parseFields fs).lookup "author".data with
  | some a =>
    have hamem := fmLookup_mem hA
    have hca : cleanValue a = a := hcv _ hamem
    have hba : isBalanced a = true := hbal _ hamem
    have h2 := orderedPairs_author hA
    rw [hop] at h2
    have hp0 : p0 = ("author".data, cleanValue a) := (List.cons.injEq _ _ _ _ ▸ h2).1
    have hFA : findAuthorStart (renderEntry etype key (parseFields fs)) =
        some ('{' :: (cleanValue a ++ '}' :: bodySep ps0)) := by
      rw [hrender, findAuthorStart_headLine _ _ _ he hk, hp0]
      exact findAuthorStart_bodyFrom_author (cleanValue a) ps0
    have hPA : parseAuthorField (renderEntry etype key (parseFields fs)) =
        some (cleanValue a) := by
      rw [parseAuthorField, hFA]
      dsimp only
      rw [if_pos rfl, extractBraced_balanced (by rw [hca]; exact hba) _]
      rfl
    rw [parseFields, hPA]
    dsimp only
    by_cases hcae : cleanValue a ≠ []
    · rw [if_pos hcae, hbody, foldl_insStep_lookup, ← hop, orderedPairs_lookup, fmLookup_cons]
      by_cases hk0 : kk = "author".data
      · rw [if_pos hk0, hk0, hA]
        rw [show skipFields.contains "author".data = false from by decide]
        rw [if_neg (by simp), hca]
        rfl
      · rw [if_neg hk0]
        by_cases hsk : skipFields.contains kk = true
        · rw [hsk, if_pos rfl, if_pos rfl]
          rfl
        · have hsk' : skipFields.contains kk = false := by simpa using hsk
          rw [hsk', if_neg (by simp), if_neg (by simp), hmapclean]
          rfl
    · rw [if_neg hcae, hbody, foldl_insStep_lookup, ← hop, orderedPairs_lookup]
      by_cases hsk : skipFields.contains kk = true
      · rw [hsk, if_pos rfl, if_pos rfl]
        rfl
      · have hsk' : skipFields.contains kk = false := by simpa using hsk
        rw [hsk', if_neg (by simp), if_neg (by simp), hmapclean]
        rfl
  | none =>
    have hnoall : ∀ q ∈ p0 :: ps0, wfPair q ∧ noAuthPair q := by
      intro q hq
      have hq' : q ∈ orderedPairs (parseFields fs) := by rw [hop]; exact hq
      obtain ⟨n, v, rfl, hmem⟩ := orderedPairs_mem hq'
      refine ⟨hwfall _ hq', (hnoa hA _ hmem).2, ?_⟩
      rw [hcv _ hmem]
      exact (hnoa hA _ hmem).1
    have hFA : findAuthorStart (renderEntry etype key (parseFields fs)) = none := by
      rw [hrender, findAuthorStart_headLine _ _ _ he hk]
      exact findAuthorStart_bodyFrom ps0 p0 hnoall
    have hPA : parseAuthorField (renderEntry etype key (parseFields fs)) = none := by
      rw [parseAuthorField, hFA]
    rw [parseFields, hPA]
    dsimp only
    rw [hbody, foldl_insStep_lookup, ← hop, orderedPairs_lookup]
    by_cases hsk : skipFields.contains kk = true
    · rw [hsk, if_pos rfl, if_pos rfl]
      rfl
    · have hsk' : skipFields.contains kk = false := by simpa using hsk
      rw [hsk', if_neg (by simp), if_neg (by simp), hmapclean]
      rfl

/-- The witness record for the amended C3 round-trip. -/
def c3wfs : List Char :=
  "author = \x7bBulbulia, J.\x7d, title = \x7bGods\x7d, year = \x7b2020\x7d".data

theorem claim_C3_witness :
    (parseFields (renderEntry "article".data "k1".data (parseFields c3wfs))).lookup
        "title".data =
      (parseFields c3wfs).lookup "title".data := by
  have h := claim_C3_amended c3wfs "article".data "k1".data (by decide) (by decide)
    (by decide) (by decide) (by decide) (by decide)
  exact (h "title".data).trans (by decide)

theorem posDepth_rawFrom :
    ∀ pairs : List (List Char × List Char), (∀ p ∈ pairs, wfPair p) →
      ∀ d : Nat, 1 ≤ d →
        posDepth (rawFrom pairs []) d = true ∧ depthAfter (rawFrom pairs []) d = d := by
  intro pairs
  induction pairs with
  | nil => intro _ d _; exact ⟨rfl, rfl⟩
  | cons p rest ih =>
    obtain ⟨n, v⟩ := p
    intro hwf d hd
    obtain ⟨⟨-, hn2, -⟩, hbal⟩ := hwf (n, v) (List.mem_cons_self _ _)
    have hnb : ∀ c ∈ n, c ≠ '{' ∧ c ≠ '}' := by
      intro c hc
      have hcw := List.all_eq_true.mp hn2 c hc
      constructor
      · intro hh; subst hh; exact absurd hcw (by decide)
      · intro hh; subst hh; exact absurd hcw (by decide)
    rw [show rawFrom ((n, v) :: rest) [] =
      n ++ ([' ', '=', ' ', '{'] ++ (v ++ (['}', ',', '\n', ' ', ' '] ++ rawFrom rest []))) from
      rfl]
    obtain ⟨hpn, hdn⟩ := posDepth_noBrace n d hnb
    have hmid : depthAfter [' ', '=', ' ', '{'] d = d + 1 := rfl
    have hpmid : posDepth [' ', '=', ' ', '{'] d = true := rfl
    obtain ⟨hpv, hdv⟩ := balanced_posDepth v 0 (d + 1) hbal (by omega)
    rw [Nat.zero_add] at hpv hdv
    have hp5 : posDepth ['}', ',', '\n', ' ', ' '] (d + 1) = true := by
      rw [posDepth, if_neg (by decide), if_pos rfl, Bool.and_eq_true]
      exact ⟨decide_eq_true (by omega), rfl⟩
    have hd5 : depthAfter ['}', ',', '\n', ' ', ' '] (d + 1) = d := by
      rw [depthAfter, if_neg (by decide), if_pos rfl]
      rfl
    obtain ⟨hpr, hdr⟩ := ih (fun q hq => hwf q (List.mem_cons_of_mem _ hq)) d hd
    constructor
    · apply posDepth_append _ _ _ hpn
      rw [hdn]
      apply posDepth_append _ _ _ hpmid
      rw [hmid]
      apply posDepth_append _ _ _ hpv
      rw [hdv]
      apply posDepth_append _ _ _ hp5
      rw [hd5]
      exact hpr
    · rw [depthAfter_append, hdn, depthAfter_append, hmid, depthAfter_append, hdv,
        depthAfter_append, hd5, hdr]

theorem extractBraced_junk {junk : List Char} (hj : posDepth junk 1 = true)
    (pairs2 : List (List Char × List Char)) (hw : ∀ p ∈ pairs2, wfPair p) :
    extractBraced ('{' :: (junk ++ ',' :: '\n' :: ' ' :: ' ' :: rawFrom pairs2 [])) = none := by
  rw [extractBraced, if_pos rfl]
  apply bracedAux_posDepth
  rw [show junk ++ ',' :: '\n' :: ' ' :: ' ' :: rawFrom pairs2 [] =
    junk ++ ([',', '\n', ' ', ' '] ++ rawFrom pairs2 []) from rfl]
  apply posDepth_append _ _ _ hj
  have hd1 : 1 ≤ depthAfter junk 1 := depthAfter_pos junk 1 hj (by omega)
  apply posDepth_append
  · rfl
  · exact (posDepth_rawFrom pairs2 hw (depthAfter junk 1) hd1).1

theorem foldl_insStep_eq_append :
    ∀ (pairs : List (List Char × List Char)) (m : FieldMap),
      (∀ p ∈ pairs, m.lookup p.1 = none) → (pairs.map Prod.fst).Nodup →
      pairs.foldl insStep m = m ++ pairs := by
  intro pairs
  induction pairs with
  | nil => intro m _ _; rw [List.foldl_nil, List.append_nil]
  | cons p rest ih =>
    obtain ⟨n, v⟩ := p
    intro m hm hnd
    rw [List.map_cons, List.nodup_cons] at hnd
    rw [List.foldl_cons]
    have hins : insStep m (n, v) = m ++ [(n, v)] := by
      rw [show insStep m (n, v) = insertIfAbsent m n v from rfl, insertIfAbsent,
        if_neg (by rw [hm (n, v) (List.mem_cons_self _ _)]; simp)]
    rw [hins, ih (m ++ [(n, v)]) ?_ hnd.2]
    · rw [List.append_assoc]
      rfl
    · intro q hq
      rw [fmLookup_append, hm q (List.mem_cons_of_mem _ hq), fmLookup_cons,
        if_neg ?_]
      · rfl
      · intro hh
        have hq' := List.mem_map_of_mem Prod.fst hq
        apply hnd.1
        rw [← hh]
        exact hq'

instance decWfName (n : List Char) : Decidable (wfName n) := by
  unfold wfName
  infer_instance

instance decWfPair (p : List Char × List Char) : Decidable (wfPair p) := by
  unfold wfPair
  infer_instance

instance decNoAuthPair (p : List Char × List Char) : Decidable (noAuthPair p) := by
  unfold noAuthPair
  infer_instance

/-- A raw field string with one unterminated braced value between two
blocks of well-formed field lines. -/
def c4Str (pairs1 : List (List Char × List Char)) (bad junk : List Char)
    (pairs2 : List (List Char × List Char)) : List Char :=
  rawFrom pairs1
    (bad ++ ' ' :: '=' :: ' ' :: '{' ::
      (junk ++ ',' :: '\n' :: ' ' :: ' ' :: rawFrom pairs2 []))

/-- C4: on a raw field string with one value whose brace group never
closes (depth stays positive through the rest of the string), the
tokenizer — a total function, so no exception is possible — still
returns exactly the other, correctly delimited fields; only the
offending name and value are dropped. -/
theorem claim_C4 (pairs1 pairs2 : List (List Char × List Char)) (bad junk : List Char)
    (h1 : ∀ p ∈ pairs1 ++ pairs2, wfPair p ∧ noAuthPair p)
    (hb1 : bad ≠ []) (hb2 : bad.all isWordChar = true)
    (hb3 : bad.map Char.toLower = bad) (hb4 : ¬(['a', 'u', 't', 'h', 'o', 'r'] <:+ bad))
    (hj1 : '=' ∉ junk) (hj2 : posDepth junk 1 = true)
    (hj3 : findAuthorStart (junk ++ [',']) = none)
    (hnd : ((pairs1 ++ pairs2).map Prod.fst).Nodup) :
    parseFields (c4Str pairs1 bad junk pairs2) = pairs1 ++ pairs2 := by
  have hw1 : ∀ p ∈ pairs1, wfPair p := fun p hp => (h1 p (List.mem_append_left _ hp)).1
  have hw2 : ∀ p ∈ pairs2, wfPair p := fun p hp => (h1 p (List.mem_append_right _ hp)).1
  have hFA : findAuthorStart (c4Str pairs1 bad junk pairs2) = none := by
    rw [c4Str]
    apply findAuthorStart_rawFrom pairs1
      (fun p hp => ⟨(h1 p (List.mem_append_left _ hp)).1, (h1 p (List.mem_append_left _ hp)).2⟩)
    rw [findAuthorStart_skip_name _ bad hb2 hb3 hb4,
      findAuthorStart_cons_skip (by decide),
      findAuthorStart_skip_val ',' (by decide) (by decide) (by decide) _ junk hj3,
      findAuthorStart_cons_skip (by decide), findAuthorStart_cons_skip (by decide),
      findAuthorStart_cons_skip (by decide)]
    exact findAuthorStart_rawFrom pairs2
      (fun p hp =>
        ⟨(h1 p (List.mem_append_right _ hp)).1, (h1 p (List.mem_append_right _ hp)).2⟩)
      [] rfl
  have hPA : parseAuthorField (c4Str pairs1 bad junk pairs2) = none := by
    rw [parseAuthorField, hFA]
  rw [parseFields, hPA]
  dsimp only
  rw [c4Str, parseLoop_rawFrom pairs1 hw1 _ [], parseLoop_eq,
    findFieldMatch_line bad hb1 hb2 _]
  dsimp only
  rw [if_pos rfl, extractBraced_junk hj2 pairs2 hw2]
  dsimp only
  have hmatch : findFieldMatch
      ('{' :: (junk ++ ',' :: '\n' :: ' ' :: ' ' :: rawFrom pairs2 [])) =
      findFieldMatch (rawFrom pairs2 []) := by
    rw [findFieldMatch_cons_skip (by decide), findFieldMatch_skip_noEq junk _ hj1,
      findFieldMatch_cons_skip (by decide), findFieldMatch_cons_skip (by decide),
      findFieldMatch_cons_skip (by decide)]
  rw [parseLoop_congr_match hmatch, parseLoop_rawFrom pairs2 hw2 [] _, parseLoop_nil,
    ← List.foldl_append,
    foldl_insStep_eq_append (pairs1 ++ pairs2) [] (fun p _ => rfl) hnd, List.nil_append]

theorem claim_C4_witness :
    parseFields (c4Str [("journal".data, "Nature".data)] "title".data "bad brace".data
        [("year".data, "2020".data), ("note".data, "ok".data)]) =
      [("journal".data, "Nature".data), ("year".data, "2020".data),
        ("note".data, "ok".data)] :=
  claim_C4 [("journal".data, "Nature".data)]
    [("year".data, "2020".data), ("note".data, "ok".data)] "title".data "bad brace".data
    (by decide) (by decide) (by decide) (by decide) (by decide) (by decide) (by decide)
    (by decide) (by decide)
